import Mathlib

/-!
Verification development for the `jul` Yul-dialect transpiler front end.

The definitions below are shallow embeddings of the transpiler's own
functions (the constant folder `fold`, the ABI hashing helpers, the struct
packer, the method/calldata lowering, the dispatcher synthesis, the
inline-suppression padding `NoInline` with its `codeSize` walker, the
preprocessor `Fold` rewrite case, and the numeric-literal scanners and the
`emit` statement grammar of the recursive-descent parser).  JavaScript
BigInt values are modelled as `ℕ`/`ℤ` with explicit reductions modulo
`2 ^ 256` exactly where the source masks with `U256_MAX`; textual numeral
values of literal nodes are modelled by the natural number they denote
(the source keeps canonical digit strings, on which its `isZero`/`isOne`
regex tests agree with the numeric tests used here); decoded string
literal contents are modelled as byte lists.  Fallible code is modelled
with `Option`/`Except`.
-/

namespace Jul

/-- `2 ^ 256`, the EVM word modulus. -/
def U256 : ℕ := 2 ^ 256

/-- `U256_MAX = (1n << 256n) - 1n` from the source. -/
def u256Max : ℕ := U256 - 1

/-- `I256_SIGN = 1n << 255n` from the source. -/
def i256Sign : ℕ := 2 ^ 255

/-! ### Literal payloads and expressions

`LVal` models the `value` (together with the `subtype`) of a `Literal`
AST node: `num` covers the `HexNumber`/`DecimalNumber` subtypes (the
denoted magnitude; parsed values are non-negative since the parser
materialises negative literals in two's complement), `str` a
`StringLiteral` (decoded bytes), `hexlit` a `HexLiteral`, `bool` a
`BoolLiteral`. -/
inductive LVal where
  | num (n : ℕ)
  | str (bytes : List ℕ)
  | hexlit (bytes : List ℕ)
  | bool (b : Bool)
deriving Repr, DecidableEq

/-- Expression-level AST slice used by the constant folder: `Literal`,
`Identifier` and `FunctionCall` nodes (the call's `name` identifier node
is flattened to its string value, which is all `fold` consults). -/
inductive Expr where
  | lit (v : LVal)
  | ident (name : String)
  | call (name : String) (args : List Expr)
deriving Repr

/-- `isLiteral` from the source: a `Literal` node whose subtype is
`HexNumber`, `DecimalNumber` or `BoolLiteral`. -/
def isLiteral : Expr → Bool
  | .lit (.num _) => true
  | .lit (.bool _) => true
  | _ => false

/-- `isStringLiteral` from the source. -/
def isStringLiteral : Expr → Bool
  | .lit (.str _) => true
  | _ => false

/-- `isLiterals` from the source. -/
def isLiterals (args : List Expr) : Bool := args.all isLiteral

/-- `toBigInt` from the source, on a literal node's value (`'true'`/`'false'`
map to 1/0, numerals to their magnitude); `fold` only applies it under an
`isLiteral` guard, so the `str`/`hexlit` rows are inert defaults. -/
def toBigInt : LVal → ℕ
  | .num n => n
  | .bool b => if b then 1 else 0
  | .str _ => 0
  | .hexlit _ => 0

/-- The numeric value of a literal expression (i.e. `toBigInt(node.value)`). -/
def litNat : Expr → ℕ
  | .lit v => toBigInt v
  | _ => 0

/-- `isZero` from the source (regex test on the canonical value text,
equivalently: a numeric/boolean literal denoting 0). -/
def isZero : Expr → Bool
  | .lit (.num n) => n == 0
  | .lit (.bool b) => !b
  | _ => false

/-- `isOne` from the source. -/
def isOne : Expr → Bool
  | .lit (.num n) => n == 1
  | .lit (.bool b) => b
  | _ => false

/-- JavaScript BigInt `i & U256_MAX` (two's-complement truncation to 256
bits, always non-negative). -/
def toWord (i : ℤ) : ℕ := (i.emod (U256 : ℤ)).toNat

/-- The `Literal(value)` AST helper composed with `SubLiteral`: the value
is masked with `U256_MAX` and stored as a numeric literal node. -/
def Lit (i : ℤ) : Expr := .lit (.num (toWord i))

/-- JavaScript `Number(cond)` on a comparison result, as fed to `Literal`. -/
def boolInt (p : Prop) [Decidable p] : ℤ := if p then 1 else 0

/-- The source's signed reinterpretation `if (x & I256_SIGN) x = -(-x & U256_MAX)`
of a 256-bit word, in JavaScript BigInt semantics. -/
def jsSigned (x : ℕ) : ℤ :=
  if x &&& i256Sign != 0 then -((-(x : ℤ)).emod (U256 : ℤ)) else (x : ℤ)

/-- The `Gt(x, y)` AST helper. -/
def GtE (x y : Expr) : Expr := .call "gt" [x, y]

/-- The `Lt(x, y)` AST helper. -/
def LtE (x y : Expr) : Expr := .call "lt" [x, y]

/-- The `IsZero(x)` AST helper. -/
def IsZeroE (x : Expr) : Expr := .call "iszero" [x]

/-- `bswap16` from the source. -/
def bswap16 (x : ℕ) : ℕ :=
  ((x &&& 0x00ff) <<< 8) ||| ((x &&& 0xff00) >>> 8)

/-- `bswap32` from the source. -/
def bswap32 (x : ℕ) : ℕ :=
  let x := ((x &&& 0x0000ffff) <<< 16) ||| ((x &&& 0xffff0000) >>> 16)
  ((x &&& 0x00ff00ff) <<< 8) ||| ((x &&& 0xff00ff00) >>> 8)

/-- `bswap64` from the source. -/
def bswap64 (x : ℕ) : ℕ :=
  let x := ((x &&& 0x00000000ffffffff) <<< 32) ||| ((x &&& 0xffffffff00000000) >>> 32)
  let x := ((x &&& 0x0000ffff0000ffff) <<< 16) ||| ((x &&& 0xffff0000ffff0000) >>> 16)
  ((x &&& 0x00ff00ff00ff00ff) <<< 8) ||| ((x &&& 0xff00ff00ff00ff00) >>> 8)

/-! ### The constant folder

Each `foldOp` definition below is the body of the corresponding `case` of
the source's `fold(name, args)` switch, in the source's order of checks;
`fold` itself is the dispatching switch.  A `none` result models the
source returning `null` (no replacement). -/

/-- `case 'add'` of `fold`. -/
def foldAdd (args : List Expr) : Option Expr :=
  match args with
  | [a, b] =>
    if isZero a then some b
    else if isZero b then some a
    else if !isLiterals [a, b] then none
    else some (Lit ((litNat a : ℤ) + (litNat b : ℤ)))
  | _ => none

/-- `case 'sub'` of `fold`. -/
def foldSub (args : List Expr) : Option Expr :=
  match args with
  | [a, b] =>
    if isZero b then some a
    else if !isLiterals [a, b] then none
    else some (Lit ((litNat a : ℤ) - (litNat b : ℤ)))
  | _ => none

/-- `case 'mul'` of `fold`. -/
def foldMul (args : List Expr) : Option Expr :=
  match args with
  | [a, b] =>
    if isZero a || isZero b then some (Lit 0)
    else if isOne a then some b
    else if isOne b then some a
    else if !isLiterals [a, b] then none
    else some (Lit ((litNat a : ℤ) * (litNat b : ℤ)))
  | _ => none

/-- `case 'div'` / `case 'sdiv'` of `fold`. -/
def foldDivSdiv (name : String) (args : List Expr) : Option Expr :=
  match args with
  | [a, b] =>
    if isZero a || isZero b then some (Lit 0)
    else if name == "div" && isOne b then some a
    else if !isLiterals [a, b] then none
    else
      let x : ℤ := if name == "sdiv" then jsSigned (litNat a) else (litNat a : ℤ)
      let y : ℤ := if name == "sdiv" then jsSigned (litNat b) else (litNat b : ℤ)
      some (Lit (x.tdiv y))
  | _ => none

/-- `case 'mod'` / `case 'smod'` of `fold`. -/
def foldModSmod (name : String) (args : List Expr) : Option Expr :=
  match args with
  | [a, b] =>
    if isZero a || isZero b then some (Lit 0)
    else if isOne b then some (Lit 0)
    else if !isLiterals [a, b] then none
    else
      let x : ℤ := if name == "smod" then jsSigned (litNat a) else (litNat a : ℤ)
      let y : ℤ := if name == "smod" then jsSigned (litNat b) else (litNat b : ℤ)
      some (Lit (x.tmod y))
  | _ => none

/-- `case 'exp'` of `fold`. -/
def foldExp (args : List Expr) : Option Expr :=
  match args with
  | [a, b] =>
    if isZero b then some (Lit 1)
    else if isOne b then some a
    else if isZero a then some (Lit 0)
    else if !isLiterals [a, b] then none
    else some (Lit ((litNat a ^ litNat b : ℕ) : ℤ))
  | _ => none

/-- `case 'addmod'` of `fold`. -/
def foldAddmod (args : List Expr) : Option Expr :=
  match args with
  | [a, b, m] =>
    if isZero m then some (Lit 0)
    else if !isLiterals [a, b, m] then none
    else some (Lit (((litNat a + litNat b) % litNat m : ℕ) : ℤ))
  | _ => none

/-- `case 'mulmod'` of `fold`. -/
def foldMulmod (args : List Expr) : Option Expr :=
  match args with
  | [a, b, m] =>
    if isZero a || isZero b || isZero m then some (Lit 0)
    else if !isLiterals [a, b, m] then none
    else some (Lit ((litNat a * litNat b % litNat m : ℕ) : ℤ))
  | _ => none

/-- `case 'not'` of `fold`. -/
def foldNot (args : List Expr) : Option Expr :=
  match args with
  | [a] =>
    if !isLiterals [a] then none
    else some (Lit ((litNat a ^^^ u256Max : ℕ) : ℤ))
  | _ => none

/-- `case 'and'` of `fold`. -/
def foldAnd (args : List Expr) : Option Expr :=
  match args with
  | [a, b] =>
    if isZero a then some (Lit 0)
    else if isZero b then some (Lit 0)
    else if !isLiterals [a, b] then none
    else some (Lit ((litNat a &&& litNat b : ℕ) : ℤ))
  | _ => none

/-- `case 'or'` of `fold`. -/
def foldOr (args : List Expr) : Option Expr :=
  match args with
  | [a, b] =>
    if isZero a then some b
    else if isZero b then some a
    else if !isLiterals [a, b] then none
    else some (Lit ((litNat a ||| litNat b : ℕ) : ℤ))
  | _ => none

/-- `case 'xor'` of `fold`. -/
def foldXor (args : List Expr) : Option Expr :=
  match args with
  | [a, b] =>
    if isZero a then some b
    else if isZero b then some a
    else if !isLiterals [a, b] then none
    else some (Lit ((litNat a ^^^ litNat b : ℕ) : ℤ))
  | _ => none

/-- `case 'shl'` of `fold` (the first argument is the shift amount). -/
def foldShl (args : List Expr) : Option Expr :=
  match args with
  | [s, a] =>
    if isZero s then some a
    else if !isLiterals [s, a] then none
    else some (Lit ((litNat a <<< litNat s : ℕ) : ℤ))
  | _ => none

/-- `case 'shr'` / `case 'sar'` of `fold`. -/
def foldShrSar (name : String) (args : List Expr) : Option Expr :=
  match args with
  | [s, a] =>
    if isZero s then some a
    else if !isLiterals [s, a] then none
    else
      let num : ℤ := if name == "sar" then jsSigned (litNat a) else (litNat a : ℤ)
      some (Lit (num.fdiv ((2 : ℤ) ^ litNat s)))
  | _ => none

/-- `case 'signextend'` of `fold` (the source's local `bit`/`mask`
bindings are expanded in place). -/
def foldSignextend (args : List Expr) : Option Expr :=
  match args with
  | [b, x] =>
    if !isLiterals [b, x] then none
    else if litNat b > 31 then some (Lit (litNat x : ℤ))
    else if litNat x &&& (1 <<< (litNat b * 8 + 7)) != 0 then
      some (Lit ((litNat x ||| (((1 <<< (litNat b * 8 + 7)) - 1) ^^^ u256Max) : ℕ) : ℤ))
    else some (Lit ((litNat x &&& ((1 <<< (litNat b * 8 + 7)) - 1) : ℕ) : ℤ))
  | _ => none

/-- `case 'byte'` of `fold` (the source's local `shift` binding is
expanded in place). -/
def foldByte (args : List Expr) : Option Expr :=
  match args with
  | [p, x] =>
    if !isLiterals [p, x] then none
    else if litNat p > 31 then some (Lit 0)
    else some (Lit (((litNat x >>> ((31 - litNat p) <<< 3)) &&& 0xff : ℕ) : ℤ))
  | _ => none

/-- `case 'iszero'` of `fold`: strengthening rewrites for `iszero(lt(x, L))`
and `iszero(gt(x, L))` with literal `L` (the source's `isLtCall`/`isGtCall`
tests), then literal evaluation.  A two-argument call that is neither `lt`
nor `gt`, and any other non-literal argument, yields the source's trailing
`null`. -/
def foldIszero (args : List Expr) : Option Expr :=
  match args with
  | [a] =>
    match a with
    | .call nm [x, y] =>
      if nm == "lt" then
        if isLiteral y then
          if litNat y == 0 then some (Lit 1)
          else some (GtE x (Lit ((litNat y : ℤ) - 1)))
        else none
      else if nm == "gt" then
        if isLiteral y then
          if litNat y == u256Max then some (Lit 1)
          else some (LtE x (Lit ((litNat y : ℤ) + 1)))
        else none
      else none
    | b =>
      if !isLiteral b then none
      else some (Lit (boolInt (litNat b = 0)))
  | _ => none

/-- The decoded contents of a string literal (the source's
`JSON.parse(node.value)`, as bytes); inert default elsewhere. -/
def strBytes : Expr → List ℕ
  | .lit (.str s) => s
  | _ => []

/-- `case 'eq'` of `fold`. -/
def foldEqOp (args : List Expr) : Option Expr :=
  match args with
  | [a, b] =>
    if isStringLiteral a && isStringLiteral b then
      some (Lit (boolInt (strBytes a = strBytes b)))
    else if isLiterals [a, b] then some (Lit (boolInt (litNat a = litNat b)))
    else if isZero a then some (IsZeroE b)
    else if isZero b then some (IsZeroE a)
    else none
  | _ => none

/-- `case 'lt'` / `case 'slt'` of `fold`. -/
def foldLtSlt (name : String) (args : List Expr) : Option Expr :=
  match args with
  | [a, b] =>
    if !isLiterals [a, b] then none
    else
      let x : ℤ := if name == "slt" then jsSigned (litNat a) else (litNat a : ℤ)
      let y : ℤ := if name == "slt" then jsSigned (litNat b) else (litNat b : ℤ)
      some (Lit (boolInt (x < y)))
  | _ => none

/-- `case 'gt'` / `case 'sgt'` of `fold`. -/
def foldGtSgt (name : String) (args : List Expr) : Option Expr :=
  match args with
  | [a, b] =>
    if !isLiterals [a, b] then none
    else
      let x : ℤ := if name == "sgt" then jsSigned (litNat a) else (litNat a : ℤ)
      let y : ℤ := if name == "sgt" then jsSigned (litNat b) else (litNat b : ℤ)
      some (Lit (boolInt (x > y)))
  | _ => none

/-- `case '__bswap16/32/64'` of `fold`. -/
def foldBswap (name : String) (args : List Expr) : Option Expr :=
  match args with
  | [a] =>
    if !isLiterals [a] then none
    else
      let x := litNat a
      let y := if name == "__bswap16" then bswap16 x
               else if name == "__bswap32" then bswap32 x
               else bswap64 x
      some (Lit (y : ℤ))
  | _ => none

/-- The opcode names recognised by both the constant folder and the EVM
evaluation semantics. -/
inductive Op where
  | add | sub | mul | div | sdiv | mod | smod | exp | addmod | mulmod
  | not | and | or | xor | shl | shr | sar | signextend | byte
  | iszero | eq | lt | gt | slt | sgt
deriving Repr, DecidableEq

/-- Opcode-name recognition (the string comparisons performed by the
source's switches). -/
def opOfName (name : String) : Option Op :=
  if name = "add" then some .add
  else if name = "sub" then some .sub
  else if name = "mul" then some .mul
  else if name = "div" then some .div
  else if name = "sdiv" then some .sdiv
  else if name = "mod" then some .mod
  else if name = "smod" then some .smod
  else if name = "exp" then some .exp
  else if name = "addmod" then some .addmod
  else if name = "mulmod" then some .mulmod
  else if name = "not" then some .not
  else if name = "and" then some .and
  else if name = "or" then some .or
  else if name = "xor" then some .xor
  else if name = "shl" then some .shl
  else if name = "shr" then some .shr
  else if name = "sar" then some .sar
  else if name = "signextend" then some .signextend
  else if name = "byte" then some .byte
  else if name = "iszero" then some .iszero
  else if name = "eq" then some .eq
  else if name = "lt" then some .lt
  else if name = "gt" then some .gt
  else if name = "slt" then some .slt
  else if name = "sgt" then some .sgt
  else none

/-- Dispatch of one `case` of the source's `fold` switch. -/
def foldOp : Op → List Expr → Option Expr
  | .add, args => foldAdd args
  | .sub, args => foldSub args
  | .mul, args => foldMul args
  | .div, args => foldDivSdiv "div" args
  | .sdiv, args => foldDivSdiv "sdiv" args
  | .mod, args => foldModSmod "mod" args
  | .smod, args => foldModSmod "smod" args
  | .exp, args => foldExp args
  | .addmod, args => foldAddmod args
  | .mulmod, args => foldMulmod args
  | .not, args => foldNot args
  | .and, args => foldAnd args
  | .or, args => foldOr args
  | .xor, args => foldXor args
  | .shl, args => foldShl args
  | .shr, args => foldShrSar "shr" args
  | .sar, args => foldShrSar "sar" args
  | .signextend, args => foldSignextend args
  | .byte, args => foldByte args
  | .iszero, args => foldIszero args
  | .eq, args => foldEqOp args
  | .lt, args => foldLtSlt "lt" args
  | .slt, args => foldLtSlt "slt" args
  | .gt, args => foldGtSgt "gt" args
  | .sgt, args => foldGtSgt "sgt" args

/-- `fold(name, args)` from the source: the constant-folding switch on the
called opcode name. -/
def fold (name : String) (args : List Expr) : Option Expr :=
  match opOfName name with
  | some op => foldOp op args
  | none =>
    if name = "__bswap16" ∨ name = "__bswap32" ∨ name = "__bswap64" then
      foldBswap name args
    else none

/-! ### 256-bit EVM evaluation semantics

This is the specification side of claim C1: the semantics of the folded
opcodes per the EVM (Yellow Paper), over words in `[0, 2^256)`. -/

/-- Two's-complement signed reading of a word. -/
def toSigned (x : ℕ) : ℤ := if x < i256Sign then (x : ℤ) else (x : ℤ) - (U256 : ℤ)

def evmAdd (a b : ℕ) : ℕ := (a + b) % U256
def evmSub (a b : ℕ) : ℕ := toWord ((a : ℤ) - (b : ℤ))
def evmMul (a b : ℕ) : ℕ := a * b % U256
def evmDiv (a b : ℕ) : ℕ := if b = 0 then 0 else a / b
def evmSdiv (a b : ℕ) : ℕ := if b = 0 then 0 else toWord ((toSigned a).tdiv (toSigned b))
def evmMod (a b : ℕ) : ℕ := if b = 0 then 0 else a % b
def evmSmod (a b : ℕ) : ℕ := if b = 0 then 0 else toWord ((toSigned a).tmod (toSigned b))
def evmExp (a b : ℕ) : ℕ := a ^ b % U256
def evmAddmod (a b m : ℕ) : ℕ := if m = 0 then 0 else (a + b) % m
def evmMulmod (a b m : ℕ) : ℕ := if m = 0 then 0 else a * b % m
def evmNot (a : ℕ) : ℕ := a ^^^ u256Max
def evmAnd (a b : ℕ) : ℕ := a &&& b
def evmOr (a b : ℕ) : ℕ := a ||| b
def evmXor (a b : ℕ) : ℕ := a ^^^ b
def evmShl (s v : ℕ) : ℕ := (v <<< s) % U256
def evmShr (s v : ℕ) : ℕ := v >>> s
def evmSar (s v : ℕ) : ℕ := toWord ((toSigned v).fdiv ((2 : ℤ) ^ s))
def evmByte (p v : ℕ) : ℕ := if p > 31 then 0 else (v >>> (8 * (31 - p))) &&& 0xff
def evmIszero (a : ℕ) : ℕ := if a = 0 then 1 else 0
def evmEq (a b : ℕ) : ℕ := if a = b then 1 else 0
def evmLt (a b : ℕ) : ℕ := if a < b then 1 else 0
def evmGt (a b : ℕ) : ℕ := if b < a then 1 else 0
def evmSlt (a b : ℕ) : ℕ := if toSigned a < toSigned b then 1 else 0
def evmSgt (a b : ℕ) : ℕ := if toSigned b < toSigned a then 1 else 0

def evmSignextend (b x : ℕ) : ℕ :=
  if 32 ≤ b then x
  else if x.testBit (8 * b + 7) then x ||| (u256Max ^^^ (2 ^ (8 * b + 7 + 1) - 1))
  else x &&& (2 ^ (8 * b + 7 + 1) - 1)

/-- Apply a unary word operation to an argument list of matching arity. -/
def sem1 (f : ℕ → ℕ) : List ℕ → Option ℕ
  | [a] => some (f a)
  | _ => none

/-- Apply a binary word operation to an argument list of matching arity. -/
def sem2 (f : ℕ → ℕ → ℕ) : List ℕ → Option ℕ
  | [a, b] => some (f a b)
  | _ => none

/-- Apply a ternary word operation to an argument list of matching arity. -/
def sem3 (f : ℕ → ℕ → ℕ → ℕ) : List ℕ → Option ℕ
  | [a, b, c] => some (f a b c)
  | _ => none

/-- Word semantics of one opcode. -/
def opApply : Op → List ℕ → Option ℕ
  | .add, vs => sem2 evmAdd vs
  | .sub, vs => sem2 evmSub vs
  | .mul, vs => sem2 evmMul vs
  | .div, vs => sem2 evmDiv vs
  | .sdiv, vs => sem2 evmSdiv vs
  | .mod, vs => sem2 evmMod vs
  | .smod, vs => sem2 evmSmod vs
  | .exp, vs => sem2 evmExp vs
  | .addmod, vs => sem3 evmAddmod vs
  | .mulmod, vs => sem3 evmMulmod vs
  | .not, vs => sem1 evmNot vs
  | .and, vs => sem2 evmAnd vs
  | .or, vs => sem2 evmOr vs
  | .xor, vs => sem2 evmXor vs
  | .shl, vs => sem2 evmShl vs
  | .shr, vs => sem2 evmShr vs
  | .sar, vs => sem2 evmSar vs
  | .signextend, vs => sem2 evmSignextend vs
  | .byte, vs => sem2 evmByte vs
  | .iszero, vs => sem1 evmIszero vs
  | .eq, vs => sem2 evmEq vs
  | .lt, vs => sem2 evmLt vs
  | .gt, vs => sem2 evmGt vs
  | .slt, vs => sem2 evmSlt vs
  | .sgt, vs => sem2 evmSgt vs

/-- Semantics of a called name applied to argument words; `none` for a name
that is not one of the folded EVM opcodes (or for a wrong arity). -/
def opSem (name : String) (vs : List ℕ) : Option ℕ :=
  (opOfName name).bind fun op => opApply op vs

/-- Big-endian base-256 value of a byte list. -/
def bytesVal (bs : List ℕ) : ℕ := bs.foldl (fun a b => a * 256 + b) 0

/-- The EVM word denoted by a string/hex literal: its bytes left-aligned
(right-padded with zeros) in a 32-byte word, as in Yul.  Inputs longer
than 32 bytes (rejected downstream) are truncated, and bytes are reduced
mod 256, so the result is always a word. -/
def padWord (bs : List ℕ) : ℕ :=
  bytesVal ((bs.take 32).map (· % 256)) * 256 ^ (32 - min bs.length 32)

/-- The EVM word a literal node evaluates to. -/
def litWord : LVal → ℕ
  | .num n => n % U256
  | .bool b => if b then 1 else 0
  | .str bs => padWord bs
  | .hexlit bs => padWord bs

mutual

/-- Evaluation of an expression under a valuation `σ` of the identifiers
(the claim's "valuation of the remaining non-literal arguments"); `none`
when a call to a non-opcode name is reached. -/
def evalE (σ : String → ℕ) : Expr → Option ℕ
  | .lit v => some (litWord v)
  | .ident x => some (σ x % U256)
  | .call name args => (evalArgs σ args).bind fun vs => opSem name vs

def evalArgs (σ : String → ℕ) : List Expr → Option (List ℕ)
  | [] => some []
  | e :: es => (evalE σ e).bind fun v => (evalArgs σ es).map fun vs => v :: vs

end

/-! ### Well-formedness

Invariants of literal nodes: numeric literal values fit in 256 bits (the
parser bounds them and every `Literal(...)` construction masks with
`U256_MAX`), and string literal contents are at most 32 bytes (larger
string literals do not denote Yul words) with byte values below 256.
Note the parser places no further restriction on string contents — in
particular a string literal may end in a zero byte, which is invisible in
the right-padded word it denotes; see `fold_unsound_counterexamples`. -/

def wfStr (bs : List ℕ) : Bool :=
  decide (bs.length ≤ 32) && bs.all (· < 256)

mutual

def WF : Expr → Bool
  | .lit (.num n) => decide (n < U256)
  | .lit (.str bs) => wfStr bs
  | .lit _ => true
  | .ident _ => true
  | .call _ args => WFargs args

def WFargs : List Expr → Bool
  | [] => true
  | e :: es => WF e && WFargs es

end

theorem WFargs_mem {args : List Expr} (hw : WFargs args = true) :
    ∀ e ∈ args, WF e = true := by
  induction args with
  | nil => intro e he; cases he
  | cons a as ih =>
    intro e he
    rw [WFargs, Bool.and_eq_true] at hw
    rcases List.mem_cons.mp he with rfl | he
    · exact hw.1
    · exact ih hw.2 e he

/-! ### Basic evaluation lemmas -/

theorem U256_pos : 0 < U256 := Nat.pos_pow_of_pos _ (by norm_num)

theorem toWord_lt (i : ℤ) : toWord i < U256 := by
  have h1 : i.emod (U256 : ℤ) < (U256 : ℤ) :=
    Int.emod_lt_of_pos _ (by exact_mod_cast U256_pos)
  have h0 : 0 ≤ i.emod (U256 : ℤ) :=
    Int.emod_nonneg _ (by exact_mod_cast U256_pos.ne')
  unfold toWord
  omega

theorem toWord_natCast (n : ℕ) : toWord (n : ℤ) = n % U256 := by
  show ((n : ℤ) % (U256 : ℤ)).toNat = n % U256
  rw [← Int.natCast_mod, Int.toNat_natCast]

theorem bytesVal_from (t : List ℕ) (acc : ℕ) :
    t.foldl (fun a b => a * 256 + b) acc = acc * 256 ^ t.length + bytesVal t := by
  induction t generalizing acc with
  | nil => simp [bytesVal]
  | cons c t ih =>
    simp only [List.foldl_cons, List.length_cons, bytesVal]
    rw [ih (acc * 256 + c), ih (0 * 256 + c)]
    ring

theorem bytesVal_cons (a : ℕ) (t : List ℕ) :
    bytesVal (a :: t) = a * 256 ^ t.length + bytesVal t := by
  unfold bytesVal
  simpa using bytesVal_from t a

theorem bytesVal_lt (l : List ℕ) (hb : ∀ b ∈ l, b < 256) :
    bytesVal l < 256 ^ l.length := by
  induction l with
  | nil => simp [bytesVal]
  | cons a t ih =>
    have ha : a < 256 := hb a (List.mem_cons_self ..)
    have ht : bytesVal t < 256 ^ t.length := ih fun b h => hb b (List.mem_cons_of_mem _ h)
    rw [bytesVal_cons, List.length_cons, pow_succ]
    calc a * 256 ^ t.length + bytesVal t
        < a * 256 ^ t.length + 256 ^ t.length := by omega
      _ = (a + 1) * 256 ^ t.length := by ring
      _ ≤ 256 * 256 ^ t.length := by
          exact Nat.mul_le_mul_right _ (by omega)
      _ = 256 ^ t.length * 256 := by ring

theorem pow256_32 : (256 : ℕ) ^ 32 = U256 := by
  show ((2 : ℕ) ^ 8) ^ 32 = 2 ^ 256
  rw [← pow_mul]

theorem padWord_lt (bs : List ℕ) : padWord bs < U256 := by
  unfold padWord
  have hlen : ((bs.take 32).map (· % 256)).length = min bs.length 32 := by
    simp only [List.length_map, List.length_take]
    omega
  have hb : ∀ b ∈ (bs.take 32).map (· % 256), b < 256 := by
    intro b hbm
    rcases List.mem_map.mp hbm with ⟨c, _, rfl⟩
    exact Nat.mod_lt _ (by norm_num)
  have h1 := bytesVal_lt _ hb
  rw [hlen] at h1
  have hmin : min bs.length 32 ≤ 32 := min_le_right _ _
  calc bytesVal ((bs.take 32).map (· % 256)) * 256 ^ (32 - min bs.length 32)
      < 256 ^ min bs.length 32 * 256 ^ (32 - min bs.length 32) :=
        mul_lt_mul_of_pos_right h1 (pow_pos (by norm_num) _)
    _ = 256 ^ (min bs.length 32 + (32 - min bs.length 32)) := by rw [pow_add]
    _ = 256 ^ 32 := by congr 1; omega
    _ = U256 := pow256_32

theorem one_lt_U256 : 1 < U256 := by
  unfold U256
  exact Nat.one_lt_two_pow (by norm_num)

theorem u256Max_lt : u256Max < U256 := by
  have := U256_pos
  unfold u256Max
  omega

theorem litWord_lt (v : LVal) : litWord v < U256 := by
  cases v with
  | num n => exact Nat.mod_lt _ U256_pos
  | bool b =>
    cases b with
    | false => exact U256_pos
    | true => exact one_lt_U256
  | str bs => exact padWord_lt bs
  | hexlit bs => exact padWord_lt bs

theorem U256_eq_pow : U256 = 2 ^ 256 := rfl

theorem evmAdd_lt (a b : ℕ) : evmAdd a b < U256 := Nat.mod_lt _ U256_pos
theorem evmSub_lt (a b : ℕ) : evmSub a b < U256 := toWord_lt _
theorem evmMul_lt (a b : ℕ) : evmMul a b < U256 := Nat.mod_lt _ U256_pos
theorem evmExp_lt (a b : ℕ) : evmExp a b < U256 := Nat.mod_lt _ U256_pos
theorem evmShl_lt (s v : ℕ) : evmShl s v < U256 := Nat.mod_lt _ U256_pos

theorem evmDiv_lt {a : ℕ} (b : ℕ) (ha : a < U256) : evmDiv a b < U256 := by
  unfold evmDiv
  split
  · exact U256_pos
  · exact lt_of_le_of_lt (Nat.div_le_self _ _) ha

theorem evmSdiv_lt (a b : ℕ) : evmSdiv a b < U256 := by
  unfold evmSdiv
  split
  · exact U256_pos
  · exact toWord_lt _

theorem evmMod_lt {a : ℕ} (b : ℕ) (ha : a < U256) : evmMod a b < U256 := by
  unfold evmMod
  split
  · exact U256_pos
  · exact lt_of_le_of_lt (Nat.mod_le _ _) ha

theorem evmSmod_lt (a b : ℕ) : evmSmod a b < U256 := by
  unfold evmSmod
  split
  · exact U256_pos
  · exact toWord_lt _

theorem evmSar_lt (s v : ℕ) : evmSar s v < U256 := toWord_lt _

theorem evmAddmod_lt (a b : ℕ) {m : ℕ} (hm : m < U256) : evmAddmod a b m < U256 := by
  unfold evmAddmod
  split
  · exact U256_pos
  · exact lt_trans (Nat.mod_lt _ (Nat.pos_of_ne_zero (by assumption))) hm

theorem evmMulmod_lt (a b : ℕ) {m : ℕ} (hm : m < U256) : evmMulmod a b m < U256 := by
  unfold evmMulmod
  split
  · exact U256_pos
  · exact lt_trans (Nat.mod_lt _ (Nat.pos_of_ne_zero (by assumption))) hm

theorem evmNot_lt {a : ℕ} (ha : a < U256) : evmNot a < U256 := by
  unfold evmNot
  rw [U256_eq_pow] at ha ⊢
  exact Nat.xor_lt_two_pow ha (by rw [← U256_eq_pow]; exact u256Max_lt)

theorem evmAnd_lt {a : ℕ} (b : ℕ) (ha : a < U256) : evmAnd a b < U256 :=
  lt_of_le_of_lt Nat.and_le_left ha

theorem evmOr_lt {a b : ℕ} (ha : a < U256) (hb : b < U256) : evmOr a b < U256 := by
  unfold evmOr
  rw [U256_eq_pow] at ha hb ⊢
  exact Nat.or_lt_two_pow ha hb

theorem evmXor_lt {a b : ℕ} (ha : a < U256) (hb : b < U256) : evmXor a b < U256 := by
  unfold evmXor
  rw [U256_eq_pow] at ha hb ⊢
  exact Nat.xor_lt_two_pow ha hb

theorem evmShr_lt (s : ℕ) {v : ℕ} (hv : v < U256) : evmShr s v < U256 := by
  unfold evmShr
  rw [Nat.shiftRight_eq_div_pow]
  exact lt_of_le_of_lt (Nat.div_le_self _ _) hv

theorem byte255_lt : (0xff : ℕ) < U256 := by
  unfold U256
  exact lt_of_lt_of_le (by norm_num : (0xff : ℕ) < 2 ^ 8)
    (Nat.pow_le_pow_right (by norm_num) (by norm_num))

theorem evmByte_lt (p v : ℕ) : evmByte p v < U256 := by
  unfold evmByte
  split
  · exact U256_pos
  · exact lt_of_le_of_lt Nat.and_le_right byte255_lt

theorem evmSignextend_lt (b : ℕ) {x : ℕ} (hx : x < U256) : evmSignextend b x < U256 := by
  unfold evmSignextend
  split
  · exact hx
  split
  · rw [U256_eq_pow] at hx ⊢
    refine Nat.or_lt_two_pow hx (Nat.xor_lt_two_pow ?_ ?_)
    · rw [← U256_eq_pow]; exact u256Max_lt
    · have h1 : 2 ^ (8 * b + 7 + 1) ≤ 2 ^ 256 := by
        refine Nat.pow_le_pow_right (by norm_num) ?_
        omega
      have h2 : 0 < 2 ^ (8 * b + 7 + 1) := Nat.pos_pow_of_pos _ (by norm_num)
      omega
  · exact lt_of_le_of_lt Nat.and_le_left hx

theorem sem1_inv {f : ℕ → ℕ} {vs : List ℕ} {v : ℕ} (h : sem1 f vs = some v) :
    ∃ a, vs = [a] ∧ v = f a := by
  cases vs with
  | nil => exact Option.noConfusion h
  | cons a t =>
    cases t with
    | nil => exact ⟨a, rfl, by injection h with h; exact h.symm⟩
    | cons b t => exact Option.noConfusion h

theorem sem2_inv {f : ℕ → ℕ → ℕ} {vs : List ℕ} {v : ℕ} (h : sem2 f vs = some v) :
    ∃ a b, vs = [a, b] ∧ v = f a b := by
  cases vs with
  | nil => exact Option.noConfusion h
  | cons a t =>
    cases t with
    | nil => exact Option.noConfusion h
    | cons b t =>
      cases t with
      | nil => exact ⟨a, b, rfl, by injection h with h; exact h.symm⟩
      | cons c t => exact Option.noConfusion h

theorem sem3_inv {f : ℕ → ℕ → ℕ → ℕ} {vs : List ℕ} {v : ℕ} (h : sem3 f vs = some v) :
    ∃ a b c, vs = [a, b, c] ∧ v = f a b c := by
  cases vs with
  | nil => exact Option.noConfusion h
  | cons a t =>
    cases t with
    | nil => exact Option.noConfusion h
    | cons b t =>
      cases t with
      | nil => exact Option.noConfusion h
      | cons c t =>
        cases t with
        | nil => exact ⟨a, b, c, rfl, by injection h with h; exact h.symm⟩
        | cons d t => exact Option.noConfusion h

theorem opApply_lt {op : Op} {vs : List ℕ} {v : ℕ}
    (hb : ∀ x ∈ vs, x < U256) (h : opApply op vs = some v) : v < U256 := by
  cases op
  all_goals simp only [opApply] at h
  all_goals first
    | (obtain ⟨a, rfl, rfl⟩ := sem1_inv h
       simp only [List.mem_cons, List.not_mem_nil, or_false, forall_eq_or_imp,
         forall_eq] at hb
       first
         | exact evmNot_lt hb
         | (unfold evmIszero
            split
            all_goals first
              | exact one_lt_U256
              | exact U256_pos))
    | (obtain ⟨a, b, rfl, rfl⟩ := sem2_inv h
       simp only [List.mem_cons, List.not_mem_nil, or_false, forall_eq_or_imp,
         forall_eq] at hb
       first
         | exact evmAdd_lt _ _
         | exact evmSub_lt _ _
         | exact evmMul_lt _ _
         | exact evmExp_lt _ _
         | exact evmShl_lt _ _
         | exact evmSdiv_lt _ _
         | exact evmSmod_lt _ _
         | exact evmSar_lt _ _
         | exact evmByte_lt _ _
         | exact evmDiv_lt _ hb.1
         | exact evmMod_lt _ hb.1
         | exact evmAnd_lt _ hb.1
         | exact evmOr_lt hb.1 hb.2
         | exact evmXor_lt hb.1 hb.2
         | exact evmShr_lt _ hb.2
         | exact evmSignextend_lt _ hb.2
         | (simp only [evmEq, evmLt, evmGt, evmSlt, evmSgt]
            split
            all_goals first
              | exact one_lt_U256
              | exact U256_pos))
    | (obtain ⟨a, b, m, rfl, rfl⟩ := sem3_inv h
       simp only [List.mem_cons, List.not_mem_nil, or_false, forall_eq_or_imp,
         forall_eq] at hb
       first
         | exact evmAddmod_lt _ _ hb.2.2
         | exact evmMulmod_lt _ _ hb.2.2)

theorem opSem_lt {name : String} {vs : List ℕ} {v : ℕ}
    (hb : ∀ x ∈ vs, x < U256) (h : opSem name vs = some v) : v < U256 := by
  unfold opSem at h
  cases hop : opOfName name with
  | none => rw [hop] at h; exact Option.noConfusion h
  | some op =>
    rw [hop] at h
    simp only [Option.some_bind] at h
    exact opApply_lt hb h

theorem evalArgs_mem_ex (σ : String → ℕ) (args : List Expr) (vs : List ℕ)
    (h : evalArgs σ args = some vs) : ∀ x ∈ vs, ∃ e ∈ args, evalE σ e = some x := by
  induction args generalizing vs with
  | nil =>
    unfold evalArgs at h
    injection h with h
    subst h
    simp
  | cons e es ih =>
    unfold evalArgs at h
    cases he : evalE σ e with
    | none => rw [he] at h; exact Option.noConfusion h
    | some w =>
      rw [he] at h
      cases hes : evalArgs σ es with
      | none => rw [hes] at h; exact Option.noConfusion h
      | some ws =>
        rw [hes] at h
        simp only [Option.some_bind, Option.map_some'] at h
        injection h with h
        subst h
        intro x hx
        rcases List.mem_cons.mp hx with rfl | hx
        · exact ⟨e, List.mem_cons_self .., he⟩
        · rcases ih ws hes x hx with ⟨e', he1, he2⟩
          exact ⟨e', List.mem_cons_of_mem _ he1, he2⟩

theorem evalE_lt_aux (σ : String → ℕ) : ∀ (k : ℕ) (e : Expr), sizeOf e ≤ k →
    ∀ v, evalE σ e = some v → v < U256 := by
  intro k
  induction k with
  | zero =>
    intro e he
    exact absurd he (by cases e <;> simp)
  | succ k ih =>
    intro e he v hv
    cases e with
    | lit l =>
      unfold evalE at hv
      injection hv with hv
      subst hv
      exact litWord_lt l
    | ident x =>
      unfold evalE at hv
      injection hv with hv
      subst hv
      exact Nat.mod_lt _ U256_pos
    | call name args =>
      unfold evalE at hv
      cases hargs : evalArgs σ args with
      | none => rw [hargs] at hv; exact Option.noConfusion hv
      | some vs =>
        rw [hargs] at hv
        simp only [Option.some_bind] at hv
        refine opSem_lt ?_ hv
        intro x hx
        rcases evalArgs_mem_ex σ args vs hargs x hx with ⟨e, hmem, hev⟩
        have h1 : sizeOf e < sizeOf args := List.sizeOf_lt_of_mem hmem
        have h2 : sizeOf (Expr.call name args) = 1 + sizeOf name + sizeOf args := by
          simp
        exact ih e (by omega) x hev

theorem evalE_lt (σ : String → ℕ) (e : Expr) (v : ℕ)
    (h : evalE σ e = some v) : v < U256 :=
  evalE_lt_aux σ (sizeOf e) e le_rfl v h

/-! ### Evaluation plumbing -/

theorem WFargs2 {a b : Expr} (h : WFargs [a, b] = true) : WF a = true ∧ WF b = true := by
  rw [WFargs, Bool.and_eq_true, WFargs, Bool.and_eq_true] at h
  exact ⟨h.1, h.2.1⟩

theorem WFargs3 {a b c : Expr} (h : WFargs [a, b, c] = true) :
    WF a = true ∧ WF b = true ∧ WF c = true := by
  rw [WFargs, Bool.and_eq_true, WFargs, Bool.and_eq_true, WFargs,
    Bool.and_eq_true] at h
  exact ⟨h.1, h.2.1, h.2.2.1⟩

theorem isLiterals2 {a b : Expr} (h : isLiterals [a, b] = true) :
    isLiteral a = true ∧ isLiteral b = true := by
  simp only [isLiterals, List.all_cons, List.all_nil, Bool.and_eq_true,
    Bool.and_true] at h
  exact h

theorem isLiterals3 {a b c : Expr} (h : isLiterals [a, b, c] = true) :
    isLiteral a = true ∧ isLiteral b = true ∧ isLiteral c = true := by
  simp only [isLiterals, List.all_cons, List.all_nil, Bool.and_eq_true,
    Bool.and_true] at h
  exact h

theorem eval_isZero (σ : String → ℕ) {a : Expr} (h : isZero a = true) :
    evalE σ a = some 0 := by
  match a with
  | .lit (.num n) =>
    rw [isZero] at h
    have : n = 0 := by simpa using h
    subst this
    show some (litWord (.num 0)) = some 0
    simp [litWord]
  | .lit (.bool b) =>
    rw [isZero] at h
    have : b = false := by simpa using h
    subst this
    rfl
  | .lit (.str s) => exact absurd h Bool.false_ne_true
  | .lit (.hexlit s) => exact absurd h Bool.false_ne_true
  | .ident x => exact absurd h Bool.false_ne_true
  | .call n as => exact absurd h Bool.false_ne_true

theorem eval_isOne (σ : String → ℕ) {a : Expr} (h : isOne a = true) :
    evalE σ a = some 1 := by
  match a with
  | .lit (.num n) =>
    rw [isOne] at h
    have : n = 1 := by simpa using h
    subst this
    show some (litWord (.num 1)) = some 1
    simp [litWord, Nat.mod_eq_of_lt one_lt_U256]
  | .lit (.bool b) =>
    rw [isOne] at h
    have : b = true := by simpa using h
    subst this
    rfl
  | .lit (.str s) => exact absurd h Bool.false_ne_true
  | .lit (.hexlit s) => exact absurd h Bool.false_ne_true
  | .ident x => exact absurd h Bool.false_ne_true
  | .call n as => exact absurd h Bool.false_ne_true

theorem eval_isLiteral (σ : String → ℕ) {a : Expr} (h : isLiteral a = true)
    (hw : WF a = true) : evalE σ a = some (litNat a) := by
  match a with
  | .lit (.num n) =>
    have hn : n < U256 := by
      rw [WF] at hw
      simpa using hw
    show some (litWord (.num n)) = some (litNat (.lit (.num n)))
    simp [litWord, litNat, toBigInt, Nat.mod_eq_of_lt hn]
  | .lit (.bool b) =>
    cases b <;> rfl
  | .lit (.str s) => exact absurd h Bool.false_ne_true
  | .lit (.hexlit s) => exact absurd h Bool.false_ne_true
  | .ident x => exact absurd h Bool.false_ne_true
  | .call n as => exact absurd h Bool.false_ne_true

theorem evalE_Lit (σ : String → ℕ) (i : ℤ) : evalE σ (Lit i) = some (toWord i) := by
  show some (litWord (.num (toWord i))) = some (toWord i)
  simp [litWord, Nat.mod_eq_of_lt (toWord_lt i)]

theorem toWord_add (x y : ℕ) : toWord ((x : ℤ) + (y : ℤ)) = (x + y) % U256 := by
  rw [show ((x : ℤ) + (y : ℤ)) = ((x + y : ℕ) : ℤ) by push_cast; ring, toWord_natCast]

theorem toWord_mul (x y : ℕ) : toWord ((x : ℤ) * (y : ℤ)) = x * y % U256 := by
  rw [show ((x : ℤ) * (y : ℤ)) = ((x * y : ℕ) : ℤ) by push_cast; ring, toWord_natCast]

/-- Inversion of argument-list evaluation at arity 1. -/
theorem evalList1 {σ : String → ℕ} {a : Expr} {vs : List ℕ}
    (h : evalArgs σ [a] = some vs) : ∃ x, evalE σ a = some x ∧ vs = [x] := by
  unfold evalArgs evalArgs at h
  cases ha : evalE σ a with
  | none => rw [ha] at h; exact Option.noConfusion h
  | some x =>
    rw [ha] at h
    simp only [Option.some_bind, Option.map_some'] at h
    exact ⟨x, rfl, by injection h with h; exact h.symm⟩

/-- Inversion of argument-list evaluation at arity 2. -/
theorem evalList2 {σ : String → ℕ} {a b : Expr} {vs : List ℕ}
    (h : evalArgs σ [a, b] = some vs) :
    ∃ x y, evalE σ a = some x ∧ evalE σ b = some y ∧ vs = [x, y] := by
  unfold evalArgs at h
  cases ha : evalE σ a with
  | none => rw [ha] at h; exact Option.noConfusion h
  | some x =>
    rw [ha] at h
    simp only [Option.some_bind] at h
    cases hb : evalArgs σ [b] with
    | none => rw [hb] at h; exact Option.noConfusion h
    | some ws =>
      obtain ⟨y, hy, rfl⟩ := evalList1 hb
      rw [hb] at h
      simp only [Option.map_some'] at h
      exact ⟨x, y, rfl, hy, by injection h with h; exact h.symm⟩

/-- Inversion of argument-list evaluation at arity 3. -/
theorem evalList3 {σ : String → ℕ} {a b c : Expr} {vs : List ℕ}
    (h : evalArgs σ [a, b, c] = some vs) :
    ∃ x y z, evalE σ a = some x ∧ evalE σ b = some y ∧ evalE σ c = some z ∧
      vs = [x, y, z] := by
  unfold evalArgs at h
  cases ha : evalE σ a with
  | none => rw [ha] at h; exact Option.noConfusion h
  | some x =>
    rw [ha] at h
    simp only [Option.some_bind] at h
    cases hb : evalArgs σ [b, c] with
    | none => rw [hb] at h; exact Option.noConfusion h
    | some ws =>
      obtain ⟨y, z, hy, hz, rfl⟩ := evalList2 hb
      rw [hb] at h
      simp only [Option.map_some'] at h
      exact ⟨x, y, z, rfl, hy, hz, by injection h with h; exact h.symm⟩

/-- A call to a recognised opcode that evaluates to `v` has evaluable
arguments whose op application is `v`. -/
theorem evalCall_op {σ : String → ℕ} {name : String} {op : Op} {args : List Expr} {v : ℕ}
    (hop : opOfName name = some op) (hv : evalE σ (.call name args) = some v) :
    ∃ vs, evalArgs σ args = some vs ∧ opApply op vs = some v := by
  unfold evalE at hv
  cases h : evalArgs σ args with
  | none => rw [h] at hv; exact Option.noConfusion hv
  | some vs =>
    rw [h] at hv
    simp only [Option.some_bind] at hv
    unfold opSem at hv
    rw [hop] at hv
    simp only [Option.some_bind] at hv
    exact ⟨vs, rfl, hv⟩

/-- Arity-2 call elimination for a specific word operation. -/
theorem evalBin_elim {σ : String → ℕ} {f : ℕ → ℕ → ℕ} {a b : Expr} {vs : List ℕ} {v : ℕ}
    (hargs : evalArgs σ [a, b] = some vs) (hsem : sem2 f vs = some v) :
    ∃ x y, evalE σ a = some x ∧ evalE σ b = some y ∧ v = f x y := by
  obtain ⟨x, y, hx, hy, rfl⟩ := evalList2 hargs
  refine ⟨x, y, hx, hy, ?_⟩
  injection hsem with hsem
  exact hsem.symm

/-- Arity-1 call elimination for a specific word operation. -/
theorem evalUn_elim {σ : String → ℕ} {f : ℕ → ℕ} {a : Expr} {vs : List ℕ} {v : ℕ}
    (hargs : evalArgs σ [a] = some vs) (hsem : sem1 f vs = some v) :
    ∃ x, evalE σ a = some x ∧ v = f x := by
  obtain ⟨x, hx, rfl⟩ := evalList1 hargs
  refine ⟨x, hx, ?_⟩
  injection hsem with hsem
  exact hsem.symm

/-- Arity-3 call elimination for a specific word operation. -/
theorem evalTer_elim {σ : String → ℕ} {f : ℕ → ℕ → ℕ → ℕ} {a b c : Expr}
    {vs : List ℕ} {v : ℕ}
    (hargs : evalArgs σ [a, b, c] = some vs) (hsem : sem3 f vs = some v) :
    ∃ x y z, evalE σ a = some x ∧ evalE σ b = some y ∧ evalE σ c = some z ∧
      v = f x y z := by
  obtain ⟨x, y, z, hx, hy, hz, rfl⟩ := evalList3 hargs
  refine ⟨x, y, z, hx, hy, hz, ?_⟩
  injection hsem with hsem
  exact hsem.symm

theorem not_bang {b : Bool} (h : ¬((!b) = true)) : b = true := by
  cases b
  · exact absurd rfl h
  · rfl

/-! ### Arithmetic bridging lemmas -/

theorem toWord_zero : toWord 0 = 0 := by
  rw [show (0 : ℤ) = ((0 : ℕ) : ℤ) from rfl, toWord_natCast]
  exact Nat.zero_mod _

theorem toWord_one : toWord 1 = 1 := by
  rw [show (1 : ℤ) = ((1 : ℕ) : ℤ) from rfl, toWord_natCast]
  exact Nat.mod_eq_of_lt one_lt_U256

theorem toWord_small {n : ℕ} (h : n < U256) : toWord (n : ℤ) = n := by
  rw [toWord_natCast]
  exact Nat.mod_eq_of_lt h

theorem boolInt_true {p : Prop} [Decidable p] (h : p) : boolInt p = 1 := if_pos h

theorem boolInt_false {p : Prop} [Decidable p] (h : ¬p) : boolInt p = 0 := if_neg h

/-- A well-formed literal denotes a word. -/
theorem litNat_lt {e : Expr} (hl : isLiteral e = true) (hw : WF e = true) :
    litNat e < U256 := by
  match e with
  | .lit (.num n) =>
    rw [WF] at hw
    simp only [decide_eq_true_eq] at hw
    simpa [litNat, toBigInt] using hw
  | .lit (.bool b) =>
    cases b with
    | false => exact U256_pos
    | true => exact one_lt_U256
  | .lit (.str s) => exact absurd hl Bool.false_ne_true
  | .lit (.hexlit s) => exact absurd hl Bool.false_ne_true
  | .ident x => exact absurd hl Bool.false_ne_true
  | .call n as => exact absurd hl Bool.false_ne_true

/-- A literal that is not `isZero` denotes a non-zero value. -/
theorem litNat_ne_zero {e : Expr} (hl : isLiteral e = true) (hz : isZero e = false) :
    litNat e ≠ 0 := by
  match e with
  | .lit (.num n) =>
    rw [isZero] at hz
    simp only [beq_eq_false_iff_ne, ne_eq] at hz
    simpa [litNat, toBigInt] using hz
  | .lit (.bool b) =>
    rw [isZero] at hz
    have : b = true := by
      cases b
      · exact absurd hz (by simp)
      · rfl
    subst this
    simp [litNat, toBigInt]
  | .lit (.str s) => exact absurd hl Bool.false_ne_true
  | .lit (.hexlit s) => exact absurd hl Bool.false_ne_true
  | .ident x => exact absurd hl Bool.false_ne_true
  | .call n as => exact absurd hl Bool.false_ne_true

/-- A zero literal denotes zero. -/
theorem litNat_of_isZero {e : Expr} (hz : isZero e = true) : litNat e = 0 := by
  match e with
  | .lit (.num n) =>
    rw [isZero] at hz
    simpa [litNat, toBigInt] using hz
  | .lit (.bool b) =>
    rw [isZero] at hz
    have : b = false := by simpa using hz
    subst this
    rfl
  | .lit (.str s) => exact absurd hz Bool.false_ne_true
  | .lit (.hexlit s) => exact absurd hz Bool.false_ne_true
  | .ident x => exact absurd hz Bool.false_ne_true
  | .call n as => exact absurd hz Bool.false_ne_true

theorem toSigned_zero : toSigned 0 = 0 := by
  unfold toSigned
  rw [if_pos]
  · rfl
  · unfold i256Sign
    positivity

theorem toSigned_one : toSigned 1 = 1 := by
  unfold toSigned
  rw [if_pos]
  · rfl
  · unfold i256Sign
    exact Nat.one_lt_two_pow (by norm_num)

/-- For a word below `2 ^ 256`, bit 255 is set exactly when the word is at
least `2 ^ 255`. -/
theorem testBit255_iff {x : ℕ} (hx : x < U256) : x.testBit 255 = true ↔ i256Sign ≤ x := by
  rw [Nat.testBit_to_div_mod]
  have hp : (0 : ℕ) < 2 ^ 255 := Nat.pos_pow_of_pos _ (by norm_num)
  have h2 : x / 2 ^ 255 < 2 := by
    apply Nat.div_lt_of_lt_mul
    calc x < U256 := hx
      _ = 2 ^ 255 * 2 := by rw [U256]; ring
  have h3 : 1 ≤ x / 2 ^ 255 ↔ 2 ^ 255 ≤ x := Nat.one_le_div_iff hp
  rw [show i256Sign = 2 ^ 255 from rfl]
  simp only [decide_eq_true_eq]
  omega

/-- The source's signed reinterpretation agrees with the two's-complement
reading for words. -/
theorem jsSigned_eq_toSigned {x : ℕ} (hx : x < U256) : jsSigned x = toSigned x := by
  unfold jsSigned toSigned
  have hand : x &&& i256Sign = (x.testBit 255).toNat * 2 ^ 255 := by
    rw [show i256Sign = 2 ^ 255 from rfl]
    exact Nat.and_two_pow x 255
  cases hbit : x.testBit 255 with
  | false =>
    have h1 : x &&& i256Sign = 0 := by rw [hand, hbit]; rfl
    have h2 : x < i256Sign := by
      by_contra hc
      exact absurd ((testBit255_iff hx).mpr (le_of_not_lt hc)) (by rw [hbit]; simp)
    rw [h1]
    simp [h2]
  | true =>
    have h1 : x &&& i256Sign ≠ 0 := by
      rw [hand, hbit]
      have := i256Sign
      simp [Nat.pos_pow_of_pos]
    have h2 : i256Sign ≤ x := (testBit255_iff hx).mp hbit
    have h3 : ¬(x < i256Sign) := not_lt.mpr h2
    have hx0 : 0 < x := lt_of_lt_of_le (Nat.pos_pow_of_pos 255 (by norm_num)) h2
    rw [if_pos (by simpa using h1), if_neg h3]
    have hc : (x : ℤ) < (U256 : ℤ) := by exact_mod_cast hx
    have hc0 : (0 : ℤ) < (x : ℤ) := by exact_mod_cast hx0
    have h4 : (0 : ℤ) ≤ (U256 : ℤ) - x := by omega
    have h5 : (U256 : ℤ) - x < (U256 : ℤ) := by omega
    have hm : (-(x : ℤ)).emod (U256 : ℤ) = (U256 : ℤ) - x := by
      show (-(x : ℤ)) % (U256 : ℤ) = _
      rw [Int.neg_emod]
      exact Int.emod_eq_of_lt h4 h5
    rw [hm]
    ring

/-! ### Per-opcode soundness of the folder -/

theorem foldAdd_sound {σ : String → ℕ} {args : List Expr} {r : Expr} {vs : List ℕ} {v : ℕ}
    (hf : foldAdd args = some r) (hw : WFargs args = true)
    (hargs : evalArgs σ args = some vs) (hsem : sem2 evmAdd vs = some v) :
    evalE σ r = some v := by
  match args with
  | [a, b] =>
    obtain ⟨x, y, hx, hy, rfl⟩ := evalBin_elim hargs hsem
    rw [foldAdd] at hf
    split_ifs at hf with h1 h2 h3
    · injection hf with hf
      subst hf
      rw [eval_isZero σ h1] at hx
      injection hx with hx
      subst hx
      have hy2 := evalE_lt σ b y hy
      rw [hy, evmAdd, Nat.zero_add, Nat.mod_eq_of_lt hy2]
    · injection hf with hf
      subst hf
      rw [eval_isZero σ h2] at hy
      injection hy with hy
      subst hy
      have hx2 := evalE_lt σ a x hx
      rw [hx, evmAdd, Nat.add_zero, Nat.mod_eq_of_lt hx2]
    · injection hf with hf
      subst hf
      obtain ⟨hla, hlb⟩ := isLiterals2 (not_bang h3)
      obtain ⟨hwa, hwb⟩ := WFargs2 hw
      rw [eval_isLiteral σ hla hwa] at hx
      rw [eval_isLiteral σ hlb hwb] at hy
      injection hx with hx
      injection hy with hy
      subst hx
      subst hy
      rw [evalE_Lit, toWord_add]
      rfl

theorem foldSub_sound {σ : String → ℕ} {args : List Expr} {r : Expr} {vs : List ℕ} {v : ℕ}
    (hf : foldSub args = some r) (hw : WFargs args = true)
    (hargs : evalArgs σ args = some vs) (hsem : sem2 evmSub vs = some v) :
    evalE σ r = some v := by
  match args with
  | [a, b] =>
    obtain ⟨x, y, hx, hy, rfl⟩ := evalBin_elim hargs hsem
    rw [foldSub] at hf
    split_ifs at hf with h1 h2
    · injection hf with hf
      subst hf
      rw [eval_isZero σ h1] at hy
      injection hy with hy
      subst hy
      have hx2 := evalE_lt σ a x hx
      rw [hx, evmSub]
      congr 1
      rw [show ((x : ℤ) - (0 : ℕ)) = ((x : ℕ) : ℤ) by push_cast; ring]
      exact (toWord_small hx2).symm
    · injection hf with hf
      subst hf
      obtain ⟨hla, hlb⟩ := isLiterals2 (not_bang h2)
      obtain ⟨hwa, hwb⟩ := WFargs2 hw
      rw [eval_isLiteral σ hla hwa] at hx
      rw [eval_isLiteral σ hlb hwb] at hy
      injection hx with hx
      injection hy with hy
      subst hx
      subst hy
      rw [evalE_Lit]
      rfl

theorem foldMul_sound {σ : String → ℕ} {args : List Expr} {r : Expr} {vs : List ℕ} {v : ℕ}
    (hf : foldMul args = some r) (hw : WFargs args = true)
    (hargs : evalArgs σ args = some vs) (hsem : sem2 evmMul vs = some v) :
    evalE σ r = some v := by
  match args with
  | [a, b] =>
    obtain ⟨x, y, hx, hy, rfl⟩ := evalBin_elim hargs hsem
    rw [foldMul] at hf
    split_ifs at hf with h1 h2 h3 h4
    · injection hf with hf
      subst hf
      rw [evalE_Lit, toWord_zero]
      rcases Bool.or_eq_true_iff.mp h1 with hz | hz
      · rw [eval_isZero σ hz] at hx
        injection hx with hx
        subst hx
        rw [evmMul, Nat.zero_mul, Nat.zero_mod]
      · rw [eval_isZero σ hz] at hy
        injection hy with hy
        subst hy
        rw [evmMul, Nat.mul_zero, Nat.zero_mod]
    · injection hf with hf
      subst hf
      rw [eval_isOne σ h2] at hx
      injection hx with hx
      subst hx
      have hy2 := evalE_lt σ b y hy
      rw [hy, evmMul, Nat.one_mul, Nat.mod_eq_of_lt hy2]
    · injection hf with hf
      subst hf
      rw [eval_isOne σ h3] at hy
      injection hy with hy
      subst hy
      have hx2 := evalE_lt σ a x hx
      rw [hx, evmMul, Nat.mul_one, Nat.mod_eq_of_lt hx2]
    · injection hf with hf
      subst hf
      obtain ⟨hla, hlb⟩ := isLiterals2 (not_bang h4)
      obtain ⟨hwa, hwb⟩ := WFargs2 hw
      rw [eval_isLiteral σ hla hwa] at hx
      rw [eval_isLiteral σ hlb hwb] at hy
      injection hx with hx
      injection hy with hy
      subst hx
      subst hy
      rw [evalE_Lit, toWord_mul]
      rfl

theorem foldDiv_sound {σ : String → ℕ} {args : List Expr} {r : Expr} {vs : List ℕ} {v : ℕ}
    (hf : foldDivSdiv "div" args = some r) (hw : WFargs args = true)
    (hargs : evalArgs σ args = some vs) (hsem : sem2 evmDiv vs = some v) :
    evalE σ r = some v := by
  match args with
  | [a, b] =>
    obtain ⟨x, y, hx, hy, rfl⟩ := evalBin_elim hargs hsem
    rw [foldDivSdiv] at hf
    simp only [show (("div" : String) == "div") = true from by decide,
      show (("div" : String) == "sdiv") = false from by decide,
      Bool.true_and, Bool.false_eq_true, if_false] at hf
    split_ifs at hf with h1 h2 h3
    · injection hf with hf
      subst hf
      rw [evalE_Lit, toWord_zero]
      rcases Bool.or_eq_true_iff.mp h1 with hz | hz
      · rw [eval_isZero σ hz] at hx
        injection hx with hx
        subst hx
        rw [evmDiv]
        split
        · rfl
        · rw [Nat.zero_div]
      · rw [eval_isZero σ hz] at hy
        injection hy with hy
        subst hy
        rw [evmDiv, if_pos rfl]
    · injection hf with hf
      subst hf
      rw [eval_isOne σ h2] at hy
      injection hy with hy
      subst hy
      have hx2 := evalE_lt σ a x hx
      rw [hx, evmDiv, if_neg (by norm_num), Nat.div_one]
    · injection hf with hf
      subst hf
      obtain ⟨hla, hlb⟩ := isLiterals2 (not_bang h3)
      obtain ⟨hwa, hwb⟩ := WFargs2 hw
      rw [eval_isLiteral σ hla hwa] at hx
      rw [eval_isLiteral σ hlb hwb] at hy
      injection hx with hx
      injection hy with hy
      subst hx
      subst hy
      have hyz : litNat b ≠ 0 := by
        rw [Bool.not_eq_true, Bool.or_eq_false_iff] at h1
        exact litNat_ne_zero hlb h1.2
      rw [evalE_Lit]
      rw [evmDiv, if_neg hyz]
      rw [show ((litNat a : ℤ)).tdiv ((litNat b : ℤ))
            = ((litNat a / litNat b : ℕ) : ℤ) from rfl]
      exact congrArg some (toWord_small (lt_of_le_of_lt (Nat.div_le_self _ _)
        (litNat_lt hla hwa)))

theorem foldSdiv_sound {σ : String → ℕ} {args : List Expr} {r : Expr} {vs : List ℕ} {v : ℕ}
    (hf : foldDivSdiv "sdiv" args = some r) (hw : WFargs args = true)
    (hargs : evalArgs σ args = some vs) (hsem : sem2 evmSdiv vs = some v) :
    evalE σ r = some v := by
  match args with
  | [a, b] =>
    obtain ⟨x, y, hx, hy, rfl⟩ := evalBin_elim hargs hsem
    rw [foldDivSdiv] at hf
    simp only [show (("sdiv" : String) == "div") = false from by decide,
      show (("sdiv" : String) == "sdiv") = true from by decide,
      Bool.false_and, Bool.false_eq_true, if_false, if_true] at hf
    split_ifs at hf with h1 h2
    · injection hf with hf
      subst hf
      rw [evalE_Lit, toWord_zero]
      rcases Bool.or_eq_true_iff.mp h1 with hz | hz
      · rw [eval_isZero σ hz] at hx
        injection hx with hx
        subst hx
        rw [evmSdiv]
        split
        · rfl
        · rw [toSigned_zero, Int.zero_tdiv, toWord_zero]
      · rw [eval_isZero σ hz] at hy
        injection hy with hy
        subst hy
        rw [evmSdiv, if_pos rfl]
    · injection hf with hf
      subst hf
      obtain ⟨hla, hlb⟩ := isLiterals2 (not_bang h2)
      obtain ⟨hwa, hwb⟩ := WFargs2 hw
      rw [eval_isLiteral σ hla hwa] at hx
      rw [eval_isLiteral σ hlb hwb] at hy
      injection hx with hx
      injection hy with hy
      subst hx
      subst hy
      have hyz : litNat b ≠ 0 := by
        rw [Bool.not_eq_true, Bool.or_eq_false_iff] at h1
        exact litNat_ne_zero hlb h1.2
      rw [evalE_Lit, evmSdiv, if_neg hyz,
        jsSigned_eq_toSigned (litNat_lt hla hwa),
        jsSigned_eq_toSigned (litNat_lt hlb hwb)]

theorem foldMod_sound {σ : String → ℕ} {args : List Expr} {r : Expr} {vs : List ℕ} {v : ℕ}
    (hf : foldModSmod "mod" args = some r) (hw : WFargs args = true)
    (hargs : evalArgs σ args = some vs) (hsem : sem2 evmMod vs = some v) :
    evalE σ r = some v := by
  match args with
  | [a, b] =>
    obtain ⟨x, y, hx, hy, rfl⟩ := evalBin_elim hargs hsem
    rw [foldModSmod] at hf
    simp only [show (("mod" : String) == "smod") = false from by decide,
      Bool.false_eq_true, if_false] at hf
    split_ifs at hf with h1 h2 h3
    · injection hf with hf
      subst hf
      rw [evalE_Lit, toWord_zero]
      rcases Bool.or_eq_true_iff.mp h1 with hz | hz
      · rw [eval_isZero σ hz] at hx
        injection hx with hx
        subst hx
        rw [evmMod]
        split
        · rfl
        · rw [Nat.zero_mod]
      · rw [eval_isZero σ hz] at hy
        injection hy with hy
        subst hy
        rw [evmMod, if_pos rfl]
    · injection hf with hf
      subst hf
      rw [eval_isOne σ h2] at hy
      injection hy with hy
      subst hy
      rw [evalE_Lit, toWord_zero, evmMod, if_neg (by norm_num), Nat.mod_one]
    · injection hf with hf
      subst hf
      obtain ⟨hla, hlb⟩ := isLiterals2 (not_bang h3)
      obtain ⟨hwa, hwb⟩ := WFargs2 hw
      rw [eval_isLiteral σ hla hwa] at hx
      rw [eval_isLiteral σ hlb hwb] at hy
      injection hx with hx
      injection hy with hy
      subst hx
      subst hy
      have hyz : litNat b ≠ 0 := by
        rw [Bool.not_eq_true, Bool.or_eq_false_iff] at h1
        exact litNat_ne_zero hlb h1.2
      rw [evalE_Lit, evmMod, if_neg hyz]
      rw [show ((litNat a : ℤ)).tmod ((litNat b : ℤ))
            = ((litNat a % litNat b : ℕ) : ℤ) from rfl]
      exact congrArg some (toWord_small (lt_of_le_of_lt (Nat.mod_le _ _)
        (litNat_lt hla hwa)))

theorem foldSmod_sound {σ : String → ℕ} {args : List Expr} {r : Expr} {vs : List ℕ} {v : ℕ}
    (hf : foldModSmod "smod" args = some r) (hw : WFargs args = true)
    (hargs : evalArgs σ args = some vs) (hsem : sem2 evmSmod vs = some v) :
    evalE σ r = some v := by
  match args with
  | [a, b] =>
    obtain ⟨x, y, hx, hy, rfl⟩ := evalBin_elim hargs hsem
    rw [foldModSmod] at hf
    simp only [show (("smod" : String) == "smod") = true from by decide, if_true] at hf
    split_ifs at hf with h1 h2 h3
    · injection hf with hf
      subst hf
      rw [evalE_Lit, toWord_zero]
      rcases Bool.or_eq_true_iff.mp h1 with hz | hz
      · rw [eval_isZero σ hz] at hx
        injection hx with hx
        subst hx
        rw [evmSmod]
        split
        · rfl
        · rw [toSigned_zero, Int.zero_tmod, toWord_zero]
      · rw [eval_isZero σ hz] at hy
        injection hy with hy
        subst hy
        rw [evmSmod, if_pos rfl]
    · injection hf with hf
      subst hf
      rw [eval_isOne σ h2] at hy
      injection hy with hy
      subst hy
      rw [evalE_Lit, toWord_zero, evmSmod, if_neg (by norm_num), toSigned_one,
        Int.tmod_one, toWord_zero]
    · injection hf with hf
      subst hf
      obtain ⟨hla, hlb⟩ := isLiterals2 (not_bang h3)
      obtain ⟨hwa, hwb⟩ := WFargs2 hw
      rw [eval_isLiteral σ hla hwa] at hx
      rw [eval_isLiteral σ hlb hwb] at hy
      injection hx with hx
      injection hy with hy
      subst hx
      subst hy
      have hyz : litNat b ≠ 0 := by
        rw [Bool.not_eq_true, Bool.or_eq_false_iff] at h1
        exact litNat_ne_zero hlb h1.2
      rw [evalE_Lit, evmSmod, if_neg hyz,
        jsSigned_eq_toSigned (litNat_lt hla hwa),
        jsSigned_eq_toSigned (litNat_lt hlb hwb)]

theorem foldExp_sound {σ : String → ℕ} {args : List Expr} {r : Expr} {vs : List ℕ} {v : ℕ}
    (hf : foldExp args = some r) (hw : WFargs args = true)
    (hexp0 : ∀ a b, args = [a, b] → isZero a = true → isLiteral b = false →
      evalE σ b ≠ some 0)
    (hargs : evalArgs σ args = some vs) (hsem : sem2 evmExp vs = some v) :
    evalE σ r = some v := by
  match args with
  | [a, b] =>
    obtain ⟨x, y, hx, hy, rfl⟩ := evalBin_elim hargs hsem
    rw [foldExp] at hf
    split_ifs at hf with h1 h2 h3 h4
    · injection hf with hf
      subst hf
      rw [eval_isZero σ h1] at hy
      injection hy with hy
      subst hy
      rw [evalE_Lit, toWord_one, evmExp, pow_zero, Nat.mod_eq_of_lt one_lt_U256]
    · injection hf with hf
      subst hf
      rw [eval_isOne σ h2] at hy
      injection hy with hy
      subst hy
      have hx2 := evalE_lt σ a x hx
      rw [hx, evmExp, pow_one, Nat.mod_eq_of_lt hx2]
    · injection hf with hf
      subst hf
      rw [eval_isZero σ h3] at hx
      injection hx with hx
      subst hx
      have hyz : y ≠ 0 := by
        cases hlb : isLiteral b with
        | false =>
          intro hy0
          exact hexp0 a b rfl h3 hlb (hy0 ▸ hy)
        | true =>
          have := eval_isLiteral σ hlb (WFargs2 hw).2
          rw [this] at hy
          injection hy with hy
          subst hy
          have hzb : isZero b = false := by rw [Bool.not_eq_true] at h1; exact h1
          exact litNat_ne_zero hlb hzb
      rw [evalE_Lit, toWord_zero, evmExp, Nat.zero_pow (Nat.pos_of_ne_zero hyz),
        Nat.zero_mod]
    · injection hf with hf
      subst hf
      obtain ⟨hla, hlb⟩ := isLiterals2 (not_bang h4)
      obtain ⟨hwa, hwb⟩ := WFargs2 hw
      rw [eval_isLiteral σ hla hwa] at hx
      rw [eval_isLiteral σ hlb hwb] at hy
      injection hx with hx
      injection hy with hy
      subst hx
      subst hy
      rw [evalE_Lit, toWord_natCast]
      rfl

theorem foldAddmod_sound {σ : String → ℕ} {args : List Expr} {r : Expr} {vs : List ℕ} {v : ℕ}
    (hf : foldAddmod args = some r) (hw : WFargs args = true)
    (hargs : evalArgs σ args = some vs) (hsem : sem3 evmAddmod vs = some v) :
    evalE σ r = some v := by
  match args with
  | [a, b, m] =>
    obtain ⟨x, y, z, hx, hy, hz, rfl⟩ := evalTer_elim hargs hsem
    rw [foldAddmod] at hf
    split_ifs at hf with h1 h2
    · injection hf with hf
      subst hf
      rw [eval_isZero σ h1] at hz
      injection hz with hz
      subst hz
      rw [evalE_Lit, toWord_zero, evmAddmod, if_pos rfl]
    · injection hf with hf
      subst hf
      obtain ⟨hla, hlb, hlm⟩ := isLiterals3 (not_bang h2)
      obtain ⟨hwa, hwb, hwm⟩ := WFargs3 hw
      rw [eval_isLiteral σ hla hwa] at hx
      rw [eval_isLiteral σ hlb hwb] at hy
      rw [eval_isLiteral σ hlm hwm] at hz
      injection hx with hx
      injection hy with hy
      injection hz with hz
      subst hx
      subst hy
      subst hz
      have hmz : litNat m ≠ 0 := litNat_ne_zero hlm (Bool.not_eq_true _ ▸ h1)
      rw [evalE_Lit, evmAddmod, if_neg hmz]
      exact congrArg some (toWord_small (lt_trans
        (Nat.mod_lt _ (Nat.pos_of_ne_zero hmz)) (litNat_lt hlm hwm)))

theorem foldMulmod_sound {σ : String → ℕ} {args : List Expr} {r : Expr} {vs : List ℕ} {v : ℕ}
    (hf : foldMulmod args = some r) (hw : WFargs args = true)
    (hargs : evalArgs σ args = some vs) (hsem : sem3 evmMulmod vs = some v) :
    evalE σ r = some v := by
  match args with
  | [a, b, m] =>
    obtain ⟨x, y, z, hx, hy, hz, rfl⟩ := evalTer_elim hargs hsem
    rw [foldMulmod] at hf
    split_ifs at hf with h1 h2
    · injection hf with hf
      subst hf
      rw [evalE_Lit, toWord_zero]
      rcases Bool.or_eq_true_iff.mp h1 with hor | hzm
      · rcases Bool.or_eq_true_iff.mp hor with hza | hzb
        · rw [eval_isZero σ hza] at hx
          injection hx with hx
          subst hx
          rw [evmMulmod]
          split
          · rfl
          · rw [Nat.zero_mul, Nat.zero_mod]
        · rw [eval_isZero σ hzb] at hy
          injection hy with hy
          subst hy
          rw [evmMulmod]
          split
          · rfl
          · rw [Nat.mul_zero, Nat.zero_mod]
      · rw [eval_isZero σ hzm] at hz
        injection hz with hz
        subst hz
        rw [evmMulmod, if_pos rfl]
    · injection hf with hf
      subst hf
      obtain ⟨hla, hlb, hlm⟩ := isLiterals3 (not_bang h2)
      obtain ⟨hwa, hwb, hwm⟩ := WFargs3 hw
      rw [eval_isLiteral σ hla hwa] at hx
      rw [eval_isLiteral σ hlb hwb] at hy
      rw [eval_isLiteral σ hlm hwm] at hz
      injection hx with hx
      injection hy with hy
      injection hz with hz
      subst hx
      subst hy
      subst hz
      have hmz : litNat m ≠ 0 := by
        rw [Bool.not_eq_true, Bool.or_eq_false_iff] at h1
        exact litNat_ne_zero hlm h1.2
      rw [evalE_Lit, evmMulmod, if_neg hmz]
      exact congrArg some (toWord_small (lt_trans
        (Nat.mod_lt _ (Nat.pos_of_ne_zero hmz)) (litNat_lt hlm hwm)))

theorem foldNot_sound {σ : String → ℕ} {args : List Expr} {r : Expr} {vs : List ℕ} {v : ℕ}
    (hf : foldNot args = some r) (hw : WFargs args = true)
    (hargs : evalArgs σ args = some vs) (hsem : sem1 evmNot vs = some v) :
    evalE σ r = some v := by
  match args with
  | [a] =>
    obtain ⟨x, hx, rfl⟩ := evalUn_elim hargs hsem
    rw [foldNot] at hf
    split_ifs at hf with h1
    injection hf with hf
    subst hf
    have hla : isLiteral a = true := by
      have := not_bang h1
      simpa [isLiterals] using this
    have hwa : WF a = true := by
      rw [WFargs, Bool.and_eq_true] at hw
      exact hw.1
    rw [eval_isLiteral σ hla hwa] at hx
    injection hx with hx
    subst hx
    rw [evalE_Lit]
    exact congrArg some (toWord_small (evmNot_lt (litNat_lt hla hwa)))

theorem foldAnd_sound {σ : String → ℕ} {args : List Expr} {r : Expr} {vs : List ℕ} {v : ℕ}
    (hf : foldAnd args = some r) (hw : WFargs args = true)
    (hargs : evalArgs σ args = some vs) (hsem : sem2 evmAnd vs = some v) :
    evalE σ r = some v := by
  match args with
  | [a, b] =>
    obtain ⟨x, y, hx, hy, rfl⟩ := evalBin_elim hargs hsem
    rw [foldAnd] at hf
    split_ifs at hf with h1 h2 h3
    · injection hf with hf
      subst hf
      rw [eval_isZero σ h1] at hx
      injection hx with hx
      subst hx
      rw [evalE_Lit, toWord_zero, evmAnd, Nat.zero_and]
    · injection hf with hf
      subst hf
      rw [eval_isZero σ h2] at hy
      injection hy with hy
      subst hy
      rw [evalE_Lit, toWord_zero, evmAnd, Nat.and_zero]
    · injection hf with hf
      subst hf
      obtain ⟨hla, hlb⟩ := isLiterals2 (not_bang h3)
      obtain ⟨hwa, hwb⟩ := WFargs2 hw
      rw [eval_isLiteral σ hla hwa] at hx
      rw [eval_isLiteral σ hlb hwb] at hy
      injection hx with hx
      injection hy with hy
      subst hx
      subst hy
      rw [evalE_Lit]
      exact congrArg some (toWord_small (evmAnd_lt _ (litNat_lt hla hwa)))

theorem foldOr_sound {σ : String → ℕ} {args : List Expr} {r : Expr} {vs : List ℕ} {v : ℕ}
    (hf : foldOr args = some r) (hw : WFargs args = true)
    (hargs : evalArgs σ args = some vs) (hsem : sem2 evmOr vs = some v) :
    evalE σ r = some v := by
  match args with
  | [a, b] =>
    obtain ⟨x, y, hx, hy, rfl⟩ := evalBin_elim hargs hsem
    rw [foldOr] at hf
    split_ifs at hf with h1 h2 h3
    · injection hf with hf
      subst hf
      rw [eval_isZero σ h1] at hx
      injection hx with hx
      subst hx
      rw [hy, evmOr, Nat.zero_or]
    · injection hf with hf
      subst hf
      rw [eval_isZero σ h2] at hy
      injection hy with hy
      subst hy
      rw [hx, evmOr, Nat.or_zero]
    · injection hf with hf
      subst hf
      obtain ⟨hla, hlb⟩ := isLiterals2 (not_bang h3)
      obtain ⟨hwa, hwb⟩ := WFargs2 hw
      rw [eval_isLiteral σ hla hwa] at hx
      rw [eval_isLiteral σ hlb hwb] at hy
      injection hx with hx
      injection hy with hy
      subst hx
      subst hy
      rw [evalE_Lit]
      exact congrArg some (toWord_small (evmOr_lt (litNat_lt hla hwa)
        (litNat_lt hlb hwb)))

theorem foldXor_sound {σ : String → ℕ} {args : List Expr} {r : Expr} {vs : List ℕ} {v : ℕ}
    (hf : foldXor args = some r) (hw : WFargs args = true)
    (hargs : evalArgs σ args = some vs) (hsem : sem2 evmXor vs = some v) :
    evalE σ r = some v := by
  match args with
  | [a, b] =>
    obtain ⟨x, y, hx, hy, rfl⟩ := evalBin_elim hargs hsem
    rw [foldXor] at hf
    split_ifs at hf with h1 h2 h3
    · injection hf with hf
      subst hf
      rw [eval_isZero σ h1] at hx
      injection hx with hx
      subst hx
      rw [hy, evmXor, Nat.zero_xor]
    · injection hf with hf
      subst hf
      rw [eval_isZero σ h2] at hy
      injection hy with hy
      subst hy
      rw [hx, evmXor, Nat.xor_zero]
    · injection hf with hf
      subst hf
      obtain ⟨hla, hlb⟩ := isLiterals2 (not_bang h3)
      obtain ⟨hwa, hwb⟩ := WFargs2 hw
      rw [eval_isLiteral σ hla hwa] at hx
      rw [eval_isLiteral σ hlb hwb] at hy
      injection hx with hx
      injection hy with hy
      subst hx
      subst hy
      rw [evalE_Lit]
      exact congrArg some (toWord_small (evmXor_lt (litNat_lt hla hwa)
        (litNat_lt hlb hwb)))

theorem foldShl_sound {σ : String → ℕ} {args : List Expr} {r : Expr} {vs : List ℕ} {v : ℕ}
    (hf : foldShl args = some r) (hw : WFargs args = true)
    (hargs : evalArgs σ args = some vs) (hsem : sem2 evmShl vs = some v) :
    evalE σ r = some v := by
  match args with
  | [s, a] =>
    obtain ⟨x, y, hx, hy, rfl⟩ := evalBin_elim hargs hsem
    rw [foldShl] at hf
    split_ifs at hf with h1 h2
    · injection hf with hf
      subst hf
      rw [eval_isZero σ h1] at hx
      injection hx with hx
      subst hx
      have hy2 := evalE_lt σ a y hy
      rw [hy, evmShl, Nat.shiftLeft_zero, Nat.mod_eq_of_lt hy2]
    · injection hf with hf
      subst hf
      obtain ⟨hls, hla⟩ := isLiterals2 (not_bang h2)
      obtain ⟨hws, hwa⟩ := WFargs2 hw
      rw [eval_isLiteral σ hls hws] at hx
      rw [eval_isLiteral σ hla hwa] at hy
      injection hx with hx
      injection hy with hy
      subst hx
      subst hy
      rw [evalE_Lit, toWord_natCast]
      rfl

theorem toWord_toSigned {y : ℕ} (hy : y < U256) : toWord (toSigned y) = y := by
  unfold toSigned
  split
  · exact toWord_small hy
  · unfold toWord
    have h1 : ((y : ℤ) - (U256 : ℤ)) % (U256 : ℤ) = (y : ℤ) % (U256 : ℤ) := by
      rw [Int.sub_emod, Int.emod_self, sub_zero, Int.emod_emod_of_dvd _ dvd_rfl]
    show (((y : ℤ) - (U256 : ℤ)) % (U256 : ℤ)).toNat = y
    rw [h1, ← Int.natCast_mod, Int.toNat_natCast]
    exact Nat.mod_eq_of_lt hy

theorem fdiv_natCast_pow (m s : ℕ) :
    ((m : ℤ)).fdiv ((2 : ℤ) ^ s) = ((m / 2 ^ s : ℕ) : ℤ) := by
  rw [show ((2 : ℤ) ^ s) = ((2 ^ s : ℕ) : ℤ) from by push_cast; rfl]
  rw [Int.fdiv_eq_tdiv (by positivity) (by positivity)]
  rfl

theorem foldShr_sound {σ : String → ℕ} {args : List Expr} {r : Expr} {vs : List ℕ} {v : ℕ}
    (hf : foldShrSar "shr" args = some r) (hw : WFargs args = true)
    (hargs : evalArgs σ args = some vs) (hsem : sem2 evmShr vs = some v) :
    evalE σ r = some v := by
  match args with
  | [s, a] =>
    obtain ⟨x, y, hx, hy, rfl⟩ := evalBin_elim hargs hsem
    rw [foldShrSar] at hf
    simp only [show (("shr" : String) == "sar") = false from by decide,
      Bool.false_eq_true, if_false] at hf
    split_ifs at hf with h1 h2
    · injection hf with hf
      subst hf
      rw [eval_isZero σ h1] at hx
      injection hx with hx
      subst hx
      rw [hy, evmShr, Nat.shiftRight_zero]
    · injection hf with hf
      subst hf
      obtain ⟨hls, hla⟩ := isLiterals2 (not_bang h2)
      obtain ⟨hws, hwa⟩ := WFargs2 hw
      rw [eval_isLiteral σ hls hws] at hx
      rw [eval_isLiteral σ hla hwa] at hy
      injection hx with hx
      injection hy with hy
      subst hx
      subst hy
      rw [evalE_Lit, fdiv_natCast_pow, evmShr, Nat.shiftRight_eq_div_pow]
      exact congrArg some (toWord_small (lt_of_le_of_lt (Nat.div_le_self _ _)
        (litNat_lt hla hwa)))

theorem foldSar_sound {σ : String → ℕ} {args : List Expr} {r : Expr} {vs : List ℕ} {v : ℕ}
    (hf : foldShrSar "sar" args = some r) (hw : WFargs args = true)
    (hargs : evalArgs σ args = some vs) (hsem : sem2 evmSar vs = some v) :
    evalE σ r = some v := by
  match args with
  | [s, a] =>
    obtain ⟨x, y, hx, hy, rfl⟩ := evalBin_elim hargs hsem
    rw [foldShrSar] at hf
    simp only [show (("sar" : String) == "sar") = true from by decide, if_true] at hf
    split_ifs at hf with h1 h2
    · injection hf with hf
      subst hf
      rw [eval_isZero σ h1] at hx
      injection hx with hx
      subst hx
      have hy2 := evalE_lt σ a y hy
      rw [hy, evmSar, pow_zero, Int.fdiv_one, toWord_toSigned hy2]
    · injection hf with hf
      subst hf
      obtain ⟨hls, hla⟩ := isLiterals2 (not_bang h2)
      obtain ⟨hws, hwa⟩ := WFargs2 hw
      rw [eval_isLiteral σ hls hws] at hx
      rw [eval_isLiteral σ hla hwa] at hy
      injection hx with hx
      injection hy with hy
      subst hx
      subst hy
      rw [evalE_Lit, jsSigned_eq_toSigned (litNat_lt hla hwa)]
      rfl

theorem lor_highmask {x t : ℕ} (hbit : x.testBit t = true) :
    x ||| ((2 ^ t - 1) ^^^ u256Max) = x ||| (u256Max ^^^ (2 ^ (t + 1) - 1)) := by
  apply Nat.eq_of_testBit_eq
  intro i
  simp only [Nat.testBit_lor, Nat.testBit_xor, u256Max, U256,
    Nat.testBit_two_pow_sub_one]
  rcases lt_trichotomy i t with h | h | h
  · rw [decide_eq_true h, decide_eq_true (show i < t + 1 by omega), Bool.xor_comm]
  · subst h
    simp [hbit]
  · rw [decide_eq_false (show ¬(i < t) by omega),
      decide_eq_false (show ¬(i < t + 1) by omega), Bool.false_xor, Bool.xor_false]

theorem and_lowmask {x t : ℕ} (hbit : x.testBit t = false) :
    x &&& (2 ^ t - 1) = x &&& (2 ^ (t + 1) - 1) := by
  apply Nat.eq_of_testBit_eq
  intro i
  simp only [Nat.testBit_land, Nat.testBit_two_pow_sub_one]
  rcases lt_trichotomy i t with h | h | h
  · rw [decide_eq_true h, decide_eq_true (show i < t + 1 by omega)]
  · subst h
    simp [hbit]
  · rw [decide_eq_false (show ¬(i < t) by omega),
      decide_eq_false (show ¬(i < t + 1) by omega)]

theorem foldSignextend_sound {σ : String → ℕ} {args : List Expr} {r : Expr}
    {vs : List ℕ} {v : ℕ}
    (hf : foldSignextend args = some r) (hw : WFargs args = true)
    (hargs : evalArgs σ args = some vs) (hsem : sem2 evmSignextend vs = some v) :
    evalE σ r = some v := by
  match args with
  | [b, a] =>
    obtain ⟨x, y, hx, hy, rfl⟩ := evalBin_elim hargs hsem
    rw [foldSignextend] at hf
    split_ifs at hf with h1 h2 h3
    all_goals obtain ⟨hlb, hla⟩ := isLiterals2 (not_bang h1)
    all_goals obtain ⟨hwb, hwa⟩ := WFargs2 hw
    all_goals rw [eval_isLiteral σ hlb hwb] at hx
    all_goals rw [eval_isLiteral σ hla hwa] at hy
    all_goals injection hx with hx
    all_goals injection hy with hy
    all_goals subst hx
    all_goals subst hy
    · injection hf with hf
      subst hf
      rw [evalE_Lit, evmSignextend, if_pos (by omega : 32 ≤ litNat b)]
      exact congrArg some (toWord_small (litNat_lt hla hwa))
    · injection hf with hf
      subst hf
      have hbit : (litNat a).testBit (litNat b * 8 + 7) = true := by
        have h3' := h3
        rw [Nat.one_shiftLeft, bne_iff_ne, ne_eq, Nat.and_two_pow] at h3'
        rcases hb : (litNat a).testBit (litNat b * 8 + 7) with _ | _
        · rw [hb] at h3'
          exact absurd (by simp : Bool.toNat false * 2 ^ (litNat b * 8 + 7) = 0) h3'
        · rfl
      rw [evalE_Lit, evmSignextend, if_neg (by omega : ¬(32 ≤ litNat b))]
      rw [if_pos (by rw [show 8 * litNat b + 7 = litNat b * 8 + 7 by ring]; exact hbit)]
      rw [Nat.one_shiftLeft]
      rw [show 8 * litNat b + 7 = litNat b * 8 + 7 by ring]
      rw [← lor_highmask hbit]
      have hor : litNat a ||| ((2 ^ (litNat b * 8 + 7) - 1) ^^^ u256Max) < U256 := by
        rw [U256_eq_pow]
        refine Nat.or_lt_two_pow ?_ (Nat.xor_lt_two_pow ?_ ?_)
        · rw [← U256_eq_pow]
          exact litNat_lt hla hwa
        · have hle : 2 ^ (litNat b * 8 + 7) ≤ 2 ^ 256 :=
            Nat.pow_le_pow_right (by norm_num) (by omega)
          have hpos : 0 < 2 ^ (litNat b * 8 + 7) := Nat.pos_pow_of_pos _ (by norm_num)
          omega
        · rw [← U256_eq_pow]
          exact u256Max_lt
      exact congrArg some (toWord_small hor)
    · injection hf with hf
      subst hf
      have hbit : (litNat a).testBit (litNat b * 8 + 7) = false := by
        rw [Nat.one_shiftLeft, bne_iff_ne, ne_eq, Nat.and_two_pow] at h3
        rcases hb : (litNat a).testBit (litNat b * 8 + 7) with _ | _
        · rfl
        · rw [hb] at h3
          refine absurd ?_ h3
          have hpos : (0 : ℕ) < 2 ^ (litNat b * 8 + 7) :=
            Nat.pos_pow_of_pos _ (by norm_num)
          simp only [Bool.toNat_true, Nat.one_mul]
          omega
      rw [evalE_Lit, evmSignextend, if_neg (by omega : ¬(32 ≤ litNat b))]
      rw [if_neg (by rw [show 8 * litNat b + 7 = litNat b * 8 + 7 by ring, hbit]
                     exact Bool.false_ne_true)]
      rw [Nat.one_shiftLeft]
      rw [show 8 * litNat b + 7 = litNat b * 8 + 7 by ring]
      rw [← and_lowmask hbit]
      exact congrArg some (toWord_small (lt_of_le_of_lt Nat.and_le_left
        (litNat_lt hla hwa)))

theorem foldByte_sound {σ : String → ℕ} {args : List Expr} {r : Expr} {vs : List ℕ} {v : ℕ}
    (hf : foldByte args = some r) (hw : WFargs args = true)
    (hargs : evalArgs σ args = some vs) (hsem : sem2 evmByte vs = some v) :
    evalE σ r = some v := by
  match args with
  | [p, a] =>
    obtain ⟨x, y, hx, hy, rfl⟩ := evalBin_elim hargs hsem
    rw [foldByte] at hf
    split_ifs at hf with h1 h2
    all_goals obtain ⟨hlp, hla⟩ := isLiterals2 (not_bang h1)
    all_goals obtain ⟨hwp, hwa⟩ := WFargs2 hw
    all_goals rw [eval_isLiteral σ hlp hwp] at hx
    all_goals rw [eval_isLiteral σ hla hwa] at hy
    all_goals injection hx with hx
    all_goals injection hy with hy
    all_goals subst hx
    all_goals subst hy
    · injection hf with hf
      subst hf
      rw [evalE_Lit, toWord_zero, evmByte, if_pos h2]
    · injection hf with hf
      subst hf
      rw [evalE_Lit, evmByte, if_neg h2]
      rw [show (31 - litNat p) <<< 3 = 8 * (31 - litNat p) by
        rw [Nat.shiftLeft_eq]; ring]
      exact congrArg some (toWord_small (lt_of_le_of_lt Nat.and_le_right byte255_lt))

/-! ### Injectivity of the padded word encoding on well-formed strings -/

theorem bytesVal_append (l t : List ℕ) :
    bytesVal (l ++ t) = bytesVal l * 256 ^ t.length + bytesVal t := by
  unfold bytesVal
  rw [List.foldl_append]
  exact bytesVal_from t _

theorem bytesVal_replicate_zero (k : ℕ) : bytesVal (List.replicate k 0) = 0 := by
  induction k with
  | zero => rfl
  | succ k ih =>
    rw [List.replicate_succ, bytesVal_cons, ih, Nat.zero_mul]

theorem map_mod_self {bs : List ℕ} (h : ∀ b ∈ bs, b < 256) :
    bs.map (· % 256) = bs := by
  induction bs with
  | nil => rfl
  | cons a t ih =>
    rw [List.map_cons, Nat.mod_eq_of_lt (h a (List.mem_cons_self ..)),
      ih fun b hb => h b (List.mem_cons_of_mem _ hb)]

theorem padWord_wf {bs : List ℕ} (h1 : bs.length ≤ 32) (h2 : ∀ b ∈ bs, b < 256) :
    padWord bs = bytesVal (bs ++ List.replicate (32 - bs.length) 0) := by
  unfold padWord
  rw [List.take_of_length_le h1, map_mod_self h2, min_eq_left h1,
    bytesVal_append, bytesVal_replicate_zero, List.length_replicate, Nat.add_zero]

theorem bytesVal_inj {l1 l2 : List ℕ} (hlen : l1.length = l2.length)
    (hd1 : ∀ b ∈ l1, b < 256) (hd2 : ∀ b ∈ l2, b < 256)
    (h : bytesVal l1 = bytesVal l2) : l1 = l2 := by
  induction l1 generalizing l2 with
  | nil =>
    cases l2 with
    | nil => rfl
    | cons b s => exact absurd hlen (by simp)
  | cons a t ih =>
    cases l2 with
    | nil => exact absurd hlen (by simp)
    | cons b s =>
      have hts : t.length = s.length := by simpa using hlen
      rw [bytesVal_cons, bytesVal_cons, ← hts] at h
      have hbt : bytesVal t < 256 ^ t.length :=
        bytesVal_lt t fun b hb => hd1 b (List.mem_cons_of_mem _ hb)
      have hbs : bytesVal s < 256 ^ t.length := by
        rw [hts]
        exact bytesVal_lt s fun b hb => hd2 b (List.mem_cons_of_mem _ hb)
      have hP : (0 : ℕ) < 256 ^ t.length := Nat.pos_pow_of_pos _ (by norm_num)
      have hab : a = b := by
        rcases lt_trichotomy a b with hlt | heq | hgt
        · exfalso
          have : a * 256 ^ t.length + bytesVal t < b * 256 ^ t.length + bytesVal s :=
            calc a * 256 ^ t.length + bytesVal t
                < a * 256 ^ t.length + 256 ^ t.length := Nat.add_lt_add_left hbt _
              _ = (a + 1) * 256 ^ t.length := by ring
              _ ≤ b * 256 ^ t.length := Nat.mul_le_mul_right _ (by omega)
              _ ≤ b * 256 ^ t.length + bytesVal s := Nat.le_add_right _ _
          omega
        · exact heq
        · exfalso
          have : b * 256 ^ t.length + bytesVal s < a * 256 ^ t.length + bytesVal t :=
            calc b * 256 ^ t.length + bytesVal s
                < b * 256 ^ t.length + 256 ^ t.length := Nat.add_lt_add_left hbs _
              _ = (b + 1) * 256 ^ t.length := by ring
              _ ≤ a * 256 ^ t.length := Nat.mul_le_mul_right _ (by omega)
              _ ≤ a * 256 ^ t.length + bytesVal t := Nat.le_add_right _ _
          omega
      subst hab
      have hrest : bytesVal t = bytesVal s := Nat.add_left_cancel h
      rw [ih hts (fun b hb => hd1 b (List.mem_cons_of_mem _ hb))
        (fun b hb => hd2 b (List.mem_cons_of_mem _ hb)) hrest]

theorem dropWhile_zeros (k : ℕ) (r : List ℕ) (hr : r.head? ≠ some 0) :
    (List.replicate k 0 ++ r).dropWhile (· == 0) = r := by
  induction k with
  | zero =>
    cases r with
    | nil => rfl
    | cons h t =>
      have hne : h ≠ 0 := by
        intro h0
        exact hr (by rw [h0]; rfl)
      simp only [List.replicate, List.nil_append, List.dropWhile_cons]
      rw [if_neg (by simpa using hne)]
  | succ k ih =>
    rw [List.replicate_succ, List.cons_append, List.dropWhile_cons]
    rw [if_pos (by norm_num)]
    exact ih

theorem no_trailing_zero_cancel {b1 b2 : List ℕ} {k1 k2 : ℕ}
    (h : b1 ++ List.replicate k1 0 = b2 ++ List.replicate k2 0)
    (h1 : b1.getLast? ≠ some 0) (h2 : b2.getLast? ≠ some 0) : b1 = b2 := by
  have hrev := congrArg List.reverse h
  rw [List.reverse_append, List.reverse_append, List.reverse_replicate,
    List.reverse_replicate] at hrev
  have e1 := dropWhile_zeros k1 b1.reverse (by rw [List.head?_reverse]; exact h1)
  have e2 := dropWhile_zeros k2 b2.reverse (by rw [List.head?_reverse]; exact h2)
  have : b1.reverse = b2.reverse := by rw [← e1, ← e2, hrev]
  exact List.reverse_injective this

theorem opSem_iszero (x : ℕ) : opSem "iszero" [x] = some (evmIszero x) := rfl

theorem opSem_lt2 (x y : ℕ) : opSem "lt" [x, y] = some (evmLt x y) := rfl

theorem opSem_gt2 (x y : ℕ) : opSem "gt" [x, y] = some (evmGt x y) := rfl

theorem evalE_call1 {σ : String → ℕ} {n : String} {a : Expr} {x w : ℕ}
    (ha : evalE σ a = some x) (hop : opSem n [x] = some w) :
    evalE σ (.call n [a]) = some w := by
  show (evalArgs σ [a]).bind (fun vs => opSem n vs) = some w
  have h1 : evalArgs σ [a] = some [x] := by
    unfold evalArgs evalArgs
    rw [ha]
    rfl
  rw [h1, Option.some_bind, hop]

theorem evalE_call2 {σ : String → ℕ} {n : String} {a b : Expr} {x y w : ℕ}
    (ha : evalE σ a = some x) (hb : evalE σ b = some y)
    (hop : opSem n [x, y] = some w) :
    evalE σ (.call n [a, b]) = some w := by
  show (evalArgs σ [a, b]).bind (fun vs => opSem n vs) = some w
  have h1 : evalArgs σ [a, b] = some [x, y] := by
    unfold evalArgs evalArgs evalArgs
    rw [ha, hb]
    rfl
  rw [h1, Option.some_bind, hop]

theorem WF_str (s : List ℕ) : WF (.lit (.str s)) = wfStr s := rfl

theorem isStringLiteral_elim {e : Expr} (h : isStringLiteral e = true) :
    ∃ s, e = .lit (.str s) := by
  match e with
  | .lit (.str s) => exact ⟨s, rfl⟩
  | .lit (.num n) => exact absurd h Bool.false_ne_true
  | .lit (.hexlit s) => exact absurd h Bool.false_ne_true
  | .lit (.bool b) => exact absurd h Bool.false_ne_true
  | .ident x => exact absurd h Bool.false_ne_true
  | .call n as => exact absurd h Bool.false_ne_true

theorem evmEq_zero_left (y : ℕ) : evmEq 0 y = evmIszero y := by
  unfold evmEq evmIszero
  by_cases h : y = 0
  · rw [if_pos h.symm, if_pos h]
  · rw [if_neg (fun hh => h hh.symm), if_neg h]

theorem evmEq_zero_right (x : ℕ) : evmEq x 0 = evmIszero x := rfl

theorem foldEq_sound {σ : String → ℕ} {args : List Expr} {r : Expr} {vs : List ℕ} {v : ℕ}
    (hf : foldEqOp args = some r) (hw : WFargs args = true)
    (hstr : ∀ s1 s2, args = [Expr.lit (.str s1), Expr.lit (.str s2)] →
      s1 ≠ s2 → padWord s1 ≠ padWord s2)
    (hargs : evalArgs σ args = some vs) (hsem : sem2 evmEq vs = some v) :
    evalE σ r = some v := by
  match args with
  | [a, b] =>
    obtain ⟨x, y, hx, hy, rfl⟩ := evalBin_elim hargs hsem
    rw [foldEqOp] at hf
    split_ifs at hf with h0 h1 h2 h3
    · rw [Bool.and_eq_true] at h0
      obtain ⟨s1, rfl⟩ := isStringLiteral_elim h0.1
      obtain ⟨s2, rfl⟩ := isStringLiteral_elim h0.2
      injection hf with hf
      subst hf
      have hx2 : x = padWord s1 := by
        have he : evalE σ (.lit (.str s1)) = some (padWord s1) := rfl
        rw [he] at hx
        injection hx with hx
        exact hx.symm
      have hy2 : y = padWord s2 := by
        have he : evalE σ (.lit (.str s2)) = some (padWord s2) := rfl
        rw [he] at hy
        injection hy with hy
        exact hy.symm
      subst hx2
      subst hy2
      by_cases hss : s1 = s2
      · subst hss
        rw [evalE_Lit, boolInt_true (by rfl), toWord_one, evmEq, if_pos rfl]
      · rw [evalE_Lit,
          boolInt_false (show ¬(strBytes (.lit (.str s1)) = strBytes (.lit (.str s2)))
            from by simpa [strBytes] using hss),
          toWord_zero, evmEq, if_neg (hstr s1 s2 rfl hss)]
    · injection hf with hf
      subst hf
      obtain ⟨hla, hlb⟩ := isLiterals2 h1
      obtain ⟨hwa, hwb⟩ := WFargs2 hw
      rw [eval_isLiteral σ hla hwa] at hx
      rw [eval_isLiteral σ hlb hwb] at hy
      injection hx with hx
      injection hy with hy
      subst hx
      subst hy
      rw [evalE_Lit, evmEq]
      by_cases heq : litNat a = litNat b
      · rw [boolInt_true heq, if_pos heq, toWord_one]
      · rw [boolInt_false heq, if_neg heq, toWord_zero]
    · injection hf with hf
      subst hf
      rw [eval_isZero σ h2] at hx
      injection hx with hx
      subst hx
      exact evalE_call1 hy (by rw [opSem_iszero, ← evmEq_zero_left])
    · injection hf with hf
      subst hf
      rw [eval_isZero σ h3] at hy
      injection hy with hy
      subst hy
      exact evalE_call1 hx (by rw [opSem_iszero, ← evmEq_zero_right])

theorem foldLt_sound {σ : String → ℕ} {args : List Expr} {r : Expr} {vs : List ℕ} {v : ℕ}
    (hf : foldLtSlt "lt" args = some r) (hw : WFargs args = true)
    (hargs : evalArgs σ args = some vs) (hsem : sem2 evmLt vs = some v) :
    evalE σ r = some v := by
  match args with
  | [a, b] =>
    obtain ⟨x, y, hx, hy, rfl⟩ := evalBin_elim hargs hsem
    rw [foldLtSlt] at hf
    simp only [show (("lt" : String) == "slt") = false from by decide,
      Bool.false_eq_true, if_false] at hf
    split_ifs at hf with h1
    injection hf with hf
    subst hf
    obtain ⟨hla, hlb⟩ := isLiterals2 (not_bang h1)
    obtain ⟨hwa, hwb⟩ := WFargs2 hw
    rw [eval_isLiteral σ hla hwa] at hx
    rw [eval_isLiteral σ hlb hwb] at hy
    injection hx with hx
    injection hy with hy
    subst hx
    subst hy
    rw [evalE_Lit, evmLt]
    by_cases hlt : litNat a < litNat b
    · rw [boolInt_true (by exact_mod_cast hlt), if_pos hlt, toWord_one]
    · rw [boolInt_false (by exact_mod_cast hlt), if_neg hlt, toWord_zero]

theorem foldSlt_sound {σ : String → ℕ} {args : List Expr} {r : Expr} {vs : List ℕ} {v : ℕ}
    (hf : foldLtSlt "slt" args = some r) (hw : WFargs args = true)
    (hargs : evalArgs σ args = some vs) (hsem : sem2 evmSlt vs = some v) :
    evalE σ r = some v := by
  match args with
  | [a, b] =>
    obtain ⟨x, y, hx, hy, rfl⟩ := evalBin_elim hargs hsem
    rw [foldLtSlt] at hf
    simp only [show (("slt" : String) == "slt") = true from by decide, if_true] at hf
    split_ifs at hf with h1
    injection hf with hf
    subst hf
    obtain ⟨hla, hlb⟩ := isLiterals2 (not_bang h1)
    obtain ⟨hwa, hwb⟩ := WFargs2 hw
    rw [eval_isLiteral σ hla hwa] at hx
    rw [eval_isLiteral σ hlb hwb] at hy
    injection hx with hx
    injection hy with hy
    subst hx
    subst hy
    rw [evalE_Lit, evmSlt, jsSigned_eq_toSigned (litNat_lt hla hwa),
      jsSigned_eq_toSigned (litNat_lt hlb hwb)]
    by_cases hlt : toSigned (litNat a) < toSigned (litNat b)
    · rw [boolInt_true hlt, if_pos hlt, toWord_one]
    · rw [boolInt_false hlt, if_neg hlt, toWord_zero]

theorem foldGt_sound {σ : String → ℕ} {args : List Expr} {r : Expr} {vs : List ℕ} {v : ℕ}
    (hf : foldGtSgt "gt" args = some r) (hw : WFargs args = true)
    (hargs : evalArgs σ args = some vs) (hsem : sem2 evmGt vs = some v) :
    evalE σ r = some v := by
  match args with
  | [a, b] =>
    obtain ⟨x, y, hx, hy, rfl⟩ := evalBin_elim hargs hsem
    rw [foldGtSgt] at hf
    simp only [show (("gt" : String) == "sgt") = false from by decide,
      Bool.false_eq_true, if_false] at hf
    split_ifs at hf with h1
    injection hf with hf
    subst hf
    obtain ⟨hla, hlb⟩ := isLiterals2 (not_bang h1)
    obtain ⟨hwa, hwb⟩ := WFargs2 hw
    rw [eval_isLiteral σ hla hwa] at hx
    rw [eval_isLiteral σ hlb hwb] at hy
    injection hx with hx
    injection hy with hy
    subst hx
    subst hy
    rw [evalE_Lit, evmGt]
    by_cases hgt : litNat b < litNat a
    · rw [boolInt_true (show (litNat a : ℤ) > litNat b from by exact_mod_cast hgt),
        if_pos hgt, toWord_one]
    · rw [boolInt_false (show ¬((litNat a : ℤ) > litNat b) from by exact_mod_cast hgt),
        if_neg hgt, toWord_zero]

theorem foldSgt_sound {σ : String → ℕ} {args : List Expr} {r : Expr} {vs : List ℕ} {v : ℕ}
    (hf : foldGtSgt "sgt" args = some r) (hw : WFargs args = true)
    (hargs : evalArgs σ args = some vs) (hsem : sem2 evmSgt vs = some v) :
    evalE σ r = some v := by
  match args with
  | [a, b] =>
    obtain ⟨x, y, hx, hy, rfl⟩ := evalBin_elim hargs hsem
    rw [foldGtSgt] at hf
    simp only [show (("sgt" : String) == "sgt") = true from by decide, if_true] at hf
    split_ifs at hf with h1
    injection hf with hf
    subst hf
    obtain ⟨hla, hlb⟩ := isLiterals2 (not_bang h1)
    obtain ⟨hwa, hwb⟩ := WFargs2 hw
    rw [eval_isLiteral σ hla hwa] at hx
    rw [eval_isLiteral σ hlb hwb] at hy
    injection hx with hx
    injection hy with hy
    subst hx
    subst hy
    rw [evalE_Lit, evmSgt, jsSigned_eq_toSigned (litNat_lt hla hwa),
      jsSigned_eq_toSigned (litNat_lt hlb hwb)]
    by_cases hgt : toSigned (litNat b) < toSigned (litNat a)
    · rw [boolInt_true hgt, if_pos hgt, toWord_one]
    · rw [boolInt_false hgt, if_neg hgt, toWord_zero]

theorem U256_eq_max_succ : U256 = u256Max + 1 :=
  (Nat.succ_pred_eq_of_pos U256_pos).symm

/-- Soundness of the `iszero` case of `fold`: the literal branch and both
`iszero(lt(x, L))` / `iszero(gt(x, L))` strengthenings agree with the word
semantics. -/
theorem foldIszero_sound {σ : String → ℕ} {args : List Expr} {r : Expr}
    {vs : List ℕ} {v : ℕ}
    (hf : foldIszero args = some r) (hw : WFargs args = true)
    (hargs : evalArgs σ args = some vs) (hsem : sem1 evmIszero vs = some v) :
    evalE σ r = some v := by
  match args with
  | [.ident s] => exact Option.noConfusion hf
  | [.call nm []] => exact Option.noConfusion hf
  | [.call nm [z]] => exact Option.noConfusion hf
  | [.call nm (z1 :: z2 :: z3 :: zs)] => exact Option.noConfusion hf
  | [.lit l] =>
    obtain ⟨w, hwv, rfl⟩ := evalUn_elim hargs hsem
    have hf2 : (if !isLiteral (Expr.lit l) then none
        else some (Lit (boolInt (litNat (Expr.lit l) = 0)))) = some r := hf
    split_ifs at hf2 with h1
    injection hf2 with hf2
    subst hf2
    have hla : isLiteral (Expr.lit l) = true := not_bang h1
    have hwa : WF (Expr.lit l) = true := by
      rw [WFargs, Bool.and_eq_true] at hw
      exact hw.1
    rw [eval_isLiteral σ hla hwa] at hwv
    injection hwv with hwv
    subst hwv
    rw [evalE_Lit, evmIszero]
    by_cases hz : litNat (Expr.lit l) = 0
    · rw [boolInt_true hz, if_pos hz, toWord_one]
    · rw [boolInt_false hz, if_neg hz, toWord_zero]
  | [.call nm [x, y]] =>
    obtain ⟨w, hwv, rfl⟩ := evalUn_elim hargs hsem
    have hwy : WF y = true := by
      rw [WFargs, Bool.and_eq_true, WF] at hw
      exact (WFargs2 hw.1).2
    have hf2 : (if nm == "lt" then
        if isLiteral y then
          if litNat y == 0 then some (Lit 1)
          else some (GtE x (Lit ((litNat y : ℤ) - 1)))
        else none
      else if nm == "gt" then
        if isLiteral y then
          if litNat y == u256Max then some (Lit 1)
          else some (LtE x (Lit ((litNat y : ℤ) + 1)))
        else none
      else none) = some r := hf
    by_cases h1 : (nm == "lt") = true
    · rw [if_pos h1] at hf2
      have hnm : nm = "lt" := by simpa using h1
      subst hnm
      obtain ⟨vs2, hargs2, hop2⟩ :=
        evalCall_op (show opOfName "lt" = some Op.lt from rfl) hwv
      obtain ⟨vx, vy, hvx, hvy, rfl⟩ := evalBin_elim hargs2 hop2
      by_cases h2 : isLiteral y = true
      · rw [if_pos h2] at hf2
        rw [eval_isLiteral σ h2 hwy] at hvy
        injection hvy with hvy
        by_cases h3 : (litNat y == 0) = true
        · rw [if_pos h3] at hf2
          have hy0 : litNat y = 0 := by simpa using h3
          injection hf2 with hf2
          subst hf2
          rw [evalE_Lit, toWord_one]
          have : evmIszero (evmLt vx vy) = 1 := by
            rw [← hvy, hy0, evmLt, if_neg (Nat.not_lt_zero vx)]
            rfl
          rw [this]
        · rw [if_neg h3] at hf2
          have hy0 : litNat y ≠ 0 := by simpa using h3
          injection hf2 with hf2
          subst hf2
          have hylt : litNat y < U256 := litNat_lt h2 hwy
          have hcast : ((litNat y : ℤ) - 1) = ((litNat y - 1 : ℕ) : ℤ) := by
            have := Nat.one_le_iff_ne_zero.mpr hy0
            push_cast [this]
            ring
          have hb : evalE σ (Lit ((litNat y : ℤ) - 1)) = some (litNat y - 1) := by
            rw [evalE_Lit, hcast, toWord_natCast,
              Nat.mod_eq_of_lt (lt_of_le_of_lt (Nat.sub_le _ _) hylt)]
          have hcmp : evmGt vx (litNat y - 1) =
              evmIszero (evmLt vx (litNat y)) := by
            rw [evmGt, evmLt, evmIszero]
            by_cases hle : litNat y ≤ vx
            · have e1 : litNat y - 1 < vx := by omega
              have e2 : ¬ vx < litNat y := by omega
              rw [if_pos e1, if_neg e2]
              rfl
            · have e1 : ¬ litNat y - 1 < vx := by omega
              have e2 : vx < litNat y := by omega
              rw [if_neg e1, if_pos e2]
              rfl
          have hopv : opSem "gt" [vx, litNat y - 1] =
              some (evmIszero (evmLt vx vy)) := by
            rw [opSem_gt2, ← hvy, hcmp]
          exact evalE_call2 hvx hb hopv
      · rw [if_neg h2] at hf2
        exact Option.noConfusion hf2
    · rw [if_neg h1] at hf2
      by_cases h4 : (nm == "gt") = true
      · rw [if_pos h4] at hf2
        have hnm : nm = "gt" := by simpa using h4
        subst hnm
        obtain ⟨vs2, hargs2, hop2⟩ :=
          evalCall_op (show opOfName "gt" = some Op.gt from rfl) hwv
        obtain ⟨vx, vy, hvx, hvy, rfl⟩ := evalBin_elim hargs2 hop2
        by_cases h5 : isLiteral y = true
        · rw [if_pos h5] at hf2
          rw [eval_isLiteral σ h5 hwy] at hvy
          injection hvy with hvy
          by_cases h6 : (litNat y == u256Max) = true
          · rw [if_pos h6] at hf2
            have hymax : litNat y = u256Max := by simpa using h6
            injection hf2 with hf2
            subst hf2
            rw [evalE_Lit, toWord_one]
            have hvxlt : vx < U256 := evalE_lt σ x vx hvx
            have : evmIszero (evmGt vx vy) = 1 := by
              rw [← hvy, hymax, evmGt,
                if_neg (by rw [U256_eq_max_succ] at hvxlt; omega)]
              rfl
            rw [this]
          · rw [if_neg h6] at hf2
            have hymax : litNat y ≠ u256Max := by simpa using h6
            injection hf2 with hf2
            subst hf2
            have hylt : litNat y < U256 := litNat_lt h5 hwy
            have hsucclt : litNat y + 1 < U256 := by
              rw [U256_eq_max_succ] at hylt ⊢
              omega
            have hb : evalE σ (Lit ((litNat y : ℤ) + 1)) = some (litNat y + 1) := by
              rw [evalE_Lit, show ((litNat y : ℤ) + 1) = ((litNat y + 1 : ℕ) : ℤ) by
                push_cast; ring, toWord_natCast, Nat.mod_eq_of_lt hsucclt]
            have hcmp : evmLt vx (litNat y + 1) =
                evmIszero (evmGt vx (litNat y)) := by
              rw [evmLt, evmGt, evmIszero]
              by_cases hle : vx ≤ litNat y
              · have e1 : vx < litNat y + 1 := by omega
                have e2 : ¬ litNat y < vx := by omega
                rw [if_pos e1, if_neg e2]
                rfl
              · have e1 : ¬ vx < litNat y + 1 := by omega
                have e2 : litNat y < vx := by omega
                rw [if_neg e1, if_pos e2]
                rfl
            have hopv : opSem "lt" [vx, litNat y + 1] =
                some (evmIszero (evmGt vx vy)) := by
              rw [opSem_lt2, ← hvy, hcmp]
            exact evalE_call2 hvx hb hopv
        · rw [if_neg h5] at hf2
          exact Option.noConfusion hf2
      · rw [if_neg h4] at hf2
        exact Option.noConfusion hf2

/-- Inversion of opcode-name recognition at `exp`. -/
theorem opOfName_exp {name : String} (h : opOfName name = some Op.exp) :
    name = "exp" := by
  unfold opOfName at h
  by_cases h1 : name = "add"
  · rw [if_pos h1] at h
    exact absurd h (by decide)
  · rw [if_neg h1] at h
    by_cases h2 : name = "sub"
    · rw [if_pos h2] at h
      exact absurd h (by decide)
    · rw [if_neg h2] at h
      by_cases h3 : name = "mul"
      · rw [if_pos h3] at h
        exact absurd h (by decide)
      · rw [if_neg h3] at h
        by_cases h4 : name = "div"
        · rw [if_pos h4] at h
          exact absurd h (by decide)
        · rw [if_neg h4] at h
          by_cases h5 : name = "sdiv"
          · rw [if_pos h5] at h
            exact absurd h (by decide)
          · rw [if_neg h5] at h
            by_cases h6 : name = "mod"
            · rw [if_pos h6] at h
              exact absurd h (by decide)
            · rw [if_neg h6] at h
              by_cases h7 : name = "smod"
              · rw [if_pos h7] at h
                exact absurd h (by decide)
              · rw [if_neg h7] at h
                by_cases h8 : name = "exp"
                · exact h8
                · rw [if_neg h8] at h
                  by_cases h9 : name = "addmod"
                  · rw [if_pos h9] at h
                    exact absurd h (by decide)
                  · rw [if_neg h9] at h
                    by_cases h10 : name = "mulmod"
                    · rw [if_pos h10] at h
                      exact absurd h (by decide)
                    · rw [if_neg h10] at h
                      by_cases h11 : name = "not"
                      · rw [if_pos h11] at h
                        exact absurd h (by decide)
                      · rw [if_neg h11] at h
                        by_cases h12 : name = "and"
                        · rw [if_pos h12] at h
                          exact absurd h (by decide)
                        · rw [if_neg h12] at h
                          by_cases h13 : name = "or"
                          · rw [if_pos h13] at h
                            exact absurd h (by decide)
                          · rw [if_neg h13] at h
                            by_cases h14 : name = "xor"
                            · rw [if_pos h14] at h
                              exact absurd h (by decide)
                            · rw [if_neg h14] at h
                              by_cases h15 : name = "shl"
                              · rw [if_pos h15] at h
                                exact absurd h (by decide)
                              · rw [if_neg h15] at h
                                by_cases h16 : name = "shr"
                                · rw [if_pos h16] at h
                                  exact absurd h (by decide)
                                · rw [if_neg h16] at h
                                  by_cases h17 : name = "sar"
                                  · rw [if_pos h17] at h
                                    exact absurd h (by decide)
                                  · rw [if_neg h17] at h
                                    by_cases h18 : name = "signextend"
                                    · rw [if_pos h18] at h
                                      exact absurd h (by decide)
                                    · rw [if_neg h18] at h
                                      by_cases h19 : name = "byte"
                                      · rw [if_pos h19] at h
                                        exact absurd h (by decide)
                                      · rw [if_neg h19] at h
                                        by_cases h20 : name = "iszero"
                                        · rw [if_pos h20] at h
                                          exact absurd h (by decide)
                                        · rw [if_neg h20] at h
                                          by_cases h21 : name = "eq"
                                          · rw [if_pos h21] at h
                                            exact absurd h (by decide)
                                          · rw [if_neg h21] at h
                                            by_cases h22 : name = "lt"
                                            · rw [if_pos h22] at h
                                              exact absurd h (by decide)
                                            · rw [if_neg h22] at h
                                              by_cases h23 : name = "gt"
                                              · rw [if_pos h23] at h
                                                exact absurd h (by decide)
                                              · rw [if_neg h23] at h
                                                by_cases h24 : name = "slt"
                                                · rw [if_pos h24] at h
                                                  exact absurd h (by decide)
                                                · rw [if_neg h24] at h
                                                  by_cases h25 : name = "sgt"
                                                  · rw [if_pos h25] at h
                                                    exact absurd h (by decide)
                                                  · rw [if_neg h25] at h
                                                    exact Option.noConfusion h

/-- Inversion of opcode-name recognition at `eq`. -/
theorem opOfName_eq {name : String} (h : opOfName name = some Op.eq) :
    name = "eq" := by
  unfold opOfName at h
  by_cases h1 : name = "add"
  · rw [if_pos h1] at h
    exact absurd h (by decide)
  · rw [if_neg h1] at h
    by_cases h2 : name = "sub"
    · rw [if_pos h2] at h
      exact absurd h (by decide)
    · rw [if_neg h2] at h
      by_cases h3 : name = "mul"
      · rw [if_pos h3] at h
        exact absurd h (by decide)
      · rw [if_neg h3] at h
        by_cases h4 : name = "div"
        · rw [if_pos h4] at h
          exact absurd h (by decide)
        · rw [if_neg h4] at h
          by_cases h5 : name = "sdiv"
          · rw [if_pos h5] at h
            exact absurd h (by decide)
          · rw [if_neg h5] at h
            by_cases h6 : name = "mod"
            · rw [if_pos h6] at h
              exact absurd h (by decide)
            · rw [if_neg h6] at h
              by_cases h7 : name = "smod"
              · rw [if_pos h7] at h
                exact absurd h (by decide)
              · rw [if_neg h7] at h
                by_cases h8 : name = "exp"
                · rw [if_pos h8] at h
                  exact absurd h (by decide)
                · rw [if_neg h8] at h
                  by_cases h9 : name = "addmod"
                  · rw [if_pos h9] at h
                    exact absurd h (by decide)
                  · rw [if_neg h9] at h
                    by_cases h10 : name = "mulmod"
                    · rw [if_pos h10] at h
                      exact absurd h (by decide)
                    · rw [if_neg h10] at h
                      by_cases h11 : name = "not"
                      · rw [if_pos h11] at h
                        exact absurd h (by decide)
                      · rw [if_neg h11] at h
                        by_cases h12 : name = "and"
                        · rw [if_pos h12] at h
                          exact absurd h (by decide)
                        · rw [if_neg h12] at h
                          by_cases h13 : name = "or"
                          · rw [if_pos h13] at h
                            exact absurd h (by decide)
                          · rw [if_neg h13] at h
                            by_cases h14 : name = "xor"
                            · rw [if_pos h14] at h
                              exact absurd h (by decide)
                            · rw [if_neg h14] at h
                              by_cases h15 : name = "shl"
                              · rw [if_pos h15] at h
                                exact absurd h (by decide)
                              · rw [if_neg h15] at h
                                by_cases h16 : name = "shr"
                                · rw [if_pos h16] at h
                                  exact absurd h (by decide)
                                · rw [if_neg h16] at h
                                  by_cases h17 : name = "sar"
                                  · rw [if_pos h17] at h
                                    exact absurd h (by decide)
                                  · rw [if_neg h17] at h
                                    by_cases h18 : name = "signextend"
                                    · rw [if_pos h18] at h
                                      exact absurd h (by decide)
                                    · rw [if_neg h18] at h
                                      by_cases h19 : name = "byte"
                                      · rw [if_pos h19] at h
                                        exact absurd h (by decide)
                                      · rw [if_neg h19] at h
                                        by_cases h20 : name = "iszero"
                                        · rw [if_pos h20] at h
                                          exact absurd h (by decide)
                                        · rw [if_neg h20] at h
                                          by_cases h21 : name = "eq"
                                          · exact h21
                                          · rw [if_neg h21] at h
                                            by_cases h22 : name = "lt"
                                            · rw [if_pos h22] at h
                                              exact absurd h (by decide)
                                            · rw [if_neg h22] at h
                                              by_cases h23 : name = "gt"
                                              · rw [if_pos h23] at h
                                                exact absurd h (by decide)
                                              · rw [if_neg h23] at h
                                                by_cases h24 : name = "slt"
                                                · rw [if_pos h24] at h
                                                  exact absurd h (by decide)
                                                · rw [if_neg h24] at h
                                                  by_cases h25 : name = "sgt"
                                                  · rw [if_pos h25] at h
                                                    exact absurd h (by decide)
                                                  · rw [if_neg h25] at h
                                                    exact Option.noConfusion h

/-- C1 (amended): constant folding is sound for every foldable opcode
except in two cases.  Whenever `fold` returns a replacement for a call to
a recognised opcode, and the call itself evaluates under a valuation `σ`
of the identifiers, the replacement evaluates to the same 256-bit word —
provided (`hexp`) the `exp` rewrite with a literal-zero base and a
non-literal exponent is only used where the exponent cannot evaluate to
`0` (else the rewrite to literal `0` disagrees with `exp(0, 0) = 1`), and
(`hstr`) the string-string `eq` rewrite is only used on string literals
whose padded words differ whenever the strings differ (else comparing the
decoded strings disagrees with comparing the words they denote, e.g. on a
trailing zero byte).  Both exceptions are real:
`fold_unsound_counterexamples`. -/
theorem fold_sound (σ : String → ℕ) (name : String) (args : List Expr) (r : Expr)
    (hf : fold name args = some r) (hw : WFargs args = true)
    (hexp : ∀ a b, name = "exp" → args = [a, b] → isZero a = true →
      isLiteral b = false → evalE σ b ≠ some 0)
    (hstr : ∀ s1 s2, name = "eq" → args = [Expr.lit (.str s1), Expr.lit (.str s2)] →
      s1 ≠ s2 → padWord s1 ≠ padWord s2)
    (v : ℕ) (hv : evalE σ (.call name args) = some v) :
    evalE σ r = some v := by
  cases hop : opOfName name with
  | none =>
    exfalso
    unfold evalE at hv
    cases h : evalArgs σ args with
    | none =>
      rw [h] at hv
      exact Option.noConfusion hv
    | some vs =>
      rw [h, Option.some_bind] at hv
      unfold opSem at hv
      rw [hop] at hv
      exact Option.noConfusion hv
  | some op =>
    obtain ⟨vs, hargs, hop2⟩ := evalCall_op hop hv
    simp only [fold, hop] at hf
    cases op with
    | add => exact foldAdd_sound hf hw hargs hop2
    | sub => exact foldSub_sound hf hw hargs hop2
    | mul => exact foldMul_sound hf hw hargs hop2
    | div => exact foldDiv_sound hf hw hargs hop2
    | sdiv => exact foldSdiv_sound hf hw hargs hop2
    | mod => exact foldMod_sound hf hw hargs hop2
    | smod => exact foldSmod_sound hf hw hargs hop2
    | exp =>
      exact foldExp_sound hf hw
        (fun a b hab hza hlb => hexp a b (opOfName_exp hop) hab hza hlb)
        hargs hop2
    | addmod => exact foldAddmod_sound hf hw hargs hop2
    | mulmod => exact foldMulmod_sound hf hw hargs hop2
    | not => exact foldNot_sound hf hw hargs hop2
    | and => exact foldAnd_sound hf hw hargs hop2
    | or => exact foldOr_sound hf hw hargs hop2
    | xor => exact foldXor_sound hf hw hargs hop2
    | shl => exact foldShl_sound hf hw hargs hop2
    | shr => exact foldShr_sound hf hw hargs hop2
    | sar => exact foldSar_sound hf hw hargs hop2
    | signextend => exact foldSignextend_sound hf hw hargs hop2
    | byte => exact foldByte_sound hf hw hargs hop2
    | iszero => exact foldIszero_sound hf hw hargs hop2
    | eq =>
      exact foldEq_sound hf hw
        (fun s1 s2 hab hne => hstr s1 s2 (opOfName_eq hop) hab hne) hargs hop2
    | lt => exact foldLt_sound hf hw hargs hop2
    | slt => exact foldSlt_sound hf hw hargs hop2
    | gt => exact foldGt_sound hf hw hargs hop2
    | sgt => exact foldSgt_sound hf hw hargs hop2

/-- C1 counterexamples, one per unsound rewrite.  `fold` rewrites
`exp(0, y)` with non-literal `y` to the literal `0`, but under the
valuation sending `y` to `0` the original call evaluates to
`exp(0, 0) = 1`.  And `fold` rewrites `eq("a\u{0}", "a")` to the literal
`0` because the decoded strings differ, yet both literals denote the same
right-padded word, so the original call evaluates to `1`. -/
theorem fold_unsound_counterexamples :
    (fold "exp" [Lit 0, .ident "y"] = some (Lit 0) ∧
      evalE (fun _ => 0) (.call "exp" [Lit 0, .ident "y"]) = some 1 ∧
      evalE (fun _ => 0) (Lit 0) = some 0) ∧
    (fold "eq" [.lit (.str [97, 0]), .lit (.str [97])] = some (Lit 0) ∧
      evalE (fun _ => 0)
        (.call "eq" [.lit (.str [97, 0]), .lit (.str [97])]) = some 1 ∧
      wfStr [97, 0] = true ∧ wfStr [97] = true) :=
  ⟨⟨rfl, rfl, rfl⟩, ⟨rfl, rfl, rfl, rfl⟩⟩

/-- Witness for `fold_sound` at the concrete input `add(1, 2)`. -/
theorem fold_sound_witness :
    fold "add" [Lit 1, Lit 2] = some (Lit 3) ∧
    evalE (fun _ => 0) (Lit 3) = some 3 :=
  ⟨rfl, fold_sound (fun _ => 0) "add" [Lit 1, Lit 2] (Lit 3) rfl rfl
    (fun a b h => absurd h (by decide))
    (fun s1 s2 h => absurd h (by decide)) 3 rfl⟩

/-! ### ABI signatures (claim C2)

`canonicalize`, `abiHash`, `methodHash` and `eventHash` from the source,
parameterised by the keccak-256 digest function (bytes to bytes).  Methods
(`Method.init`) and errors (`Error.init`) store `methodHash`, events
(`Event.init`) store `eventHash`. -/

/-- `canonicalize(type)`: the switch collapsing the alias types. -/
def canonicalize (type : String) : String :=
  if type = "uint" then "uint256"
  else if type = "int" then "int256"
  else if type = "uint[]" then "uint256[]"
  else if type = "int[]" then "int256[]"
  else type

/-- `Buffer.from(str, 'binary')`: one byte per UTF-16 code unit, low 8 bits. -/
def latin1Bytes (s : String) : List ℕ := s.data.map (fun c => c.toNat % 256)

/-- The signature preimage string built in `abiHash`. -/
def abiPreimage (name : String) (types : List String) : String :=
  name ++ "(" ++ String.intercalate "," (types.map canonicalize) ++ ")"

/-- `abiHash(name, types)`: digest of the canonicalised preimage. -/
def abiHash (keccak : List ℕ → List ℕ) (name : String) (types : List String) :
    List ℕ :=
  keccak (latin1Bytes (abiPreimage name types))

/-- One lowercase hex digit. -/
def hexDigit (n : ℕ) : Char :=
  if n < 10 then Char.ofNat (48 + n) else Char.ofNat (87 + n)

/-- Two lowercase hex digits of one byte (`Buffer.toString('hex')`). -/
def byteHex (b : ℕ) : String := String.mk [hexDigit (b / 16 % 16), hexDigit (b % 16)]

def bytesHex (bs : List ℕ) : String := String.join (bs.map byteHex)

/-- `methodHash`: `'0x' + hash.toString('hex', 0, 4)`, the first (highest)
four bytes of the digest. -/
def methodHash (keccak : List ℕ → List ℕ) (name : String) (types : List String) :
    String :=
  "0x" ++ bytesHex ((abiHash keccak name types).take 4)

/-- `eventHash`: `'0x' + hash.toString('hex')`, the full digest. -/
def eventHash (keccak : List ℕ → List ℕ) (name : String) (types : List String) :
    String :=
  "0x" ++ bytesHex (abiHash keccak name types)

/-- `Method.init` / `Error.init`: `this.signature = methodHash(this.name, types)`
with `types` the raw parameter type strings. -/
def Method_signature (keccak : List ℕ → List ℕ) (name : String)
    (paramTypes : List String) : String :=
  methodHash keccak name paramTypes

def Error_signature (keccak : List ℕ → List ℕ) (name : String)
    (paramTypes : List String) : String :=
  methodHash keccak name paramTypes

/-- `Event.init`: `this.signature = eventHash(this.name, types)`. -/
def Event_signature (keccak : List ℕ → List ℕ) (name : String)
    (paramTypes : List String) : String :=
  eventHash keccak name paramTypes

/-- Claim-side canonicalisation: uint to uint256, int to int256,
uint[] to uint256[], int[] to int256[], all else unchanged. -/
def canonSpec (t : String) : String :=
  if t = "uint" then "uint256"
  else if t = "int" then "int256"
  else if t = "uint[]" then "uint256[]"
  else if t = "int[]" then "int256[]"
  else t

/-- Claim-side digest: keccak-256 of `n(canon(t1),...,canon(tn))`. -/
def specDigest (keccak : List ℕ → List ℕ) (name : String) (types : List String) :
    List ℕ :=
  keccak (latin1Bytes
    (name ++ "(" ++ String.intercalate "," (types.map canonSpec) ++ ")"))

/-- Claim-side selector: the high 4 bytes of the digest, hex-rendered. -/
def specSelector (keccak : List ℕ → List ℕ) (name : String) (types : List String) :
    String :=
  "0x" ++ bytesHex ((specDigest keccak name types).take 4)

/-- Claim-side topic0: the full 32-byte digest, hex-rendered. -/
def specTopic0 (keccak : List ℕ → List ℕ) (name : String) (types : List String) :
    String :=
  "0x" ++ bytesHex (specDigest keccak name types)

/-- C2: for every ABI method, error or event, the stored signature is the
keccak-256 digest of the canonicalised preimage `n(canon(t1),...,canon(tn))`;
methods and errors keep the high 4 bytes as the selector while events keep
the whole 32-byte digest as topic0. -/
theorem abi_signature_correct (keccak : List ℕ → List ℕ) (name : String)
    (types : List String) :
    Method_signature keccak name types = specSelector keccak name types ∧
    Error_signature keccak name types = specSelector keccak name types ∧
    Event_signature keccak name types = specTopic0 keccak name types :=
  ⟨rfl, rfl, rfl⟩

/-! ### Preprocessor `@if` folds (claim C4)

The `case 'Fold'` of `Transformer.rewrite`, parameterised by the recursive
rewrite on condition expressions (`rwE`) and on branch blocks (`rwB`);
`none` models the `Null()` result. -/

structure FoldNode (α : Type) where
  expr : Expr
  block : α
  branches : List (Expr × α)
  otherwise : Option α

/-- The branch loop of the `Fold` case: take the first branch whose
rewritten condition is a literal with non-zero value; otherwise fall
through to `otherwise` (or `Null()`). -/
def foldBranches {α : Type} (rwE : Expr → Expr) (rwB : α → α) :
    List (Expr × α) → Option α → Option α
  | [], ow =>
    match ow with
    | some b => some (rwB b)
    | none => none
  | (e, b) :: rest, ow =>
    if isLiteral (rwE e) && !(litNat (rwE e) == 0) then some (rwB b)
    else foldBranches rwE rwB rest ow

/-- The `case 'Fold'` body: the head condition/block pair is prepended to
the explicit branches. -/
def rewriteFold {α : Type} (rwE : Expr → Expr) (rwB : α → α) (node : FoldNode α) :
    Option α :=
  foldBranches rwE rwB ((node.expr, node.block) :: node.branches) node.otherwise

/-- C4 (amended): the first branch whose rewritten condition is a non-zero
literal is inlined and all other branches are dropped; a branch whose
condition is a literal zero is skipped; and a branch whose condition does
not reduce to a literal is likewise silently skipped — the transformation
does not fail, falling through to `@else` or to nothing
(see `rewrite_fold_nonliteral_counterexample`). -/
theorem rewrite_fold_spec {α : Type} (rwE : Expr → Expr) (rwB : α → α)
    (node : FoldNode α) :
    rewriteFold rwE rwB node =
      match ((node.expr, node.block) :: node.branches).find?
          (fun p => isLiteral (rwE p.1) && !(litNat (rwE p.1) == 0)) with
      | some p => some (rwB p.2)
      | none => Option.map rwB node.otherwise := by
  rw [rewriteFold]
  generalize (node.expr, node.block) :: node.branches = l
  induction l with
  | nil => cases node.otherwise <;> rfl
  | cons p rest ih =>
    obtain ⟨e, b⟩ := p
    show (if isLiteral (rwE e) && !(litNat (rwE e) == 0) then some (rwB b)
        else foldBranches rwE rwB rest node.otherwise) = _
    simp only [List.find?]
    cases hb : (isLiteral (rwE e) && !(litNat (rwE e) == 0)) with
    | true => rfl
    | false => exact ih

/-- C4 counterexample: a `@if` whose condition does not rewrite to a
literal (here the bare identifier `x`) is skipped without error — with no
`@else`, the whole fold rewrites to `Null()`, not to a failure. -/
theorem rewrite_fold_nonliteral_counterexample :
    rewriteFold (fun e => e) (fun (b : ℕ) => b)
      ⟨.ident "x", 0, [], none⟩ = none := rfl

/-! ### Number literal tokens (claim C9)

The `DecimalNumber` and `HexNumber` productions.  `matchDecimal` performs
the anchored scan of `-?[0-9]+` (the parser's `match` also consumes
trailing whitespace, `eatSpace`); `PRes` distinguishes a non-match
(`null`, try the next production) from an `assert` failure. -/

inductive PRes (α : Type) where
  | nomatch
  | err
  | ok (val : α) (rest : List Char)

structure NumNode where
  type : String
  value : String

def isSpaceChar (c : Char) : Bool :=
  c == ' ' || c == '\t' || c == '\r' || c == '\n'

def eatSpace (cs : List Char) : List Char := cs.dropWhile isSpaceChar

/-- Scan `-?[0-9]+` at the head of the stream: the sign flag, the digit
characters, and the remaining stream (whitespace consumed). -/
def matchDecimal (cs : List Char) : Option (Bool × List Char × List Char) :=
  match cs with
  | '-' :: rest =>
    let ds := rest.takeWhile Char.isDigit
    if ds = [] then none else some (true, ds, eatSpace (rest.drop ds.length))
  | _ =>
    let ds := cs.takeWhile Char.isDigit
    if ds = [] then none else some (false, ds, eatSpace (cs.drop ds.length))

def decValue (ds : List Char) : ℕ :=
  ds.foldl (fun a c => a * 10 + (c.toNat - 48)) 0

/-- `BigInt(value)` of the matched text. -/
def decInt (neg : Bool) (ds : List Char) : ℤ :=
  if neg then -(decValue ds : ℤ) else (decValue ds : ℤ)

/-- `value.length` of the matched text (sign included). -/
def dLen (neg : Bool) (ds : List Char) : ℕ :=
  (if neg then 1 else 0) + ds.length

/-- `BigInt.toString(16)`: lowercase hex digits. -/
def natHex (n : ℕ) : String := String.mk (Nat.toDigits 16 n)

/-- The `DecimalNumber` production: 78-character limit, range check at
exactly 78 characters, and negative values rewritten to a hex node holding
`BigInt(value) & U256_MAX`. -/
def DecimalNumber (cs : List Char) : PRes NumNode :=
  match matchDecimal cs with
  | none => .nomatch
  | some (neg, ds, rest) =>
    if 78 < dLen neg ds then .err
    else if dLen neg ds = 78 ∧
        ¬(-(i256Sign : ℤ) ≤ decInt neg ds ∧ decInt neg ds ≤ (u256Max : ℤ)) then .err
    else if neg then .ok ⟨"HexNumber", "0x" ++ natHex (toWord (decInt neg ds))⟩ rest
    else .ok ⟨"DecimalNumber", String.mk ds⟩ rest

def isHexDigitChar (c : Char) : Bool :=
  c.isDigit || ('a' ≤ c && c ≤ 'f') || ('A' ≤ c && c ≤ 'F')

def hexDigVal (c : Char) : ℕ :=
  if c.isDigit then c.toNat - 48
  else if 'a' ≤ c && c ≤ 'f' then c.toNat - 87
  else c.toNat - 55

def hexValue (ds : List Char) : ℕ :=
  ds.foldl (fun a c => a * 16 + hexDigVal c) 0

def hexInt (neg : Bool) (ds : List Char) : ℤ :=
  if neg then -(hexValue ds : ℤ) else (hexValue ds : ℤ)

/-- Scan `-?0x[0-9a-fA-F]+` at the head of the stream. -/
def matchHex (cs : List Char) : Option (Bool × List Char × List Char) :=
  match cs with
  | '-' :: '0' :: 'x' :: rest =>
    let ds := rest.takeWhile isHexDigitChar
    if ds = [] then none else some (true, ds, eatSpace (rest.drop ds.length))
  | '0' :: 'x' :: rest =>
    let ds := rest.takeWhile isHexDigitChar
    if ds = [] then none else some (false, ds, eatSpace (rest.drop ds.length))
  | _ => none

/-- The `HexNumber` production: length limit `sign + 2 + 64`, lower range
check at length 67, negatives rewritten via `BigInt(value) & U256_MAX`. -/
def HexNumberP (cs : List Char) : PRes NumNode :=
  match matchHex cs with
  | none => .nomatch
  | some (neg, ds, rest) =>
    let len := (if neg then 1 else 0) + 2 + ds.length
    if ¬(len ≤ (if neg then 1 else 0) + 2 + 64) then .err
    else if len = 67 ∧ ¬(-(i256Sign : ℤ) ≤ hexInt neg ds) then .err
    else if neg then .ok ⟨"HexNumber", "0x" ++ natHex (toWord (hexInt neg ds))⟩ rest
    else .ok ⟨"HexNumber", String.mk ('0' :: 'x' :: ds)⟩ rest

/-- A word's additive inverse: `-m & U256_MAX` is the two's complement of
the magnitude modulo `2^256`. -/
theorem toWord_neg (m : ℕ) : toWord (-(m : ℤ)) = (U256 - m % U256) % U256 := by
  have hlt : m % U256 < U256 := Nat.mod_lt _ U256_pos
  have h1 : (-(m : ℤ)) % (U256 : ℤ) = (((U256 - m % U256) % U256 : ℕ) : ℤ) := by
    have h2 : (m : ℤ) % (U256 : ℤ) = ((m % U256 : ℕ) : ℤ) := by
      exact_mod_cast rfl
    rw [Int.neg_emod, Int.sub_emod, Int.emod_self, zero_sub, h2, Int.neg_emod]
    have h3 : (U256 : ℤ) - ((m % U256 : ℕ) : ℤ) = ((U256 - m % U256 : ℕ) : ℤ) := by
      push_cast [le_of_lt hlt]
      ring
    rw [h3]
    exact_mod_cast rfl
  show ((-(m : ℤ)).emod (U256 : ℤ)).toNat = _
  rw [show (-(m : ℤ)).emod (U256 : ℤ) = (-(m : ℤ)) % (U256 : ℤ) from rfl, h1,
    Int.toNat_natCast]

/-- C9 (amended): the `DecimalNumber` production rejects a literal exactly
when its matched text exceeds 78 characters, or is exactly 78 characters
and denotes a value outside `[-2^255, 2^256 - 1]` (so a positive literal
may have up to 78 digits, not 77, see
`decimal_78_digit_counterexample`); and every accepted negative literal —
decimal (`DecimalNumber`) or hex (`HexNumber`) — is materialised as a hex
node holding the two's complement of its magnitude modulo `2^256`. -/
theorem number_literal_spec (cs : List Char) (neg : Bool) (ds rest : List Char) :
    (matchDecimal cs = some (neg, ds, rest) →
      (DecimalNumber cs = .err ↔
        78 < dLen neg ds ∨
          (dLen neg ds = 78 ∧
            ¬(-(i256Sign : ℤ) ≤ decInt neg ds ∧ decInt neg ds ≤ (u256Max : ℤ)))) ∧
      (neg = true → DecimalNumber cs ≠ PRes.err →
        DecimalNumber cs =
          .ok ⟨"HexNumber", "0x" ++ natHex ((U256 - decValue ds % U256) % U256)⟩
            rest)) ∧
    (matchHex cs = some (neg, ds, rest) → neg = true → HexNumberP cs ≠ PRes.err →
      HexNumberP cs =
        .ok ⟨"HexNumber", "0x" ++ natHex ((U256 - hexValue ds % U256) % U256)⟩
          rest) := by
  constructor
  · intro hm
    have hD : DecimalNumber cs =
        (if 78 < dLen neg ds then .err
        else if dLen neg ds = 78 ∧
            ¬(-(i256Sign : ℤ) ≤ decInt neg ds ∧ decInt neg ds ≤ (u256Max : ℤ)) then .err
        else if neg then .ok ⟨"HexNumber", "0x" ++ natHex (toWord (decInt neg ds))⟩ rest
        else .ok ⟨"DecimalNumber", String.mk ds⟩ rest) := by
      rw [DecimalNumber, hm]
    constructor
    · rw [hD]
      by_cases h1 : 78 < dLen neg ds
      · rw [if_pos h1]
        exact ⟨fun _ => Or.inl h1, fun _ => rfl⟩
      · rw [if_neg h1]
        by_cases h2 : dLen neg ds = 78 ∧
            ¬(-(i256Sign : ℤ) ≤ decInt neg ds ∧ decInt neg ds ≤ (u256Max : ℤ))
        · rw [if_pos h2]
          exact ⟨fun _ => Or.inr h2, fun _ => rfl⟩
        · rw [if_neg h2]
          refine ⟨fun hc => ?_, fun hc => absurd hc (by tauto)⟩
          by_cases hn : neg = true
          · rw [if_pos hn] at hc
            exact PRes.noConfusion hc
          · rw [if_neg hn] at hc
            exact PRes.noConfusion hc
    · intro hn hne
      rw [hD] at hne ⊢
      subst hn
      by_cases h1 : 78 < dLen true ds
      · rw [if_pos h1] at hne
        exact absurd rfl hne
      · rw [if_neg h1] at hne ⊢
        by_cases h2 : dLen true ds = 78 ∧
            ¬(-(i256Sign : ℤ) ≤ decInt true ds ∧ decInt true ds ≤ (u256Max : ℤ))
        · rw [if_pos h2] at hne
          exact absurd rfl hne
        · rw [if_neg h2, if_pos rfl]
          rw [show decInt true ds = -(decValue ds : ℤ) from rfl, toWord_neg]
  · intro hm hn hne
    have hH : HexNumberP cs =
        (if ¬((if neg then 1 else 0) + 2 + ds.length ≤
            (if neg then 1 else 0) + 2 + 64) then .err
        else if (if neg then 1 else 0) + 2 + ds.length = 67 ∧
            ¬(-(i256Sign : ℤ) ≤ hexInt neg ds) then .err
        else if neg then .ok ⟨"HexNumber", "0x" ++ natHex (toWord (hexInt neg ds))⟩ rest
        else .ok ⟨"HexNumber", String.mk ('0' :: 'x' :: ds)⟩ rest) := by
      rw [HexNumberP, hm]
    rw [hH] at hne ⊢
    subst hn
    by_cases h1 : ¬(1 + 2 + ds.length ≤ 1 + 2 + 64)
    · rw [if_pos (by simpa using h1)] at hne
      exact absurd rfl hne
    · rw [if_neg (by simpa using h1)] at hne ⊢
      by_cases h2 : 1 + 2 + ds.length = 67 ∧ ¬(-(i256Sign : ℤ) ≤ hexInt true ds)
      · rw [if_pos (by simpa using h2)] at hne
        exact absurd rfl hne
      · rw [if_neg (by simpa using h2), if_pos rfl]
        rw [show hexInt true ds = -(hexValue ds : ℤ) from rfl, toWord_neg]

set_option maxRecDepth 4000 in
/-- C9 counterexample: a positive decimal literal with 78 digits (here
`10^77`, which fits in 256 bits) is accepted, refuting the 77-digit limit. -/
theorem decimal_78_digit_counterexample :
    ('1' :: List.replicate 77 '0').length = 78 ∧
    DecimalNumber ('1' :: List.replicate 77 '0') =
      .ok ⟨"DecimalNumber", String.mk ('1' :: List.replicate 77 '0')⟩ [] := by
  constructor
  · rfl
  · rfl

/-- Witness for `number_literal_spec` at the inputs `-1` (decimal) and
`-0x1` (hex). -/
theorem number_literal_spec_witness :
    DecimalNumber ['-', '1'] =
      .ok ⟨"HexNumber", "0x" ++ natHex ((U256 - decValue ['1'] % U256) % U256)⟩
        [] ∧
    HexNumberP ['-', '0', 'x', '1'] =
      .ok ⟨"HexNumber", "0x" ++ natHex ((U256 - hexValue ['1'] % U256) % U256)⟩
        [] := by
  constructor
  · have hval : DecimalNumber ['-', '1'] =
        .ok ⟨"HexNumber", "0x" ++ natHex (toWord (decInt true ['1']))⟩ [] := rfl
    exact ((number_literal_spec ['-', '1'] true ['1'] []).1 rfl).2 rfl
      (by rw [hval]; exact fun h => PRes.noConfusion h)
  · have hval : HexNumberP ['-', '0', 'x', '1'] =
        .ok ⟨"HexNumber", "0x" ++ natHex (toWord (hexInt true ['1']))⟩ [] := rfl
    exact (number_literal_spec ['-', '0', 'x', '1'] true ['1'] []).2 rfl rfl
      (by rw [hval]; exact fun h => PRes.noConfusion h)

/-! ### ABI types, method parameters and `calldata.` rewriting (claim C6)

`Parser.ABIType` (the regex scan and the width/array switch),
`MethodParam` with its `ref`/`decode`/`read` accessors, the parameter
construction loop of `Method.init` (offsets 4, 36, 68, ...), and the
`case 'CallDataIdentifier'` of `Transformer.rewrite`. -/

structure ABITy where
  value : String
  base : String
  width : ℕ
  array : Bool
deriving Repr, DecidableEq

/-- The scan `^([a-z]+)(\d{1,3})?(\[\])?`: lowercase base word, up to three
digits, optional `[]`; returns base, digit characters, bracket flag and
the remaining characters. -/
def matchABIType (cs : List Char) :
    Option (List Char × List Char × Bool × List Char) :=
  let base := cs.takeWhile (fun c => 'a' ≤ c && c ≤ 'z')
  if base = [] then none
  else
    let rest1 := cs.drop base.length
    let digits := (rest1.takeWhile Char.isDigit).take 3
    let rest2 := rest1.drop digits.length
    if rest2.take 2 = ['[', ']'] then some (base, digits, true, rest2.drop 2)
    else some (base, digits, false, rest2)

/-- `Parser.ABIType()` applied to a full type token: the switch on the base
word; `none` both for a non-match and for an `assert` failure. -/
def ABITypeP (s : String) : Option ABITy :=
  match matchABIType s.data with
  | none => none
  | some (base, digits, brackets, rest) =>
    if rest ≠ [] then none
    else
      let value :=
        String.mk (base ++ digits ++ if brackets then ['[', ']'] else [])
      let baseS := String.mk base
      if baseS = "uint" ∨ baseS = "int" then
        let width := if digits = [] then 256 else decValue digits
        if 0 < width ∧ width &&& 7 = 0 ∧ width ≤ 256 then
          some ⟨value, baseS, width, brackets⟩
        else none
      else if baseS = "address" then
        if digits = [] then some ⟨value, baseS, 160, brackets⟩ else none
      else if baseS = "bool" then
        if digits = [] then some ⟨value, baseS, 1, brackets⟩ else none
      else if baseS = "bytes" then
        if digits ≠ [] then
          let width := decValue digits * 8
          if 0 < width ∧ width ≤ 256 then some ⟨value, baseS, width, brackets⟩
          else none
        else if brackets then none
        else some ⟨value, baseS, 0, true⟩
      else if baseS = "string" then
        if digits = [] ∧ !brackets then some ⟨value, baseS, 0, true⟩ else none
      else if baseS = "function" then
        if digits = [] then some ⟨value, baseS, 192, brackets⟩ else none
      else none

structure MethodParam where
  name : Option String
  type : String
  base : String
  width : ℕ
  array : Bool
  offset : ℕ
deriving Repr, DecidableEq

def CallDataLoadE (pos : ℕ) : Expr := .call "calldataload" [Lit (pos : ℤ)]

def AddE (x y : Expr) : Expr := .call "add" [x, y]

def ShrE (shift : ℕ) (num : Expr) : Expr := .call "shr" [Lit (shift : ℤ), num]

def ShlE (shift : ℕ) (num : Expr) : Expr := .call "shl" [Lit (shift : ℤ), num]

/-- `MethodParam.ref()`: the calldata offset as a literal. -/
def MethodParam.ref (p : MethodParam) : Expr := Lit (p.offset : ℤ)

/-- `MethodParam.isPadded()`: only right-padded scalar types. -/
def MethodParam.isPadded (p : MethodParam) : Bool :=
  if p.array || p.width == 256 then false
  else p.base == "bytes" || p.base == "function"

/-- `MethodParam.decode(expr)`: shift right-padded types down. -/
def MethodParam.decode (p : MethodParam) (expr : Expr) : Expr :=
  if p.isPadded then ShrE (256 - p.width) expr else expr

/-- `MethodParam.read()`: arrays load a calldata-relative pointer, scalars
decode the raw calldata word. -/
def MethodParam.read (p : MethodParam) : Expr :=
  if p.array then AddE (CallDataLoadE p.offset) (Lit 4)
  else p.decode (CallDataLoadE p.offset)

/-- The parameter loop of `Method.init`: offsets start at 4 and advance by
32 per parameter. -/
def mkParams : ℕ → List (String × Option String) → Option (List MethodParam)
  | _, [] => some []
  | off, (t, n) :: rest =>
    match ABITypeP t with
    | none => none
    | some ty =>
      match mkParams (off + 32) rest with
      | none => none
      | some ps =>
        some (⟨n, ty.value, ty.base, ty.width, ty.array, off⟩ :: ps)

/-- The `case 'CallDataIdentifier'` of `Transformer.rewrite`: look the
member name up in the method's parameter map, then `ref()` or `read()`. -/
def calldataRewrite (params : List MethodParam) (member : String) (ref : Bool) :
    Option Expr :=
  match params.find? (fun p => p.name == some member) with
  | none => none
  | some p => some (if ref then p.ref else p.read)

def foobarItems : List (String × Option String) :=
  [("uint32", some "id"), ("uint64", some "amount"), ("bytes32[]", some "hashes")]

def foobarParams : List MethodParam :=
  [⟨some "id", "uint32", "uint", 32, false, 4⟩,
   ⟨some "amount", "uint64", "uint", 64, false, 36⟩,
   ⟨some "hashes", "bytes32[]", "bytes", 256, true, 68⟩]

/-- C6 (amended): for `foobar(uint32 id, uint64 amount, bytes32[] hashes)`
the transformer rewrites `calldata.id` to the bare `calldataload(4)` and
`calldata.amount` to `calldataload(36)` — left-padded `uint` parameters are
not shifted on read (`decode` only shifts right-padded `bytes`/`function`
types, see `calldata_uint_counterexample`) — while `calldata.hashes`
becomes `add(calldataload(68), 4)` and `&calldata.id` the literal `4`. -/
theorem calldata_rewrite_foobar :
    ∃ ps, mkParams 4 foobarItems = some ps ∧
      calldataRewrite ps "id" false = some (CallDataLoadE 4) ∧
      calldataRewrite ps "amount" false = some (CallDataLoadE 36) ∧
      calldataRewrite ps "hashes" false = some (AddE (CallDataLoadE 68) (Lit 4)) ∧
      calldataRewrite ps "id" true = some (Lit 4) := by
  refine ⟨foobarParams, ?_, ?_, ?_, ?_, ?_⟩ <;> rfl

/-- C6 counterexample: the claimed `shr(224, calldataload(4))` and
`shr(192, calldataload(36))` forms are not what the rewrite produces for
the `uint32`/`uint64` parameters. -/
theorem calldata_uint_counterexample :
    ∃ ps, mkParams 4 foobarItems = some ps ∧
      calldataRewrite ps "id" false ≠ some (ShrE 224 (CallDataLoadE 4)) ∧
      calldataRewrite ps "amount" false ≠ some (ShrE 192 (CallDataLoadE 36)) := by
  refine ⟨foobarParams, rfl, fun h => ?_, fun h => ?_⟩
  · rw [show calldataRewrite foobarParams "id" false = some (CallDataLoadE 4)
      from rfl] at h
    injection h with h
    injection h with h1 h2
    exact absurd h1 (by decide)
  · rw [show calldataRewrite foobarParams "amount" false = some (CallDataLoadE 36)
      from rfl] at h
    injection h with h
    injection h with h1 h2
    exact absurd h1 (by decide)

/-! ### The `Emit` statement round-trip (claim C3)

`Parser.Emit()` (keyword, identifier, `(`, a mandatory first expression,
`,`-separated further expressions, `)`), the serializer's `Emit` case, and
the parser primitives `keyword`/`consume` (which eat trailing
whitespace).  The expression parameter `pE` stands for the recursive
`Expression()` cascade; `pExprMini` instantiates it with the number and
identifier productions, the only ones its leading-character tests select
on the inputs considered here. -/

def wordChar (c : Char) : Bool := c.isAlphanum || c == '_' || c == '$' || c == '.'

def identStart (c : Char) : Bool := c.isAlpha || c == '_' || c == '$'

def startsWithL : List Char → List Char → Bool
  | [], _ => true
  | _ :: _, [] => false
  | p :: ps, c :: cs => p == c && startsWithL ps cs

/-- `consume(str)`: literal text, then `eatSpace`. -/
def consumeP (str : List Char) (cs : List Char) : Option (List Char) :=
  if startsWithL str cs then some (eatSpace (cs.drop str.length)) else none

/-- `keyword(str)`: literal text with a word-boundary check, then
`eatSpace`. -/
def keywordP (str : List Char) (cs : List Char) : Option (List Char) :=
  if startsWithL str cs then
    match cs.drop str.length with
    | [] => some []
    | c :: rest => if wordChar c then none else some (eatSpace (c :: rest))
  else none

/-- `Identifier()`: `[a-zA-Z_$][\w$.]*`, then `eatSpace`. -/
def matchIdent (cs : List Char) : Option (String × List Char) :=
  match cs with
  | [] => none
  | c :: rest =>
    if identStart c then
      let tk := rest.takeWhile wordChar
      some (String.mk (c :: tk), eatSpace (rest.drop tk.length))
    else none

/-- The number and identifier alternatives of the `Expression()` cascade. -/
def pExprMini (cs : List Char) : Option (Expr × List Char) :=
  match matchDecimal cs with
  | some (neg, ds, rest) =>
    some (if neg then Expr.lit (.num (toWord (decInt true ds)))
      else Expr.lit (.num (decValue ds)), rest)
  | none =>
    match matchIdent cs with
    | some (n, rest) => some (.ident n, rest)
    | none => none

structure EmitNode where
  name : String
  offset : Expr
  args : List Expr

/-- The argument loop `while (this.consume(',')) args.push(assert(Expression()))`;
`none` is an `assert` failure (the fuel bounds the loop by the input
length, which each iteration strictly consumes). -/
def emitArgsLoop (pE : List Char → Option (Expr × List Char)) :
    ℕ → List Char → List Expr → Option (List Expr × List Char)
  | fuel, cs, acc =>
    match consumeP ",".data cs with
    | none => some (acc, cs)
    | some cs' =>
      match fuel with
      | 0 => none
      | fuel + 1 =>
        match pE cs' with
        | none => none
        | some (e, cs'') => emitArgsLoop pE fuel cs'' (acc ++ [e])

/-- `Parser.Emit()`. -/
def EmitP (pE : List Char → Option (Expr × List Char)) (cs : List Char) :
    PRes EmitNode :=
  match keywordP "emit".data cs with
  | none => .nomatch
  | some cs1 =>
    match matchIdent cs1 with
    | none => .err
    | some (name, cs2) =>
      match consumeP "(".data cs2 with
      | none => .err
      | some cs3 =>
        match pE cs3 with
        | none => .err
        | some (offset, cs4) =>
          match emitArgsLoop pE cs4.length cs4 [] with
          | none => .err
          | some (args, cs5) =>
            match consumeP ")".data cs5 with
            | none => .err
            | some cs6 => .ok ⟨name, offset, args⟩ cs6

mutual

/-- The serializer's `Literal`, `Identifier` and `FunctionCall` cases
(numeric literals are stored in decimal below 1024 and hex otherwise,
per `SubLiteral`). -/
def encodeExpr : Expr → String
  | .lit (.num n) => if n < 1024 then toString n else "0x" ++ natHex n
  | .lit (.bool b) => if b then "true" else "false"
  | .lit (.str _) => ""
  | .lit (.hexlit _) => ""
  | .ident s => s
  | .call n args => n ++ "(" ++ String.intercalate ", " (encodeArgs args) ++ ")"

def encodeArgs : List Expr → List String
  | [] => []
  | e :: es => encodeExpr e :: encodeArgs es

end

/-- The serializer's `Emit` case:
```
`${type} ${name}(${offset}, ${args.join(', ')})`
``` -/
def serializeEmit (n : EmitNode) : String :=
  "emit " ++ n.name ++ "(" ++ encodeExpr n.offset ++ ", " ++
    String.intercalate ", " (n.args.map encodeExpr) ++ ")"

/-- C3 (refuted — code bug): `emit E(0)` parses with an empty argument
list, but the serializer's template always inserts `, ` after the offset,
yielding `emit E(0, )`; re-parsing that text fails (the `assert` on the
expression after the comma), so parse-serialize-parse is not a round
trip. -/
theorem emit_roundtrip_bug :
    EmitP pExprMini "emit E(0)".data = .ok ⟨"E", .lit (.num 0), []⟩ [] ∧
    serializeEmit ⟨"E", .lit (.num 0), []⟩ = "emit E(0, )" ∧
    EmitP pExprMini "emit E(0, )".data = .err := by
  refine ⟨rfl, ?_, rfl⟩
  decide

/-! ### Statement AST, `traverse` and `codeSize` (claim C8)

The statement-level node types reached by the transformer's output,
`traverse` (pre-order walk yielding `*End` markers after block-like
nodes), the fixed-weight `codeSize` walker with its mutable set of
already-counted numeric literal values, and `NoInline` (the
`CODESIZE POP` padding loop). -/

inductive Ast where
  | root (nodes : List Ast)
  | block (body : List Ast)
  | functionDefinition (name : Ast) (params : Ast) (returns : Ast) (blk : Ast)
  | variableDeclaration (vars : Ast) (expr : Option Ast)
  | typedIdentifierList (items : List (Ast × Option Ast))
  | assignment (lhs : Ast) (rhs : Ast)
  | identifierList (items : List Ast)
  | ifStmt (expr : Ast) (blk : Ast) (branches : List (Ast × Ast))
      (otherwise : Option Ast)
  | switch (expr : Ast) (cases : List Ast) (dflt : Option Ast)
  | caseArm (value : Ast) (blk : Ast)
  | defaultArm (blk : Ast)
  | forLoop (ini : Ast) (test : Ast) (update : Ast) (blk : Ast)
  | breakContinue (value : String)
  | leave
  | functionCall (name : Ast) (args : List Ast)
  | literal (v : LVal) (kind : Option Ast)
  | identifier (value : String)
  | marker (tag : String)
deriving Repr

mutual

/-- `traverse(node)`: the pre-order generator. -/
def traverse : Ast → List Ast
  | .root nodes => .root nodes :: traverseList nodes
  | .block body => .block body :: (traverseList body ++ [.marker "BlockEnd"])
  | .functionDefinition nm ps rs blk =>
    .functionDefinition nm ps rs blk ::
      (traverse nm ++ traverse ps ++ traverse rs ++ traverse blk ++
        [.marker "FunctionEnd"])
  | .variableDeclaration vars expr =>
    .variableDeclaration vars expr ::
      (traverse vars ++ traverseOpt expr)
  | .typedIdentifierList items =>
    .typedIdentifierList items :: traverseTIL items
  | .assignment lhs rhs => .assignment lhs rhs :: (traverse lhs ++ traverse rhs)
  | .identifierList items => .identifierList items :: traverseList items
  | .ifStmt e blk brs ow =>
    .ifStmt e blk brs ow ::
      (traverse e ++ traverse blk ++ traversePairs brs ++ traverseOpt ow)
  | .switch e cases d =>
    .switch e cases d :: (traverse e ++ traverseList cases ++ traverseOpt d)
  | .caseArm v blk => .caseArm v blk :: (traverse v ++ traverse blk)
  | .defaultArm blk => .defaultArm blk :: traverse blk
  | .forLoop i t u blk =>
    .forLoop i t u blk ::
      (traverse i ++ traverse t ++ traverse u ++ traverse blk)
  | .breakContinue v => [.breakContinue v]
  | .leave => [.leave]
  | .functionCall nm args => .functionCall nm args :: (traverse nm ++ traverseList args)
  | .literal v k => .literal v k :: traverseOpt k
  | .identifier s => [.identifier s]
  | .marker t => [.marker t]

def traverseList : List Ast → List Ast
  | [] => []
  | x :: xs => traverse x ++ traverseList xs

def traverseOpt : Option Ast → List Ast
  | none => []
  | some x => traverse x

def traverseTIL : List (Ast × Option Ast) → List Ast
  | [] => []
  | (nm, ty) :: xs => traverse nm ++ traverseOpt ty ++ traverseTIL xs

def traversePairs : List (Ast × Ast) → List Ast
  | [] => []
  | (e, b) :: xs => traverse e ++ traverse b ++ traversePairs xs

end

/-- The numeric-literal test of the `Literal` case of `codeSize`
(`isLiteral` on nodes: subtype `HexNumber`, `DecimalNumber` or
`BoolLiteral`). -/
def isLiteralLV : LVal → Bool
  | .num _ => true
  | .bool _ => true
  | .str _ => false
  | .hexlit _ => false

/-- The weight one traversal step adds in `codeSize`, threading the
`ignore` set of already-counted non-zero numeric literal values.  Node
types without a `case` in the source switch add nothing. -/
def nodeWeight (ignore : List ℕ) : Ast → ℕ × List ℕ
  | .assignment _ _ => (0, ignore)
  | .variableDeclaration _ _ => (0, ignore)
  | .functionDefinition _ _ _ _ => (1, ignore)
  | .ifStmt _ _ _ _ => (2, ignore)
  | .switch _ cases d =>
    (1 + 2 * cases.length + (match d with | some _ => 2 | none => 0), ignore)
  | .forLoop _ _ _ _ => (3, ignore)
  | .breakContinue _ => (2, ignore)
  | .leave => (2, ignore)
  | .block _ => (0, ignore)
  | .functionCall _ _ => (1, ignore)
  | .identifier _ => (0, ignore)
  | .literal v _ =>
    if isLiteralLV v then
      if toBigInt v ≠ 0 ∧ toBigInt v ∉ ignore then (1, toBigInt v :: ignore)
      else (0, ignore)
    else (1, ignore)
  | _ => (0, ignore)

/-- The fold of `codeSize` over a traversal. -/
def csRun : List Ast → ℕ × List ℕ → ℕ × List ℕ
  | [], st => st
  | node :: rest, (size, ignore) =>
    let p := nodeWeight ignore node
    csRun rest (size + p.1, p.2)

/-- `codeSize(root)`. -/
def codeSize (root : Ast) : ℕ := (csRun (traverse root) (0, [])).1

/-- The `CODESIZE POP` no-op `PopAsm(CodeSizeAsm())`: verbatim calls with
`hex"50"` / `hex"38"` literal arguments. -/
def padAsm : Ast :=
  .functionCall (.identifier "verbatim_1i_0o")
    [.literal (.hexlit [0x50]) none,
     .functionCall (.identifier "verbatim_0i_1o") [.literal (.hexlit [0x38]) none]]

structure Func where
  name : String
  params : List (String × Option Ast)
  returns : List (String × Option Ast)
  body : List Ast
  builtin : Bool

/-- `isInlinableExpression(func)`: a single assignment of the single
return variable. -/
def isInlinableExpression (f : Func) : Bool :=
  match f.returns, f.body with
  | [(ret, _)], [.assignment (.identifierList [.identifier v]) _] => v == ret
  | _, _ => false

/-- The arity-indexed inliner threshold of `NoInline`. -/
def noInlineNeeds (f : Func) (memguard : Bool) : ℕ :=
  if f.params.length = 0 then (if memguard then 8 else 6)
  else (if memguard then 16 else 12)

/-- The `while (size < needs)` padding loop: how many more pads are
pushed, each advancing `size` by 4. -/
def padLoopCount (needs size : ℕ) : ℕ :=
  if size < needs then 1 + padLoopCount needs (size + 4) else 0
termination_by needs - size
decreasing_by omega

/-- The tail of `NoInline`: with `n` pads collected in `body`, an empty
pad list returns the function unchanged, otherwise the pads are prepended
to the original block body. -/
def noInlinePad (f : Func) (n : ℕ) : Func :=
  if n = 0 then f
  else { f with body := List.replicate n padAsm ++ f.body }

/-- `NoInline(func, memguard)`: prepend `CODESIZE POP` pads (one
unconditionally for an inlinable single-expression body, then as many as
the `while (size < needs)` loop takes, each advancing the running size by
4). -/
def NoInline (f : Func) (memguard : Bool) : Func :=
  noInlinePad f
    ((if isInlinableExpression f then 1 else 0) +
      padLoopCount (noInlineNeeds f memguard)
        (codeSize (.block f.body) +
          4 * (if isInlinableExpression f then 1 else 0)))

theorem csRun_append (xs ys : List Ast) (st : ℕ × List ℕ) :
    csRun (xs ++ ys) st = csRun ys (csRun xs st) := by
  induction xs generalizing st with
  | nil => rfl
  | cons x xs ih =>
    obtain ⟨size, ignore⟩ := st
    rw [List.cons_append, csRun, csRun, ih]

theorem traverseList_append (xs ys : List Ast) :
    traverseList (xs ++ ys) = traverseList xs ++ traverseList ys := by
  induction xs with
  | nil => rfl
  | cons x xs ih =>
    rw [List.cons_append, traverseList, traverseList, ih, List.append_assoc]

theorem csRun_pad (s : ℕ) (ig : List ℕ) :
    csRun (traverse padAsm) (s, ig) = (s + 4, ig) := rfl

theorem csRun_pads (n : ℕ) (s : ℕ) (ig : List ℕ) :
    csRun (traverseList (List.replicate n padAsm)) (s, ig) = (s + 4 * n, ig) := by
  induction n generalizing s with
  | zero => rfl
  | succ n ih =>
    rw [List.replicate_succ, traverseList, csRun_append, csRun_pad, ih]
    congr 1
    omega

theorem csRun_size_shift (xs : List Ast) (s : ℕ) (ig : List ℕ) :
    csRun xs (s, ig) = (s + (csRun xs (0, ig)).1, (csRun xs (0, ig)).2) := by
  induction xs generalizing s ig with
  | nil => simp [csRun]
  | cons x rest ih =>
    rw [csRun, csRun]
    rw [ih (s + (nodeWeight ig x).1), ih (0 + (nodeWeight ig x).1)]
    congr 1
    omega

/-- `codeSize` of a block with `n` pads prepended. -/
theorem codeSize_pad_block (n : ℕ) (body : List Ast) :
    codeSize (.block (List.replicate n padAsm ++ body)) =
      4 * n + codeSize (.block body) := by
  rw [codeSize, codeSize, traverse, traverse, traverseList_append]
  rw [show ∀ xs st, csRun (Ast.block (List.replicate n padAsm ++ body) :: xs) st =
      csRun xs st from fun xs st => by obtain ⟨a, b⟩ := st; rfl]
  rw [show ∀ xs st, csRun (Ast.block body :: xs) st = csRun xs st from
    fun xs st => by obtain ⟨a, b⟩ := st; rfl]
  rw [List.append_assoc, csRun_append, csRun_pads]
  rw [csRun_size_shift (traverseList body ++ [Ast.marker "BlockEnd"]) (0 + 4 * n)]
  omega

theorem padLoop_ge_aux (needs : ℕ) :
    ∀ fuel size, needs - size ≤ fuel →
      needs ≤ size + 4 * padLoopCount needs size := by
  intro fuel
  induction fuel with
  | zero =>
    intro size h
    rw [padLoopCount, if_neg (by omega)]
    omega
  | succ n ih =>
    intro size h
    by_cases hlt : size < needs
    · rw [padLoopCount, if_pos hlt]
      have := ih (size + 4) (by omega)
      omega
    · rw [padLoopCount, if_neg hlt]
      omega

theorem padLoop_ge (needs size : ℕ) :
    needs ≤ size + 4 * padLoopCount needs size :=
  padLoop_ge_aux needs (needs - size) size le_rfl

theorem padLoop_zero {needs size : ℕ} (h : padLoopCount needs size = 0) :
    needs ≤ size := by
  rw [padLoopCount] at h
  by_cases hlt : size < needs
  · rw [if_pos hlt] at h
    exact absurd h (by omega)
  · omega

/-- C8: every function `NoInline` emits has, with the prepended
`CODESIZE POP` pads (each weighing exactly 4 in the code-size walker), a
`codeSize` at least the arity-indexed inliner threshold — 6 (8 with
memguard) for zero-argument functions, 12 (16 with memguard) otherwise. -/
theorem noInlinePad_size (f : Func) (n : ℕ) :
    codeSize (.block (noInlinePad f n).body) = 4 * n + codeSize (.block f.body) := by
  rw [noInlinePad]
  by_cases h : n = 0
  · rw [if_pos h, h]
    omega
  · rw [if_neg h]
    exact codeSize_pad_block n f.body

/-- C8: every function `NoInline` emits has, with the prepended
`CODESIZE POP` pads (each weighing exactly 4 in the code-size walker), a
`codeSize` at least the arity-indexed inliner threshold — 6 (8 with
memguard) for zero-argument functions, 12 (16 with memguard) otherwise. -/
theorem noinline_size (f : Func) (memguard : Bool) :
    codeSize (.root [padAsm]) = 4 ∧
    noInlineNeeds f memguard ≤ codeSize (.block (NoInline f memguard).body) := by
  constructor
  · rfl
  · have hN : NoInline f memguard = noInlinePad f
        ((if isInlinableExpression f then 1 else 0) +
          padLoopCount (noInlineNeeds f memguard)
            (codeSize (.block f.body) +
              4 * (if isInlinableExpression f then 1 else 0))) := rfl
    rw [hN, noInlinePad_size]
    have h1 := padLoop_ge (noInlineNeeds f memguard)
      (codeSize (.block f.body) + 4 * (if isInlinableExpression f then 1 else 0))
    omega

/-! ### Method dispatch (claims C7 and C10)

`Method.check()`, the `method.select` and `method.call` transformer
cases, over the statement AST.  Expression builders mirror the source's
helpers (`Literal` masks with `U256_MAX`, `Revert()` defaults to
`revert(0, 0)`, `RequireZero(e)` is `if e { revert(0, 0) }`). -/

def LitA (i : ℤ) : Ast := .literal (.num (toWord i)) none

def CallA (name : String) (args : List Ast) : Ast :=
  .functionCall (.identifier name) args

def CallValueA : Ast := CallA "callvalue" []

def CallDataSizeA : Ast := CallA "calldatasize" []

def CallDataLoadA (pos : ℕ) : Ast := CallA "calldataload" [LitA (pos : ℤ)]

def RevertA : Ast := CallA "revert" [LitA 0, LitA 0]

def IfA (e blk : Ast) : Ast := .ifStmt e blk [] none

def RequireZeroA (e : Ast) : Ast := IfA e (.block [RevertA])

def XorA (x y : Ast) : Ast := CallA "xor" [x, y]

def LtA (x y : Ast) : Ast := CallA "lt" [x, y]

def EqA (x y : Ast) : Ast := CallA "eq" [x, y]

def ShlA (shift : ℕ) (e : Ast) : Ast := CallA "shl" [LitA (shift : ℤ), e]

def ShrA (shift : ℕ) (e : Ast) : Ast := CallA "shr" [LitA (shift : ℤ), e]

def RequireEqA (x y : Ast) : Ast := RequireZeroA (XorA x y)

def RequireGteA (x y : Ast) : Ast := RequireZeroA (LtA x y)

def StopA : Ast := CallA "stop" []

/-- `MethodParam.unit()`. -/
def MethodParam.unitVal (p : MethodParam) : ℕ := if p.width = 0 then 1 else 32

/-- `MethodParam.check(CallDataLoad(offset))` as invoked from
`Method.check` (`none` is the skipped `Null()` for full-width scalars). -/
def paramCheck (p : MethodParam) : Option Ast :=
  if p.array then
    some (CallA "__check_calldata_array" [LitA (p.offset : ℤ), LitA (p.unitVal : ℤ)])
  else if p.width = 256 then none
  else if p.base = "int" then
    some (CallA "__check_int" [CallDataLoadA p.offset, LitA (p.width : ℤ)])
  else if p.base = "bytes" ∨ p.base = "function" then
    some (RequireZeroA (ShlA p.width (CallDataLoadA p.offset)))
  else some (RequireZeroA (ShrA p.width (CallDataLoadA p.offset)))

structure Method where
  name : String
  modifier : Option String
  mutability : Option String
  params : List MethodParam
  array : Bool
  isFunction : Bool
  signature : String

/-- `Method.check()`: the non-payable callvalue guard, then (for proper
methods) the calldatasize check and the per-parameter checks. -/
def methodCheck (m : Method) : List Ast :=
  (if m.mutability ≠ some "payable" then [RequireZeroA CallValueA] else []) ++
  (if ¬ m.isFunction then [] else
    (if m.array then
      [RequireGteA CallDataSizeA (LitA ((4 + m.params.length * 32 : ℕ) : ℤ))]
    else [RequireEqA CallDataSizeA (LitA ((4 + m.params.length * 32 : ℕ) : ℤ))]) ++
    m.params.filterMap paramCheck)

/-- A `HexNumber(signature)` literal node, by its numeric value. -/
def hexNumberNode (s : String) : Ast := .literal (.num (hexValue (s.data.drop 2))) none

/-- The per-method dispatcher arm body built inside `method.select`:
the check prelude, then either the mutex-wrapped call or the bare call. -/
def methodArmBlock (m : Method) : Ast :=
  if m.modifier = some "locked" then
    .block (methodCheck m ++
      [CallA "__mutex_lock" [], CallA ("__method_" ++ m.name) [],
       CallA "__mutex_unlock" []])
  else .block (methodCheck m ++ [CallA ("__method_" ++ m.name) []])

/-- The method loop of `method.select`: `receive` and `fallback` blocks
are redirected, every other method appends a `Case` keyed by its
signature. -/
def selectLoop :
    List Method → Option Ast × Ast × List Ast → Option Ast × Ast × List Ast
  | [], st => st
  | m :: ms, (recv, fb, arms) =>
    if m.name = "receive" then selectLoop ms (some (methodArmBlock m), fb, arms)
    else if m.name = "fallback" then selectLoop ms (recv, methodArmBlock m, arms)
    else
      selectLoop ms (recv, fb,
        arms ++ [.caseArm (hexNumberNode m.signature) (methodArmBlock m)])

/-- The `Root` skeleton returned by `method.select`: the short-calldata
switch, the selector switch on `shr(224, calldataload(0))`, a trailing
`stop()`. -/
def mkSelectRoot : Option Ast × Ast × List Ast → Ast
  | (recv, fb, arms) =>
    .root [
      .switch (LtA CallDataSizeA (LitA 4))
        [.caseArm (LitA 1)
          (match recv with
          | none => fb
          | some r =>
            .block [.switch (EqA CallDataSizeA (LitA 0))
              [.caseArm (LitA 1) r] (some (.defaultArm fb))])]
        (some (.defaultArm (.block [
          .switch (ShrA 224 (CallDataLoadA 0)) arms
            (some (.defaultArm fb))]))),
      StopA]

/-- The `case 'method.select'` of the transformer (with at least one
method declared; the default fallback is `{ revert(0, 0) }`). -/
def methodSelect (methods : List Method) : Ast :=
  if methods.length = 0 then StopA
  else mkSelectRoot (selectLoop methods (none, .block [RevertA], []))

/-- The `case 'method.call'` of the transformer. -/
def methodCall (m : Method) : Ast :=
  if m.modifier = some "locked" then
    .root [CallA "__mutex_lock" [], CallA ("__method_" ++ m.name) [],
      CallA "__mutex_unlock" []]
  else CallA ("__method_" ++ m.name) []

theorem selectLoop_arms_mono (ms : List Method)
    (st : Option Ast × Ast × List Ast) (x : Ast) (hx : x ∈ st.2.2) :
    x ∈ (selectLoop ms st).2.2 := by
  induction ms generalizing st with
  | nil => exact hx
  | cons m ms ih =>
    obtain ⟨recv, fb, arms⟩ := st
    rw [selectLoop]
    split_ifs
    · exact ih _ hx
    · exact ih _ hx
    · exact ih _ (List.mem_append_left _ hx)

theorem selectLoop_mem {ms : List Method} {m : Method} (hm : m ∈ ms)
    (hrecv : m.name ≠ "receive") (hfb : m.name ≠ "fallback")
    (st : Option Ast × Ast × List Ast) :
    (Ast.caseArm (hexNumberNode m.signature) (methodArmBlock m)) ∈
      (selectLoop ms st).2.2 := by
  induction ms generalizing st with
  | nil => cases hm
  | cons hd ms ih =>
    obtain ⟨recv, fb, arms⟩ := st
    rw [selectLoop]
    rcases List.mem_cons.mp hm with heq | hm'
    · subst heq
      rw [if_neg hrecv, if_neg hfb]
      exact selectLoop_arms_mono ms _ _
        (List.mem_append_right _ (List.mem_singleton_self _))
    · split_ifs
      · exact ih hm' _
      · exact ih hm' _
      · exact ih hm' _

/-- C7: in the dispatcher built by `method.select`, the arm of a `locked`
method is keyed by its signature and its body is exactly the check
prelude followed by the mutex lock call, the `__method_<name>` call and
the mutex unlock call, in that order; `method.call` on the same method
expands to the same three calls in the same order. -/
theorem method_select_locked (methods : List Method) (m : Method)
    (hm : m ∈ methods) (hlock : m.modifier = some "locked")
    (hrecv : m.name ≠ "receive") (hfb : m.name ≠ "fallback") :
    (∃ either fb arms,
      methodSelect methods = .root [
        .switch (LtA CallDataSizeA (LitA 4)) [.caseArm (LitA 1) either]
          (some (.defaultArm (.block [
            .switch (ShrA 224 (CallDataLoadA 0)) arms
              (some (.defaultArm fb))]))),
        StopA] ∧
      (Ast.caseArm (hexNumberNode m.signature)
        (.block (methodCheck m ++
          [CallA "__mutex_lock" [], CallA ("__method_" ++ m.name) [],
           CallA "__mutex_unlock" []]))) ∈ arms) ∧
    methodCall m = .root [CallA "__mutex_lock" [],
      CallA ("__method_" ++ m.name) [], CallA "__mutex_unlock" []] := by
  constructor
  · have hne : methods.length ≠ 0 := by
      cases methods with
      | nil => cases hm
      | cons a l => simp
    rw [methodSelect, if_neg hne]
    rcases hsel : selectLoop methods (none, .block [RevertA], []) with ⟨recv, fb, arms⟩
    have hmem := selectLoop_mem hm hrecv hfb (none, .block [RevertA], [])
    rw [hsel] at hmem
    rw [show methodArmBlock m = .block (methodCheck m ++
        [CallA "__mutex_lock" [], CallA ("__method_" ++ m.name) [],
         CallA "__mutex_unlock" []]) from by rw [methodArmBlock, if_pos hlock]]
      at hmem
    cases recv with
    | none => exact ⟨fb, fb, arms, rfl, hmem⟩
    | some r =>
      exact ⟨.block [.switch (EqA CallDataSizeA (LitA 0))
        [.caseArm (LitA 1) r] (some (.defaultArm fb))], fb, arms, rfl, hmem⟩
  · rw [methodCall, if_pos hlock]

def lockedMethod : Method :=
  ⟨"transfer", some "locked", none, [], false, true, "0xaabbccdd"⟩

/-- Witness for `method_select_locked` at a one-method contract. -/
theorem method_select_locked_witness :
    (∃ either fb arms,
      methodSelect [lockedMethod] = .root [
        .switch (LtA CallDataSizeA (LitA 4)) [.caseArm (LitA 1) either]
          (some (.defaultArm (.block [
            .switch (ShrA 224 (CallDataLoadA 0)) arms
              (some (.defaultArm fb))]))),
        StopA] ∧
      (Ast.caseArm (hexNumberNode lockedMethod.signature)
        (.block (methodCheck lockedMethod ++
          [CallA "__mutex_lock" [], CallA ("__method_" ++ lockedMethod.name) [],
           CallA "__mutex_unlock" []]))) ∈ arms) ∧
    methodCall lockedMethod = .root [CallA "__mutex_lock" [],
      CallA ("__method_" ++ lockedMethod.name) [], CallA "__mutex_unlock" []] :=
  method_select_locked [lockedMethod] lockedMethod
    (List.mem_singleton_self _) rfl (by decide) (by decide)

theorem selectLoop_append (xs ys : List Method) (st : Option Ast × Ast × List Ast) :
    selectLoop (xs ++ ys) st = selectLoop ys (selectLoop xs st) := by
  induction xs generalizing st with
  | nil => rfl
  | cons m xs ih =>
    obtain ⟨recv, fb, arms⟩ := st
    rw [List.cons_append, selectLoop, selectLoop]
    split_ifs <;> exact ih _

/-- Methods other than `fallback` leave the loop's fallback block alone. -/
theorem selectLoop_fb_stable (ms : List Method)
    (h : ∀ m' ∈ ms, m'.name ≠ "fallback") (st : Option Ast × Ast × List Ast) :
    (selectLoop ms st).2.1 = st.2.1 := by
  induction ms generalizing st with
  | nil => rfl
  | cons m ms ih =>
    obtain ⟨recv, fb, arms⟩ := st
    rw [selectLoop]
    have hrest : ∀ m' ∈ ms, m'.name ≠ "fallback" :=
      fun m' hm' => h m' (List.mem_cons_of_mem m hm')
    split_ifs with h1 h2
    · exact ih hrest _
    · exact absurd h2 (h m (List.mem_cons_self m ms))
    · exact ih hrest _

/-- C10: a method whose mutability is not `payable` gets a check prelude
beginning with `if callvalue() { revert(0, 0) }`, and that guard heads the
method's dispatcher arm: the signature-keyed `Case` for a proper method,
and — for a declared `fallback` (its declaration not overridden later) —
the dispatcher's default arm. -/
theorem method_check_nonpayable (methods : List Method) (m : Method)
    (hpay : m.mutability ≠ some "payable") (hrecv : m.name ≠ "receive") :
    (methodCheck m).head? =
      some (.ifStmt (CallA "callvalue" [])
        (.block [CallA "revert" [LitA 0, LitA 0]]) [] none) ∧
    (m ∈ methods → m.name ≠ "fallback" →
      ∃ either fb arms tail,
        methodSelect methods = .root [
          .switch (LtA CallDataSizeA (LitA 4)) [.caseArm (LitA 1) either]
            (some (.defaultArm (.block [
              .switch (ShrA 224 (CallDataLoadA 0)) arms
                (some (.defaultArm fb))]))),
          StopA] ∧
        (Ast.caseArm (hexNumberNode m.signature)
          (.block (.ifStmt (CallA "callvalue" [])
            (.block [CallA "revert" [LitA 0, LitA 0]]) [] none :: tail))) ∈ arms) ∧
    (∀ pre post, methods = pre ++ m :: post → m.name = "fallback" →
      (∀ m' ∈ post, m'.name ≠ "fallback") →
      ∃ either arms tail,
        methodSelect methods = .root [
          .switch (LtA CallDataSizeA (LitA 4)) [.caseArm (LitA 1) either]
            (some (.defaultArm (.block [
              .switch (ShrA 224 (CallDataLoadA 0)) arms
                (some (.defaultArm (.block (.ifStmt (CallA "callvalue" [])
                  (.block [CallA "revert" [LitA 0, LitA 0]]) [] none :: tail))))]))),
          StopA]) := by
  have hchk : ∃ rest, methodCheck m =
      .ifStmt (CallA "callvalue" [])
        (.block [CallA "revert" [LitA 0, LitA 0]]) [] none :: rest := by
    refine ⟨(if ¬ m.isFunction then [] else
      (if m.array then
        [RequireGteA CallDataSizeA (LitA ((4 + m.params.length * 32 : ℕ) : ℤ))]
      else [RequireEqA CallDataSizeA (LitA ((4 + m.params.length * 32 : ℕ) : ℤ))]) ++
      m.params.filterMap paramCheck), ?_⟩
    rw [methodCheck, if_pos hpay]
    rfl
  obtain ⟨rest, hrest⟩ := hchk
  have harm : ∃ suffix, methodArmBlock m =
      .block (.ifStmt (CallA "callvalue" [])
        (.block [CallA "revert" [LitA 0, LitA 0]]) [] none :: (rest ++ suffix)) := by
    rw [methodArmBlock]
    by_cases hl : m.modifier = some "locked"
    · refine ⟨[CallA "__mutex_lock" [], CallA ("__method_" ++ m.name) [],
        CallA "__mutex_unlock" []], ?_⟩
      rw [if_pos hl, hrest]
      rfl
    · refine ⟨[CallA ("__method_" ++ m.name) []], ?_⟩
      rw [if_neg hl, hrest]
      rfl
  obtain ⟨suffix, hsuffix⟩ := harm
  refine ⟨by rw [hrest]; rfl, ?_, ?_⟩
  · intro hm hfb
    have hne : methods.length ≠ 0 := by
      cases methods with
      | nil => cases hm
      | cons a l => simp
    rw [methodSelect, if_neg hne]
    rcases hsel : selectLoop methods (none, .block [RevertA], []) with ⟨recv, fb, arms⟩
    have hmem := selectLoop_mem hm hrecv hfb (none, .block [RevertA], [])
    rw [hsel, hsuffix] at hmem
    cases recv with
    | none => exact ⟨fb, fb, arms, rest ++ suffix, rfl, hmem⟩
    | some r =>
      exact ⟨.block [.switch (EqA CallDataSizeA (LitA 0))
        [.caseArm (LitA 1) r] (some (.defaultArm fb))], fb, arms,
        rest ++ suffix, rfl, hmem⟩
  · intro pre post hms hfb hpost
    subst hms
    have hne : (pre ++ m :: post).length ≠ 0 := by simp
    rw [methodSelect, if_neg hne, selectLoop_append]
    rcases hmid : selectLoop pre (none, .block [RevertA], []) with ⟨r0, f0, a0⟩
    rw [selectLoop, if_neg hrecv, if_pos hfb]
    have hfb2 := selectLoop_fb_stable post hpost (r0, methodArmBlock m, a0)
    rcases hsel : selectLoop post (r0, methodArmBlock m, a0) with ⟨recv, fb, arms⟩
    rw [hsel] at hfb2
    have hfb3 : fb = methodArmBlock m := hfb2
    cases recv with
    | none =>
      refine ⟨fb, arms, rest ++ suffix, ?_⟩
      rw [show mkSelectRoot (none, fb, arms) = .root [
        .switch (LtA CallDataSizeA (LitA 4)) [.caseArm (LitA 1) fb]
          (some (.defaultArm (.block [
            .switch (ShrA 224 (CallDataLoadA 0)) arms
              (some (.defaultArm fb))]))),
        StopA] from rfl, hfb3, hsuffix]
    | some r =>
      refine ⟨.block [.switch (EqA CallDataSizeA (LitA 0))
        [.caseArm (LitA 1) r] (some (.defaultArm fb))], arms, rest ++ suffix, ?_⟩
      rw [show mkSelectRoot (some r, fb, arms) = .root [
        .switch (LtA CallDataSizeA (LitA 4))
          [.caseArm (LitA 1) (.block [.switch (EqA CallDataSizeA (LitA 0))
            [.caseArm (LitA 1) r] (some (.defaultArm fb))])]
          (some (.defaultArm (.block [
            .switch (ShrA 224 (CallDataLoadA 0)) arms
              (some (.defaultArm fb))]))),
        StopA] from rfl]
      rw [hfb3, hsuffix]

def plainMethod : Method :=
  ⟨"totalSupply", none, none, [], false, true, "0x18160ddd"⟩

def fallbackMethod : Method :=
  ⟨"fallback", none, none, [], false, false, "0x552079dc"⟩

/-- Witness for `method_check_nonpayable` at a two-method contract: a
proper non-payable method and a declared non-payable fallback. -/
theorem method_check_nonpayable_witness :
    ((methodCheck plainMethod).head? =
      some (.ifStmt (CallA "callvalue" [])
        (.block [CallA "revert" [LitA 0, LitA 0]]) [] none) ∧
    (∃ either fb arms tail,
      methodSelect [plainMethod, fallbackMethod] = .root [
        .switch (LtA CallDataSizeA (LitA 4)) [.caseArm (LitA 1) either]
          (some (.defaultArm (.block [
            .switch (ShrA 224 (CallDataLoadA 0)) arms
              (some (.defaultArm fb))]))),
        StopA] ∧
      (Ast.caseArm (hexNumberNode plainMethod.signature)
        (.block (.ifStmt (CallA "callvalue" [])
          (.block [CallA "revert" [LitA 0, LitA 0]]) [] none :: tail))) ∈ arms)) ∧
    ((methodCheck fallbackMethod).head? =
      some (.ifStmt (CallA "callvalue" [])
        (.block [CallA "revert" [LitA 0, LitA 0]]) [] none) ∧
    (∃ either arms tail,
      methodSelect [plainMethod, fallbackMethod] = .root [
        .switch (LtA CallDataSizeA (LitA 4)) [.caseArm (LitA 1) either]
          (some (.defaultArm (.block [
            .switch (ShrA 224 (CallDataLoadA 0)) arms
              (some (.defaultArm (.block (.ifStmt (CallA "callvalue" [])
                (.block [CallA "revert" [LitA 0, LitA 0]]) [] none :: tail))))]))),
        StopA])) := by
  have hp1 : plainMethod.mutability ≠ some "payable" := by decide
  have hr1 : plainMethod.name ≠ "receive" := by decide
  have hf1 : plainMethod.name ≠ "fallback" := by decide
  have hp2 : fallbackMethod.mutability ≠ some "payable" := by decide
  have hr2 : fallbackMethod.name ≠ "receive" := by decide
  have h1 := method_check_nonpayable [plainMethod, fallbackMethod] plainMethod hp1 hr1
  have h2 := method_check_nonpayable [plainMethod, fallbackMethod] fallbackMethod hp2 hr2
  exact ⟨⟨h1.1, h1.2.1 (List.mem_cons_self _ _) hf1⟩,
    ⟨h2.1, h2.2.2 [plainMethod] [] rfl rfl (fun m' hm' => absurd hm' (by simp))⟩⟩

/-! ### Struct packing (claim C5)

`Struct.init` (member width parsing, big-endian packing of the defaults,
the final size check) and `Struct.fold` (argument packing with `@`
defaults).  JavaScript `BigInt` shifts take signed counts (`x << s` is a
right shift for negative `s`), hence `jsShlZ`. -/

def decDigits13 (cs : List Char) : Bool :=
  decide (1 ≤ cs.length) && decide (cs.length ≤ 3) && cs.all Char.isDigit

def decDigits12 (cs : List Char) : Bool :=
  decide (1 ≤ cs.length) && decide (cs.length ≤ 2) && cs.all Char.isDigit

/-- The width cascade of `Struct.init`: `uint\d{1,3}`, `int\d{1,3}`,
`address`, `bool`, `bytes\d{1,2}` (times 8), `function`; anything else is
an error (`none`). -/
def structTypeWidth (s : String) : Option ℕ :=
  if startsWithL "uint".data s.data && decDigits13 (s.data.drop 4) then
    some (decValue (s.data.drop 4))
  else if startsWithL "int".data s.data && decDigits13 (s.data.drop 3) then
    some (decValue (s.data.drop 3))
  else if s = "address" then some 160
  else if s = "bool" then some 1
  else if startsWithL "bytes".data s.data && decDigits12 (s.data.drop 5) then
    some (decValue (s.data.drop 5) * 8)
  else if s = "function" then some 192
  else none

structure StructMember where
  name : String
  offset : ℕ
  width : ℕ
  value : ℕ
  shift : ℤ
  mod : ℕ
deriving Repr, DecidableEq

/-- The `StructMember` constructor: `shift = 256 - (offset + width)` (a
JavaScript number, negative while an oversized struct is still being
scanned), `value = toBigInt(value) & mask`, `mod = mask`. -/
def mkStructMember (name : String) (offset width : ℕ) (v : ℕ) : StructMember :=
  ⟨name, offset, width, v &&& (2 ^ width - 1), 256 - ((offset : ℤ) + width),
    2 ^ width - 1⟩

/-- JavaScript `x << s` on BigInts: a right shift for negative `s`. -/
def jsShlZ (x : ℕ) (s : ℤ) : ℕ :=
  if 0 ≤ s then x <<< s.toNat else x >>> (-s).toNat

structure StructMemberDecl where
  kind : String
  name : String
  value : Expr

/-- The accumulator `n |= mem.value << BigInt(mem.shift)` folded over a
member list. -/
def packRest (ms : List StructMember) (n : ℕ) : ℕ :=
  ms.foldl (fun a m => a ||| jsShlZ m.value m.shift) n

/-- The member loop of `Struct.init` followed by the final size check;
returns the packed default constant, the struct width, and the member
records. -/
def structInitCore : ℕ → ℕ → List StructMember → List StructMemberDecl →
    Except String (ℕ × ℕ × List StructMember)
  | offset, n, acc, [] =>
    if offset = 0 ∨ offset > 256 then .error "Invalid struct size"
    else .ok (n, offset, acc)
  | offset, n, acc, d :: rest =>
    match structTypeWidth d.kind with
    | none => .error "Invalid struct type"
    | some width =>
      if d.name = "+" then structInitCore (offset + width) n acc rest
      else if (acc.map StructMember.name).contains d.name then
        .error "Duplicate struct member name"
      else if !isLiteral d.value then
        .error "Default value must be a literal"
      else
        structInitCore (offset + width)
          (n ||| jsShlZ (mkStructMember d.name offset width (litNat d.value)).value
            (mkStructMember d.name offset width (litNat d.value)).shift)
          (acc ++ [mkStructMember d.name offset width (litNat d.value)]) rest

def structInit (decls : List StructMemberDecl) :
    Except String (ℕ × ℕ × List StructMember) :=
  structInitCore 0 0 [] decls

/-- `isDefaultIdentifier`: the `@` placeholder. -/
def isDefaultIdentifier : Expr → Bool
  | .ident v => v == "@"
  | _ => false

def OrE (x y : Expr) : Expr := .call "or" [x, y]

def ShlZE (s : ℤ) (e : Expr) : Expr := .call "shl" [Lit s, e]

/-- `StructMember.accumulate(acc, value)`. -/
def accumulate (m : StructMember) (acc : Expr) (value : Expr) : Expr :=
  if isZero acc then
    if m.shift = 0 then value else ShlZE m.shift value
  else if m.shift = 0 then OrE acc value
  else OrE acc (ShlZE m.shift value)

/-- The first loop of `Struct.fold`: defaults and literals are packed into
`n`, non-literal arguments are pushed with their member. -/
def foldArgsLoop : List StructMember → List Expr → ℕ →
    List (StructMember × Expr) → ℕ × List (StructMember × Expr)
  | _, [], n, stack => (n, stack)
  | [], _ :: _, n, stack => (n, stack)
  | m :: ms, a :: as, n, stack =>
    if isDefaultIdentifier a then
      foldArgsLoop ms as (n ||| jsShlZ m.value m.shift) stack
    else if isLiteral a then
      foldArgsLoop ms as (n ||| jsShlZ (litNat a &&& m.mod) m.shift) stack
    else foldArgsLoop ms as n (stack ++ [(m, a)])

/-- The expression `Struct.fold` returns once arguments are present: the
packed constant with the stacked non-literal members accumulated on top. -/
def structFoldExpr (members : List StructMember) (args : List Expr) : Expr :=
  (foldArgsLoop members args 0 []).2.foldl
    (fun e ma => accumulate ma.1 e ma.2)
    (Lit ((packRest (members.drop args.length)
      (foldArgsLoop members args 0 []).1 : ℕ) : ℤ))

/-- `Struct.fold(args)`. -/
def structFold (members : List StructMember) (value : Expr) (args : List Expr) :
    Except String Expr :=
  if args.length = 0 then .ok value
  else if members.length < args.length then
    .error "Too many arguments passed to struct"
  else .ok (structFoldExpr members args)

/-- The member widths as scanned, `0` standing in for an invalid type
(which `Struct.init` rejects anyway). -/
def widthSum (decls : List StructMemberDecl) : ℕ :=
  (decls.map (fun d => (structTypeWidth d.kind).getD 0)).sum

set_option maxHeartbeats 1600000 in
theorem structInitCore_spec (decls : List StructMemberDecl) :
    ∀ offset n acc res, structInitCore offset n acc decls = .ok res →
      res.2.1 = offset + widthSum decls ∧ 0 < res.2.1 ∧ res.2.1 ≤ 256 ∧
      ∃ new, res.2.2 = acc ++ new ∧
        (∀ mem ∈ new, mem.shift = 256 - ((mem.offset : ℤ) + mem.width)) ∧
        res.1 = packRest new n := by
  induction decls with
  | nil =>
    intro offset n acc res h
    rw [structInitCore] at h
    split_ifs at h with h1
    injection h with h
    subst h
    refine ⟨?_, ?_, ?_, [], ?_, ?_, ?_⟩
    · show offset = offset + widthSum []
      simp [widthSum]
    · show 0 < offset
      omega
    · show offset ≤ 256
      omega
    · show acc = acc ++ []
      simp
    · simp
    · rfl
  | cons d rest ih =>
    intro offset n acc res h
    rw [structInitCore] at h
    cases htw : structTypeWidth d.kind with
    | none =>
      rw [htw] at h
      exact Except.noConfusion h
    | some width =>
      simp only [htw] at h
      have hws : widthSum (d :: rest) = width + widthSum rest := by
        rw [widthSum, List.map_cons, List.sum_cons, htw]
        rfl
      by_cases h1 : d.name = "+"
      · rw [if_pos h1] at h
        obtain ⟨ha, hb, hc, new, hnew, hsh, hn⟩ := ih (offset + width) n acc res h
        exact ⟨by rw [ha, hws]; omega, hb, hc, new, hnew, hsh, hn⟩
      · rw [if_neg h1] at h
        by_cases h2 : ((acc.map StructMember.name).contains d.name) = true
        · rw [if_pos h2] at h
          exact Except.noConfusion h
        · rw [if_neg h2] at h
          by_cases h3 : (!isLiteral d.value) = true
          · rw [if_pos h3] at h
            exact Except.noConfusion h
          · rw [if_neg h3] at h
            obtain ⟨ha, hb, hc, new, hnew, hsh, hn⟩ :=
              ih (offset + width) _ _ res h
            refine ⟨by rw [ha, hws]; omega, hb, hc,
              mkStructMember d.name offset width (litNat d.value) :: new, ?_, ?_, hn⟩
            · rw [hnew]
              simp
            · intro mem hmem
              rcases List.mem_cons.mp hmem with heq | hmem'
              · subst heq
                rfl
              · exact hsh mem hmem'

theorem foldArgsLoop_defaults (args : List Expr) :
    ∀ (ms : List StructMember) (n : ℕ) (stack : List (StructMember × Expr)),
      (∀ a ∈ args, isDefaultIdentifier a = true) → args.length ≤ ms.length →
      foldArgsLoop ms args n stack = (packRest (ms.take args.length) n, stack) := by
  induction args with
  | nil =>
    intro ms n stack _ _
    cases ms <;> rfl
  | cons a as ih =>
    intro ms n stack hall hlen
    cases ms with
    | nil => simp at hlen
    | cons m ms' =>
      rw [foldArgsLoop, if_pos (hall a (List.mem_cons_self a as))]
      rw [ih ms' (n ||| jsShlZ m.value m.shift) stack
        (fun x hx => hall x (List.mem_cons_of_mem a hx)) (by simpa using hlen)]
      rfl

theorem packRest_take_drop (ms : List StructMember) (k : ℕ) (n : ℕ) :
    packRest (ms.drop k) (packRest (ms.take k) n) = packRest ms n := by
  rw [packRest, packRest, packRest, ← List.foldl_append, List.take_append_drop]

/-- C5: when `Struct.init` accepts a struct, its width is the sum of the
member widths including `+` padding and lies in `(0, 256]` (so an
out-of-range sum is rejected); every member is packed big-endian, shifted
left by `256 - (offset + width)`; and a struct initialiser with no
arguments, or with only `@` default arguments, folds to the single packed
default constant. -/
theorem struct_spec (decls : List StructMemberDecl) (n w : ℕ)
    (ms : List StructMember) (h : structInit decls = .ok (n, w, ms)) :
    (w = widthSum decls ∧ 0 < w ∧ w ≤ 256) ∧
    (∀ mem ∈ ms, mem.shift = 256 - ((mem.offset : ℤ) + mem.width)) ∧
    structFold ms (Lit (n : ℤ)) [] = .ok (Lit (n : ℤ)) ∧
    (∀ args : List Expr, (∀ a ∈ args, isDefaultIdentifier a = true) →
      args.length ≤ ms.length →
      structFold ms (Lit (n : ℤ)) args = .ok (Lit (n : ℤ))) := by
  obtain ⟨ha, hb, hc, new, hnew, hsh, hn⟩ :=
    structInitCore_spec decls 0 0 [] (n, w, ms) h
  have hms : ms = new := by simpa using hnew
  rw [← hms] at hsh hn
  refine ⟨⟨by simpa using ha, hb, hc⟩, hsh, rfl, ?_⟩
  intro args hall hlen
  cases args with
  | nil => rfl
  | cons a as =>
    rw [structFold, if_neg (by simp), if_neg (by omega)]
    rw [structFoldExpr, foldArgsLoop_defaults (a :: as) ms 0 [] hall hlen]
    rw [packRest_take_drop]
    simp only [List.foldl_nil]
    rw [← hn]

def btcDecls : List StructMemberDecl :=
  [⟨"uint64", "value", Lit 0⟩, ⟨"uint24", "prefix", Lit 0x160014⟩,
   ⟨"bytes20", "hash", Lit 0⟩]

def btcMembers : List StructMember :=
  [⟨"value", 0, 64, 0, 192, 2 ^ 64 - 1⟩,
   ⟨"prefix", 64, 24, 0x160014, 168, 2 ^ 24 - 1⟩,
   ⟨"hash", 88, 160, 0, 8, 2 ^ 160 - 1⟩]

/-- Witness for `struct_spec` at the 248-bit `btc_output` struct
(`uint64 value; uint24 prefix := 0x160014; bytes20 hash`). -/
theorem struct_spec_witness :
    structInit btcDecls = .ok (0x160014 * 2 ^ 168, 248, btcMembers) ∧
    (248 = widthSum btcDecls ∧ 0 < 248 ∧ 248 ≤ 256) ∧
    structFold btcMembers (Lit ((0x160014 * 2 ^ 168 : ℕ) : ℤ)) [] =
      .ok (Lit ((0x160014 * 2 ^ 168 : ℕ) : ℤ)) ∧
    structFold btcMembers (Lit ((0x160014 * 2 ^ 168 : ℕ) : ℤ))
        [.ident "@", .ident "@", .ident "@"] =
      .ok (Lit ((0x160014 * 2 ^ 168 : ℕ) : ℤ)) := by
  have h : structInit btcDecls = .ok (0x160014 * 2 ^ 168, 248, btcMembers) := by
    rfl
  have hs := struct_spec btcDecls (0x160014 * 2 ^ 168) 248 btcMembers h
  exact ⟨h, hs.1, hs.2.2.1,
    hs.2.2.2 [.ident "@", .ident "@", .ident "@"] (by decide) (by decide)⟩

end Jul

